import Mathlib

/-!
# lis.go: a shallow embedding of the interpreter and its verified properties

The development follows `lis.go` function by function.

* Go values of interface type `Expression` are modelled by `Option Expression`
  (`Value`): `none` is the Go `nil` interface value.
* A `*List` is the chain of cells built by `List.Append`: the cells carrying the
  elements, closed by one empty cell `List{}` (`Val == nil`, `Rest == nil`).  It is
  modelled by the Lean list of its elements.
* A `*Env` is modelled by the list of the scopes on its parent chain, innermost first.
* Run-time panics are explicit (`Panic`); functions that may fail to terminate take
  a fuel argument and report `outOfFuel` when it is exhausted.
-/

namespace Lis

/-! ## Run-time failures -/

/-- The ways in which the Go program can panic. -/
inductive Panic where
  /-- `panic("unexpected EOF while reading")` in `read_from_tokens`. -/
  | unexpectedEOF
  /-- `panic("unexpected )")` in `read_from_tokens`. -/
  | unexpectedCloseParen
  /-- A failed type assertion `x.(T)` (runtime error: interface conversion). -/
  | interfaceConversion
  /-- Field access through a nil `*List` (runtime error: nil pointer dereference). -/
  | nilPointerDereference
  /-- Slice index out of range. -/
  | indexOutOfRange
  /-- Assignment to an entry in a nil map. -/
  | assignNilMap
  /-- Integer division by zero. -/
  | divideByZero
  deriving DecidableEq, Repr

/-! ## float64 -/

/-- An IEEE 754 binary64 value.  `fin neg m e` is `(-1)^neg * m * 2^e`, kept canonical:
`m < 2^53`, `-1074 ≤ e ≤ 971`, and `2^52 ≤ m` unless `e = -1074`. -/
inductive F64 where
  | nan
  | inf (neg : Bool)
  | fin (neg : Bool) (m : Nat) (e : Int)
  deriving DecidableEq, Repr

namespace F64

/-- Whether `n / d ≥ 2 ^ l`. -/
def geTwoPow (n d : Nat) (l : Int) : Bool :=
  if 0 ≤ l then decide (d * 2 ^ l.toNat ≤ n) else decide (d ≤ n * 2 ^ (-l).toNat)

/-- Auxiliary for `log2`, by recursion on a bound for the number of halvings. -/
def log2Aux : Nat → Nat → Nat
  | 0, _ => 0
  | fuel + 1, n => if n < 2 then 0 else log2Aux fuel (n / 2) + 1

/-- The position of the highest set bit of `n`: `2 ^ log2 n ≤ n < 2 ^ (log2 n + 1)` for
`n > 0`. -/
def log2 (n : Nat) : Nat := log2Aux n n

/-- The binary64 value nearest to `(-1)^neg * n / d` (`d > 0`), ties to even. -/
def nearest (neg : Bool) (n d : Nat) : F64 :=
  if n = 0 then fin neg 0 (-1074) else
    let l : Int := (log2 n : Int) - (log2 d : Int)
    let fl : Int := if geTwoPow n d l then l else l - 1
    let e : Int := max (fl - 52) (-1074)
    let num : Nat := if e < 0 then n * 2 ^ (-e).toNat else n
    let den : Nat := if e < 0 then d else d * 2 ^ e.toNat
    let q := num / den
    let r := num % den
    let m := if den < 2 * r ∨ (2 * r = den ∧ q % 2 = 1) then q + 1 else q
    let m1 := if m = 2 ^ 53 then 2 ^ 52 else m
    let e1 := if m = 2 ^ 53 then e + 1 else e
    if 971 < e1 then inf neg else fin neg m1 e1

/-- The binary64 value nearest to `(-1)^neg * n * 2^e`. -/
def ofScaled (neg : Bool) (n : Nat) (e : Int) : F64 :=
  if 0 ≤ e then nearest neg (n * 2 ^ e.toNat) 1 else nearest neg n (2 ^ (-e).toNat)

/-- The integer `(-1)^neg * m * 2^(e - e0)`, for `e0 ≤ e`. -/
def scaledInt (neg : Bool) (m : Nat) (e e0 : Int) : Int :=
  if neg then -((m * 2 ^ (e - e0).toNat : Nat) : Int) else ((m * 2 ^ (e - e0).toNat : Nat) : Int)

/-- Go `x + y` on float64. -/
def add : F64 → F64 → F64
  | nan, _ => nan
  | _, nan => nan
  | inf a, inf b => if a = b then inf a else nan
  | inf a, fin _ _ _ => inf a
  | fin _ _ _, inf b => inf b
  | fin s1 m1 e1, fin s2 m2 e2 =>
    let e0 := min e1 e2
    let v := scaledInt s1 m1 e1 e0 + scaledInt s2 m2 e2 e0
    if v = 0 then fin (s1 && s2) 0 (-1074) else ofScaled (decide (v < 0)) v.natAbs e0

/-- Go unary `-x` on float64. -/
def neg : F64 → F64
  | nan => nan
  | inf a => inf (!a)
  | fin s m e => fin (!s) m e

/-- Go `x - y` on float64. -/
def sub (x y : F64) : F64 := add x (neg y)

/-- Go `x * y` on float64. -/
def mul : F64 → F64 → F64
  | nan, _ => nan
  | _, nan => nan
  | inf a, inf b => inf (xor a b)
  | inf a, fin s m _ => if m = 0 then nan else inf (xor a s)
  | fin s m _, inf b => if m = 0 then nan else inf (xor s b)
  | fin s1 m1 e1, fin s2 m2 e2 => ofScaled (xor s1 s2) (m1 * m2) (e1 + e2)

/-- Go `x / y` on float64. -/
def div : F64 → F64 → F64
  | nan, _ => nan
  | _, nan => nan
  | inf _, inf _ => nan
  | inf a, fin s _ _ => inf (xor a s)
  | fin s _ _, inf b => fin (xor s b) 0 (-1074)
  | fin s1 m1 e1, fin s2 m2 e2 =>
    if m2 = 0 then (if m1 = 0 then nan else inf (xor s1 s2))
    else if e2 ≤ e1 then nearest (xor s1 s2) (m1 * 2 ^ (e1 - e2).toNat) m2
    else nearest (xor s1 s2) m1 (m2 * 2 ^ (e2 - e1).toNat)

/-- Go `x < y` on float64. -/
def lt : F64 → F64 → Bool
  | nan, _ => false
  | _, nan => false
  | inf a, inf b => a && !b
  | inf a, fin _ _ _ => a
  | fin _ _ _, inf b => !b
  | fin s1 m1 e1, fin s2 m2 e2 =>
    decide (scaledInt s1 m1 e1 (min e1 e2) < scaledInt s2 m2 e2 (min e1 e2))

/-- Go `x > y` on float64. -/
def gt (x y : F64) : Bool := lt y x

/-- Go `x == y` on float64. -/
def eq : F64 → F64 → Bool
  | nan, _ => false
  | _, nan => false
  | inf a, inf b => a == b
  | inf _, fin _ _ _ => false
  | fin _ _ _, inf _ => false
  | fin s1 m1 e1, fin s2 m2 e2 =>
    decide (scaledInt s1 m1 e1 (min e1 e2) = scaledInt s2 m2 e2 (min e1 e2))

/-- Go conversion `float64(i)` of an int64. -/
def ofInt (i : Int) : F64 := nearest (decide (i < 0)) i.natAbs 1

/-- Go conversion `int64(f)`: truncation toward zero.  For a value outside the int64
range (and for NaN) the Go specification leaves the result to the implementation; the
amd64 result `-2^63` is used. -/
def toInt64 : F64 → Int
  | fin s m e =>
    let t : Nat := if 0 ≤ e then m * 2 ^ e.toNat else m / 2 ^ (-e).toNat
    let v : Int := if s then -(t : Int) else (t : Int)
    if -(2 : Int) ^ 63 ≤ v ∧ v < (2 : Int) ^ 63 then v else -(2 : Int) ^ 63
  | _ => -(2 : Int) ^ 63

/-- The binary64 value nearest to `c * 10^k`. -/
def ofDecimal (c : Nat) (k : Int) : F64 :=
  if 0 ≤ k then nearest false (c * 10 ^ k.toNat) 1 else nearest false c (10 ^ (-k).toNat)

/-- Whether `n / d < 10 ^ k`. -/
def ltTenPow (n d : Nat) (k : Int) : Bool :=
  if 0 ≤ k then decide (n < d * 10 ^ k.toNat) else decide (n * 10 ^ (-k).toNat < d)

/-- The least `j ≥ k` with `n / d < 10 ^ (j + 1)`, looking at no more than `fuel`
exponents. -/
def decExpAux (n d : Nat) : Nat → Int → Int
  | 0, k => k
  | fuel + 1, k => if ltTenPow n d (k + 1) then k else decExpAux n d fuel (k + 1)

/-- The decimal exponent `⌊log10 (n / d)⌋` of a positive binary64 value `n / d`
(these lie between `10^(-324)` and `10^309`). -/
def decExp (n d : Nat) : Int := decExpAux n d 700 (-324)

/-- The decimal `c * 10^k` with `nd` digits that `strconv` prints for `m * 2^e`, when one
with that many digits reads back as `m * 2^e`: of the two `nd`-digit decimals around the
value, the one that reads back, and the nearer one when both do. -/
def decimalAt (m : Nat) (e : Int) (nd : Nat) : Option (Nat × Int) :=
  let n := if 0 ≤ e then m * 2 ^ e.toNat else m
  let d := if 0 ≤ e then 1 else 2 ^ (-e).toNat
  let k : Int := decExp n d - ((nd : Int) - 1)
  let num := if 0 ≤ k then n else n * 10 ^ (-k).toNat
  let den := if 0 ≤ k then d * 10 ^ k.toNat else d
  let lo := num / den
  let r := num % den
  let okLo := decide (ofDecimal lo k = fin false m e)
  let okHi := decide (ofDecimal (lo + 1) k = fin false m e)
  let up := decide (den < 2 * r) || (decide (2 * r = den) && decide (lo % 2 = 1))
  if okLo && okHi then some (if up then lo + 1 else lo, k)
  else if okLo then some (lo, k)
  else if okHi then some (lo + 1, k)
  else none

/-- The shortest decimal that reads back as `m * 2^e` (`strconv.FormatFloat` with
precision `-1`): its digits without trailing zeros, and the position `dp` of the decimal
point (the value is `0.d₁d₂… * 10^dp`).  Seventeen digits always suffice for a canonical
value. -/
def shortest (m : Nat) (e : Int) : List Char × Int :=
  match (List.range 17).findSome? (fun i => decimalAt m e (i + 1)) with
  | some (c, k) =>
    let ds := Nat.toDigits 10 c
    ((ds.reverse.dropWhile (fun ch => ch = '0')).reverse, (ds.length : Int) + k)
  | none => ([], 0)

/-- The `%e` layout of `strconv`: `d.ddde±dd`. -/
def fmtE (ds : List Char) (dp : Int) : List Char :=
  let exp := dp - 1
  let mant := match ds with
    | [] => ['0']
    | [c] => [c]
    | c :: cs => c :: '.' :: cs
  let ex := Nat.toDigits 10 exp.natAbs
  mant ++ ['e', if exp < 0 then '-' else '+'] ++ (if ex.length < 2 then '0' :: ex else ex)

/-- The `%f` layout of `strconv` with `max (nd - dp) 0` decimals. -/
def fmtF (ds : List Char) (dp : Int) : List Char :=
  let nd := ds.length
  let ip := if 0 < dp then ds.take dp.toNat ++ List.replicate (dp.toNat - nd) '0' else ['0']
  let prec := ((nd : Int) - dp).toNat
  let frac := (List.range prec).map
    (fun i => if 0 ≤ dp + i ∧ dp + i < nd then ds.getD (dp + i).toNat '0' else '0')
  if prec = 0 then ip else ip ++ '.' :: frac

/-- What `fmt.Sprint` prints for a float64 (verb `%v`, that is
`strconv.FormatFloat(f, 'g', -1, 64)`): the shortest digits that read back, laid out as
`%e` when the decimal exponent is below `-4` or at least `6`, and as `%f` otherwise. -/
def sprint : F64 → String
  | nan => "NaN"
  | inf false => "+Inf"
  | inf true => "-Inf"
  | fin s m e =>
    let (ds, dp) := if m = 0 then (([] : List Char), (0 : Int)) else shortest m e
    let body := if dp - 1 < -4 ∨ 6 ≤ dp - 1 then fmtE ds dp else fmtF ds dp
    String.mk (if s then '-' :: body else body)

end F64

/-! ## Expressions -/

/-- The seven Go functions of type `Function` that `baseEnv` installs; no other value of
that type is ever created. -/
inductive Function where
  | plus | minus | multiple | divide | gt | lt | eq
  deriving DecidableEq, Repr

/-- The concrete types implementing the Go interface `Expression`.  `list xs` is a
non-nil `*List` whose cells carry the elements `xs`; `userFunction` is the struct
`UserFunction{Name, Args, Body}`. -/
inductive Expression where
  | symbol (s : String)
  | list (xs : List Expression)
  | function (f : Function)
  | userFunction (name : String) (args : List String) (body : List Expression)
  | bool (b : Bool)
  | integer (i : Int)
  | float (f : F64)

/-- A Go value of interface type `Expression`; `none` is `nil`. -/
abbrev Value := Option Expression

/-- Go `strconv.Itoa`. -/
def itoa (i : Int) : String :=
  String.mk (if i < 0 then '-' :: Nat.toDigits 10 i.natAbs else Nat.toDigits 10 i.natAbs)

mutual
/-- The methods `Sexpr` of the seven expression types. -/
def Expression.Sexpr : Expression → String
  | .symbol s => s
  | .function _ => "function"
  | .userFunction name _ _ => "user-function:" ++ name
  | .bool b => if b then "true" else "false"
  | .list xs => sexprLoop "(" xs
  | .integer i => itoa i
  | .float f => F64.sprint f
/-- The loop of `(*List).Sexpr` over the cells, `buf` being the text so far, followed by
the closing `return buf + ")"`. -/
def sexprLoop (buf : String) : List Expression → String
  | [] => buf ++ ")"
  | x :: rest => sexprLoop ((if 1 < buf.length then buf ++ " " else buf) ++ x.Sexpr) rest
end

/-! ## Environments -/

/-- A Go `map[string]Expression`, as its entries; every key occurs once. -/
abbrev Scope := List (String × Value)

/-- The `ok` of `_, ok := m[k]`. -/
def Scope.has : Scope → String → Bool
  | [], _ => false
  | (k', _) :: rest, k => if k' = k then true else Scope.has rest k

/-- The map index expression `m[k]`: the value stored under `k`, and `nil` when there is
none. -/
def Scope.get : Scope → String → Value
  | [], _ => none
  | (k', v) :: rest, k => if k' = k then v else Scope.get rest k

/-- The map after the assignment `m[k] = v`. -/
def Scope.set : Scope → String → Value → Scope
  | [], k, v => [(k, v)]
  | (k', v') :: rest, k, v => if k' = k then (k, v) :: rest else (k', v') :: Scope.set rest k v

/-- A `*Env`: the scopes of the environment itself and of its ancestors, innermost first.
The empty chain stands for the nil pointer, which the program only ever uses as the
`parent` of the outermost environment: `repl` evaluates in `baseEnv()` and a call
evaluates in `NewEnv(env)`, so `eval` only ever receives a non-empty chain. -/
abbrev Env := List Scope

/-- Go `NewEnv(parent)`. -/
def NewEnv (parent : Env) : Env := [] :: parent

/-- The field `env.scope`. -/
def Env.scope : Env → Scope
  | [] => []
  | scope :: _ => scope

/-- The field `env.parent`. -/
def Env.parent : Env → Env
  | [] => []
  | _ :: parent => parent

/-- The method `env.Find(symbol)`: the map of the innermost environment on the chain
whose map has the symbol; `none` is the nil map returned when there is none. -/
def Env.Find : Env → String → Option Scope
  | [], _ => none
  | scope :: parent, symbol =>
    if Scope.has scope symbol then some scope else Env.Find parent symbol

/-- Indexing the map returned by `Find`; indexing a nil map yields `nil`. -/
def mapIndex : Option Scope → String → Value
  | none, _ => none
  | some m, k => Scope.get m k

/-- The chain after `env.scope[k] = v`. -/
def Env.assign : Env → String → Value → Env
  | [], _, _ => []
  | scope :: parent, k, v => Scope.set scope k v :: parent

/-- The chain after `env.Find(symbol)[symbol] = v` when `Find` returned a map: maps are
references, so the write lands in the environment whose map was returned. -/
def Env.assignFound : Env → String → Value → Env
  | [], _, _ => []
  | scope :: parent, symbol, v =>
    if Scope.has scope symbol then Scope.set scope symbol v :: parent
    else scope :: Env.assignFound parent symbol v

/-! ## Builtin procedures -/

/-- Reduction of an integer to the int64 range (two's complement wrap-around). -/
def wrap64 (x : Int) : Int := (x + 2 ^ 63) % 2 ^ 64 - 2 ^ 63

/-- Go `isFloat`. -/
def isFloat : Value → Bool
  | some (.float _) => true
  | _ => false

/-- Go `toFloat`; the type assertion `e.(Integer)` panics on anything else. -/
def toFloat : Value → Except Panic F64
  | some (.float f) => .ok f
  | some (.integer i) => .ok (F64.ofInt i)
  | _ => .error .interfaceConversion

/-- Go `toInt`; the type assertion `e.(Integer)` panics on anything else. -/
def toInt : Value → Except Panic Int
  | some (.float f) => .ok (F64.toInt64 f)
  | some (.integer i) => .ok i
  | _ => .error .interfaceConversion

/-- Go `plus`. -/
def plus (_env : Env) (exprs : List Value) : Except Panic Value :=
  match exprs with
  | a :: b :: _ =>
    if isFloat a || isFloat b then do
      let x ← toFloat a
      let y ← toFloat b
      pure (some (.float (F64.add x y)))
    else do
      let x ← toInt a
      let y ← toInt b
      pure (some (.integer (wrap64 (x + y))))
  | _ => .error .indexOutOfRange

/-- Go `minus`. -/
def minus (_env : Env) (exprs : List Value) : Except Panic Value :=
  match exprs with
  | a :: b :: _ =>
    if isFloat a || isFloat b then do
      let x ← toFloat a
      let y ← toFloat b
      pure (some (.float (F64.sub x y)))
    else do
      let x ← toInt a
      let y ← toInt b
      pure (some (.integer (wrap64 (x - y))))
  | _ => .error .indexOutOfRange

/-- Go `multiple`. -/
def multiple (_env : Env) (exprs : List Value) : Except Panic Value :=
  match exprs with
  | a :: b :: _ =>
    if isFloat a || isFloat b then do
      let x ← toFloat a
      let y ← toFloat b
      pure (some (.float (F64.mul x y)))
    else do
      let x ← toInt a
      let y ← toInt b
      pure (some (.integer (wrap64 (x * y))))
  | _ => .error .indexOutOfRange

/-- Go `divide`; the integer quotient truncates toward zero and panics on a zero
divisor. -/
def divide (_env : Env) (exprs : List Value) : Except Panic Value :=
  match exprs with
  | a :: b :: _ =>
    if isFloat a || isFloat b then do
      let x ← toFloat a
      let y ← toFloat b
      pure (some (.float (F64.div x y)))
    else do
      let x ← toInt a
      let y ← toInt b
      if y = 0 then .error .divideByZero else pure (some (.integer (wrap64 (Int.tdiv x y))))
  | _ => .error .indexOutOfRange

/-- Go `gt`. -/
def gt (_env : Env) (exprs : List Value) : Except Panic Value :=
  match exprs with
  | a :: b :: _ => do
    let x ← toFloat a
    let y ← toFloat b
    pure (some (.bool (F64.gt x y)))
  | _ => .error .indexOutOfRange

/-- Go `lt`. -/
def lt (_env : Env) (exprs : List Value) : Except Panic Value :=
  match exprs with
  | a :: b :: _ => do
    let x ← toFloat a
    let y ← toFloat b
    pure (some (.bool (F64.lt x y)))
  | _ => .error .indexOutOfRange

/-- Go `eq`. -/
def eq (_env : Env) (exprs : List Value) : Except Panic Value :=
  match exprs with
  | a :: b :: _ => do
    let x ← toFloat a
    let y ← toFloat b
    pure (some (.bool (F64.eq x y)))
  | _ => .error .indexOutOfRange

/-- Calling a value of type `Function`. -/
def Function.call : Function → Env → List Value → Except Panic Value
  | .plus => Lis.plus
  | .minus => Lis.minus
  | .multiple => Lis.multiple
  | .divide => Lis.divide
  | .gt => Lis.gt
  | .lt => Lis.lt
  | .eq => Lis.eq

/-- Go `baseEnv`. -/
def baseEnv : Env :=
  [[("+", some (.function .plus)), ("-", some (.function .minus)),
    ("*", some (.function .multiple)), ("/", some (.function .divide)),
    (">", some (.function .gt)), ("<", some (.function .lt)),
    ("==", some (.function .eq))]]

/-! ## The evaluator -/

/-- How a call of a Go function ends: it returns, it panics, or the model ran out of
fuel before it did either. -/
inductive Outcome (α : Type) where
  | ret (a : α)
  | panic (p : Panic)
  | outOfFuel

/-- The outcome of a function that needs no fuel. -/
def Outcome.ofExcept {α : Type} : Except Panic α → Outcome α
  | .ok a => .ret a
  | .error p => .panic p

/-- The type of `eval` at a given fuel: from an expression and the chain of `env` to the
outcome and the chain of `env` afterwards. -/
abbrev Evaluator := Value → Env → Outcome Value × Env

/-- The argument loop of `evalList`: `args = append(args, eval(ptr.Val, env))` for each
cell after the head, in order. -/
def evalArgs (ev : Evaluator) : List Expression → Env → List Value → Outcome (List Value) × Env
  | [], env, args => (.ret args, env)
  | x :: rest, env, args =>
    match ev (some x) env with
    | (.ret v, env1) => evalArgs ev rest env1 (args ++ [v])
    | (.panic p, env1) => (.panic p, env1)
    | (.outOfFuel, env1) => (.outOfFuel, env1)

/-- The first loop of `callUserFunction`, `env.scope[arg] = args[i]` for each declared
parameter, on the scope of the new environment. -/
def bindArgs : List String → List Value → Scope → Except Panic Scope
  | [], _, scope => .ok scope
  | _ :: _, [], _ => .error .indexOutOfRange
  | arg :: fargs, a :: args, scope => bindArgs fargs args (Scope.set scope arg a)

/-- The second loop of `callUserFunction`: `ret = eval(expr, env)` for each body
expression, in order; `ret` starts as `nil`. -/
def evalBody (ev : Evaluator) : List Expression → Env → Value → Outcome Value × Env
  | [], env, ret => (.ret ret, env)
  | expr :: rest, env, _ =>
    match ev (some expr) env with
    | (.ret v, env1) => evalBody ev rest env1 v
    | (o, env1) => (o, env1)

/-- Go `callUserFunction(env, f, args)` for `f = UserFunction{_, fargs, fbody}`.  The
chain returned is that of the caller's `env`: the new environment is dropped. -/
def callUserFunction (ev : Evaluator) (env : Env) (fargs : List String)
    (fbody : List Expression) (args : List Value) : Outcome Value × Env :=
  match bindArgs fargs args (NewEnv env).scope with
  | .ok scope =>
    match evalBody ev fbody (scope :: env) none with
    | (o, env1) => (o, env1.parent)
  | .error p => (.panic p, env)

/-- The parameter loop of the `define-func` case: `string(argsExpr.Val.(Symbol))` for
each cell; `none` when a type assertion fails. -/
def symbolNames : List Expression → Option (List String)
  | [] => some []
  | .symbol s :: rest => (symbolNames rest).map (fun names => s :: names)
  | _ :: _ => none

/-- Go `evalList(x, env)`, on the elements of `x`, with `ev` for the calls of `eval`. -/
def evalList (ev : Evaluator) (x : List Expression) (env : Env) : Outcome Value × Env :=
  match x with
  | .symbol name :: rest =>
    if name = "if" then
      match rest with
      | test :: conseq :: rest2 =>
        match ev (some test) env with
        | (.ret (some (.bool res)), env1) =>
          if res then ev (some conseq) env1 else ev rest2.head? env1
        | (.ret _, env1) => (.panic .interfaceConversion, env1)
        | (o, env1) => (o, env1)
      | _ => (.panic .nilPointerDereference, env)
    else if name = "define" then
      match rest with
      | vvar :: rest2 =>
        match ev rest2.head? env with
        | (.ret v, env1) =>
          (.ret (Scope.get (Env.assign env1 vvar.Sexpr v).scope vvar.Sexpr),
            Env.assign env1 vvar.Sexpr v)
        | (o, env1) => (o, env1)
      | [] => (.panic .nilPointerDereference, env)
    else if name = "set!" then
      match rest with
      | .symbol vvar :: rest2 =>
        match Env.Find env vvar with
        | some _ => (.ret rest2.head?, Env.assignFound env vvar rest2.head?)
        | none => (.panic .assignNilMap, env)
      | _ :: _ => (.panic .interfaceConversion, env)
      | [] => (.panic .nilPointerDereference, env)
    else if name = "define-func" then
      match rest with
      | .symbol fname :: .list argsExpr :: body =>
        match symbolNames argsExpr with
        | some args =>
          (.ret (some (.userFunction fname args body)),
            Env.assign env fname (some (.userFunction fname args body)))
        | none => (.panic .interfaceConversion, env)
      | _ => (.panic .interfaceConversion, env)
    else
      match ev (some (.symbol name)) env with
      | (.ret proc, env1) =>
        match evalArgs ev rest env1 [] with
        | (.ret args, env2) =>
          match proc with
          | some (.userFunction _ fargs fbody) => callUserFunction ev env2 fargs fbody args
          | some (.function f) => (Outcome.ofExcept (f.call (NewEnv env2) args), env2)
          | _ => (.panic .interfaceConversion, env2)
        | (.panic p, env2) => (.panic p, env2)
        | (.outOfFuel, env2) => (.outOfFuel, env2)
      | (o, env1) => (o, env1)
  | _ => (.panic .interfaceConversion, env)

/-- Go `eval(x, env)`.  Every call of `eval` costs one unit of fuel. -/
def eval : Nat → Evaluator
  | 0, _, env => (.outOfFuel, env)
  | fuel + 1, x, env =>
    match x with
    | some (.symbol val) => (.ret (mapIndex (Env.Find env val) val), env)
    | some (.list xs) => evalList (eval fuel) xs env
    | _ => (.ret x, env)

/-! ## Parsing: parse, tokenize, and read_from_tokens -/

/-- Go `strings.ReplaceAll(s, old, new)` for a one-character `old`. -/
def replaceAll (old : Char) (new : List Char) : List Char → List Char
  | [] => []
  | c :: cs => if c = old then new ++ replaceAll old new cs else c :: replaceAll old new cs

/-- Go `strings.Split(s, sep)` for a one-character `sep`: the pieces between the
separators, empty pieces included. -/
def split (sep : Char) : List Char → List (List Char)
  | [] => [[]]
  | c :: cs =>
    if c = sep then [] :: split sep cs
    else match split sep cs with
      | [] => [[c]]
      | piece :: pieces => (c :: piece) :: pieces

/-- Go `tokenize`, up to the wrapping in a `TokenStream`: the tokens in order.
`fp.StreamOf(xs).Reject(fp.EmptyString()).Strings()` keeps the non-empty strings. -/
def tokenize (s : String) : List String :=
  ((split ' ' (replaceAll ')' [' ', ')', ' '] (replaceAll '(' [' ', '(', ' '] s.data))).filter
    (fun piece => !piece.isEmpty)).map String.mk

/-- The digit loop of `strconv.ParseUint` in base 10. -/
def parseDigits : List Char → Nat → Option Nat
  | [], acc => some acc
  | c :: cs, acc =>
    if 48 ≤ c.toNat ∧ c.toNat ≤ 57 then parseDigits cs (acc * 10 + (c.toNat - 48)) else none

/-- Go `strconv.ParseInt(s, 10, 64)`: an optional sign and one or more decimal digits,
whose value fits in an int64; `none` when it returns an error. -/
def ParseInt (s : String) : Option Int :=
  match s.data with
  | [] => none
  | c :: cs =>
    let digits := if c = '+' ∨ c = '-' then cs else c :: cs
    if digits.isEmpty then none else
      match parseDigits digits 0 with
      | none => none
      | some un =>
        if c = '-' then (if un ≤ 2 ^ 63 then some (-(un : Int)) else none)
        else (if un < 2 ^ 63 then some (un : Int) else none)

/-- Go `(*List).Append`, on the elements of the list. -/
def Append (l : List Expression) (e : Expression) : List Expression := l ++ [e]

section Reader

/- Go `strconv.ParseFloat(token, 64)`, a routine of the standard library that the
development does not fix: `none` when it returns an error. -/
variable (parseFloat : String → Option F64)

/-- Go `atom`. -/
def atom (token : String) : Expression :=
  match ParseInt token with
  | some val =>
    if !token.data.contains '.' then .integer val
    else match parseFloat token with
      | some fval => .float fval
      | none => if token = "true" ∨ token = "false" then .bool (token = "true") else .symbol token
  | none =>
    match parseFloat token with
    | some fval => .float fval
    | none => if token = "true" ∨ token = "false" then .bool (token = "true") else .symbol token

mutual
/-- Go `read_from_tokens`, on the tokens not yet consumed (`tokens[idx:]`): the expression
read and the tokens left. -/
def read_from_tokens : Nat → List String → Outcome (Expression × List String)
  | 0, _ => .outOfFuel
  | _ + 1, [] => .panic .unexpectedEOF
  | fuel + 1, token :: tokens =>
    if token = "(" then readLoop fuel tokens []
    else if token = ")" then .panic .unexpectedCloseParen
    else .ret (atom parseFloat token, tokens)
/-- The loop `for tokens.Peek() != ")" { l.Append(read_from_tokens(tokens)) }` and the
`tokens.Pop()` after it, `l` being the list so far.  `Peek` indexes `tokens[idx]` and
panics when the tokens are used up. -/
def readLoop : Nat → List String → List Expression → Outcome (Expression × List String)
  | 0, _, _ => .outOfFuel
  | _ + 1, [], _ => .panic .indexOutOfRange
  | fuel + 1, token :: tokens, l =>
    if token = ")" then .ret (.list l, tokens)
    else match read_from_tokens fuel (token :: tokens) with
      | .ret (e, tokens1) => readLoop fuel tokens1 (Append l e)
      | .panic p => .panic p
      | .outOfFuel => .outOfFuel
end

/-- Go `parse`.  The fuel given covers every source: see `parse_fuel`. -/
def parse (program : String) : Outcome Expression :=
  match read_from_tokens parseFloat (2 * (tokenize program).length + 1) (tokenize program) with
  | .ret (e, _) => .ret e
  | .panic p => .panic p
  | .outOfFuel => .outOfFuel

end Reader

/-! ## Notions used to state the properties -/

/-- `EvalSeq ev xs env vs env'`: evaluated one after the other, from left to right and
starting in `env`, the expressions `xs` return the values `vs`, leaving `env'`. -/
inductive EvalSeq (ev : Evaluator) : List Expression → Env → List Value → Env → Prop where
  | nil (env : Env) : EvalSeq ev [] env [] env
  | cons {x : Expression} {xs : List Expression} {env env1 env2 : Env} {v : Value}
      {vs : List Value} (hx : ev (some x) env = (.ret v, env1))
      (hxs : EvalSeq ev xs env1 vs env2) : EvalSeq ev (x :: xs) env (v :: vs) env2

/-- The scope in which each parameter is bound, in order, to the argument at its
position. -/
def bindScope (fargs : List String) (args : List Value) : Scope :=
  (List.zip fargs args).foldl (fun scope p => Scope.set scope p.1 p.2) []

/-- The token that has been collected, if any: empty tokens are not kept. -/
def flushToken (cur : List Char) : List String :=
  if cur.isEmpty then [] else [String.mk cur]

/-- The tokens of a text as a description in words gives them, `isSep` telling which
characters separate tokens: each `(` and each `)` is a one-character token of its own, the
rest of the text is cut at the separators, in source order, and no token is empty.  `cur`
holds the characters of the token being collected. -/
def tokensBy (isSep : Char → Bool) : List Char → List Char → List String
  | [], cur => flushToken cur
  | c :: cs, cur =>
    if isSep c then flushToken cur ++ tokensBy isSep cs []
    else if c = '(' ∨ c = ')' then flushToken cur ++ String.mk [c] :: tokensBy isSep cs []
    else tokensBy isSep cs (cur ++ [c])

/-- Separation by whitespace: spaces, tabs and newlines alike. -/
def isWhitespace (c : Char) : Bool := c == ' ' || c == '\t' || c == '\n' || c == '\r'

/-- Separation by the space character alone. -/
def isSpace (c : Char) : Bool := c == ' '

/-- The type of `setEvaluated` at a given fuel. -/
abbrev SetTracker := Value → Env → Bool

/-- Whether a `set!` form is evaluated while the expressions of an argument list or of a
procedure body are evaluated in order (`st` and `ev` stand for `setEvaluated` and `eval`
on each expression): the loop goes on to the next expression when one returns. -/
def setInSeq (st : SetTracker) (ev : Evaluator) : List Expression → Env → Bool
  | [], _ => false
  | x :: rest, env =>
    st (some x) env ||
      match ev (some x) env with
      | (.ret _, env1) => setInSeq st ev rest env1
      | _ => false

/-- Whether a `set!` form is evaluated during `callUserFunction(env, f, args)`: during
the evaluation of the body in the new environment. -/
def setInCall (st : SetTracker) (ev : Evaluator) (env : Env) (fargs : List String)
    (fbody : List Expression) (args : List Value) : Bool :=
  match bindArgs fargs args (NewEnv env).scope with
  | .ok scope => setInSeq st ev fbody (scope :: env)
  | .error _ => false

/-- Whether a `set!` form is evaluated during `evalList(x, env)`: the list itself is one,
or one is evaluated during a nested call of `eval` or of a user procedure that `evalList`
makes.  It follows `evalList` case by case. -/
def setInList (st : SetTracker) (ev : Evaluator) (x : List Expression) (env : Env) : Bool :=
  match x with
  | .symbol name :: rest =>
    if name = "if" then
      match rest with
      | test :: conseq :: rest2 =>
        st (some test) env ||
          match ev (some test) env with
          | (.ret (some (.bool res)), env1) =>
            if res then st (some conseq) env1 else st rest2.head? env1
          | _ => false
      | _ => false
    else if name = "define" then
      match rest with
      | _ :: rest2 => st rest2.head? env
      | [] => false
    else if name = "set!" then true
    else if name = "define-func" then false
    else
      st (some (.symbol name)) env ||
        match ev (some (.symbol name)) env with
        | (.ret proc, env1) =>
          setInSeq st ev rest env1 ||
            match evalArgs ev rest env1 [] with
            | (.ret args, env2) =>
              match proc with
              | some (.userFunction _ fargs fbody) => setInCall st ev env2 fargs fbody args
              | _ => false
            | _ => false
        | _ => false
  | _ => false

/-- Whether a `set!` form is evaluated during `eval(x, env)` run with the given fuel. -/
def setEvaluated : Nat → SetTracker
  | 0, _, _ => false
  | fuel + 1, x, env =>
    match x with
    | some (.list xs) => setInList (setEvaluated fuel) (eval fuel) xs env
    | _ => false

/-- A character that can stand inside an atom token: any but the space and the two
parentheses. -/
def plainChar (c : Char) : Prop := c ≠ ' ' ∧ c ≠ '(' ∧ c ≠ ')'

/-- What a token of `tokenize` looks like: a parenthesis, or a non-empty run of plain
characters. -/
def TokenOK (t : String) : Prop :=
  t = "(" ∨ t = ")" ∨ (t.data ≠ [] ∧ ∀ c ∈ t.data, plainChar c)

mutual
/-- Whether no Float atom occurs in the expression. -/
def noFloat : Expression → Bool
  | .float _ => false
  | .list xs => noFloatList xs
  | .userFunction _ _ body => noFloatList body
  | _ => true
/-- Whether no Float atom occurs in the expressions of the list. -/
def noFloatList : List Expression → Bool
  | [] => true
  | x :: xs => noFloat x && noFloatList xs
end

mutual
/-- The tokens of the rendering of an expression: an atom is one token, a list is its
elements' tokens between parentheses. -/
def toks : Expression → List String
  | .list xs => "(" :: (toksList xs ++ [")"])
  | .symbol s => [(Expression.symbol s).Sexpr]
  | .function f => [(Expression.function f).Sexpr]
  | .userFunction name args body => [(Expression.userFunction name args body).Sexpr]
  | .bool b => [(Expression.bool b).Sexpr]
  | .integer i => [(Expression.integer i).Sexpr]
  | .float f => [(Expression.float f).Sexpr]
/-- The tokens of the renderings of the expressions of a list, in order. -/
def toksList : List Expression → List String
  | [] => []
  | x :: xs => toks x ++ toksList xs
end

/-- The expressions that the reader can build with a given `strconv.ParseFloat`: Symbols
whose name is a token that `atom` classifies as a Symbol, int64 Integers, Bools (which
supposes that `atom` classifies the token `true` or `false` as a Bool), Floats, and lists
of such expressions. -/
inductive Readable (parseFloat : String → Option F64) : Expression → Prop where
  | symbol (t : String) (hne : t.data ≠ []) (hplain : ∀ c ∈ t.data, plainChar c)
      (hatom : atom parseFloat t = .symbol t) : Readable parseFloat (.symbol t)
  | integer (i : Int) (h1 : -(2 : Int) ^ 63 ≤ i) (h2 : i < (2 : Int) ^ 63) :
      Readable parseFloat (.integer i)
  | bool (b : Bool) (hatom : atom parseFloat (Expression.bool b).Sexpr = .bool b) :
      Readable parseFloat (.bool b)
  | float (f : F64) : Readable parseFloat (.float f)
  | list (xs : List Expression) (h : ∀ x ∈ xs, Readable parseFloat x) :
      Readable parseFloat (.list xs)

/-! ## Rounding to the nearest float64, and reading a decimal literal -/

/-- The exponent `⌊log2 (n / d)⌋` that `nearest` computes for `n / d`, `n` and `d`
positive. -/
def F64.binExp (n d : Nat) : Int :=
  let l : Int := (F64.log2 n : Int) - (F64.log2 d : Int)
  if F64.geTwoPow n d l then l else l - 1

/-- The rounding step of `nearest`, at the binary exponent `e`: the integer nearest to
`n / d / 2^e`, ties to even. -/
def F64.roundMant (n d : Nat) (e : Int) : Nat :=
  let num : Nat := if e < 0 then n * 2 ^ (-e).toNat else n
  let den : Nat := if e < 0 then d else d * 2 ^ e.toNat
  let q := num / den
  let r := num % den
  if den < 2 * r ∨ (2 * r = den ∧ q % 2 = 1) then q + 1 else q

/-- The last step of `nearest`: the float64 of mantissa `m` at the exponent `e`, with the
carry into the next binade and the overflow to infinity. -/
def F64.pack (neg : Bool) (m : Nat) (e : Int) : F64 :=
  let m1 := if m = 2 ^ 53 then 2 ^ 52 else m
  let e1 := if m = 2 ^ 53 then e + 1 else e
  if 971 < e1 then F64.inf neg else F64.fin neg m1 e1

/-- The binary64 value nearest to `(-1)^neg * c * 10^k`. -/
def F64.readValue (neg : Bool) (c : Nat) (k : Int) : F64 :=
  if 0 ≤ k then F64.nearest neg (c * 10 ^ k.toNat) 1 else F64.nearest neg c (10 ^ (-k).toNat)

/-- Whether the value is a float64: `nan`, an infinity, or a finite value in canonical
form. -/
def F64.Canonical : F64 → Prop
  | .fin _ m e => m < 2 ^ 53 ∧ -1074 ≤ e ∧ e ≤ 971 ∧ (2 ^ 52 ≤ m ∨ e = -1074)
  | _ => True

/-- The number that a run of decimal digits writes. -/
def digitsValue (ds : List Char) : Nat := ds.foldl (fun a c => a * 10 + (c.toNat - 48)) 0

/-- The decimal digits at the head of a text, and the rest of the text. -/
def spanDigits : List Char → List Char × List Char
  | [] => ([], [])
  | c :: cs =>
    if 48 ≤ c.toNat ∧ c.toNat ≤ 57 then (c :: (spanDigits cs).1, (spanDigits cs).2)
    else ([], c :: cs)

/-- The exponent part of a decimal literal, as `%e` writes it: nothing, or `e`, a sign and
one or more digits. -/
def readExponent : List Char → Option Int
  | [] => some 0
  | 'e' :: '+' :: ds =>
    if !ds.isEmpty && (spanDigits ds).2.isEmpty then some (digitsValue ds : Int) else none
  | 'e' :: '-' :: ds =>
    if !ds.isEmpty && (spanDigits ds).2.isEmpty then some (-(digitsValue ds : Int)) else none
  | _ => none

/-- A decimal literal `digits[.digits][e±digits]`: the number `c` that its digits write
and the power of ten `k`, the literal standing for `c * 10^k`; `none` for any other
text. -/
def readDecimal (cs : List Char) : Option (Nat × Int) :=
  if (spanDigits cs).1.isEmpty then none else
    match (spanDigits cs).2 with
    | '.' :: r =>
      if (spanDigits r).1.isEmpty then none else
        match readExponent (spanDigits r).2 with
        | some x =>
          some (digitsValue ((spanDigits cs).1 ++ (spanDigits r).1),
            x - ((spanDigits r).1.length : Int))
        | none => none
    | r1 =>
      match readExponent r1 with
      | some x => some (digitsValue (spanDigits cs).1, x)
      | none => none

/-- What `strconv.ParseFloat(t, 64)` returns without error on the texts `NaN`, `+Inf` and
`-Inf` and on a decimal literal `[+-]digits[.digits][e±digits]` that does not overflow:
the float64 nearest to the number written, ties to even.  `none` stands for the texts this
description does not cover. -/
def decimalFloat (t : String) : Option F64 :=
  if t = "NaN" then some .nan
  else if t = "+Inf" then some (.inf false)
  else if t = "-Inf" then some (.inf true)
  else
    match readDecimal (if t.data.head? = some '-' ∨ t.data.head? = some '+'
        then t.data.tail else t.data) with
    | none => none
    | some (c, k) =>
      match F64.readValue (decide (t.data.head? = some '-')) c k with
      | .fin s m e => some (.fin s m e)
      | _ => none

/-! ## Maps and environment chains -/

theorem Scope.has_set_self (sc : Scope) (k : String) (v : Value) :
    Scope.has (Scope.set sc k v) k = true := by
  induction sc with
  | nil => simp [Scope.set, Scope.has]
  | cons p rest ih =>
    obtain ⟨k', v'⟩ := p
    by_cases h : k' = k
    · simp [Scope.set, Scope.has, h]
    · simp [Scope.set, Scope.has, h, ih]

theorem Scope.get_set_self (sc : Scope) (k : String) (v : Value) :
    Scope.get (Scope.set sc k v) k = v := by
  induction sc with
  | nil => simp [Scope.set, Scope.get]
  | cons p rest ih =>
    obtain ⟨k', v'⟩ := p
    by_cases h : k' = k
    · simp [Scope.set, Scope.get, h]
    · simp [Scope.set, Scope.get, h, ih]

theorem Scope.has_set_other (sc : Scope) (k k' : String) (v : Value) (hk : k' ≠ k) :
    Scope.has (Scope.set sc k v) k' = Scope.has sc k' := by
  induction sc with
  | nil => simp [Scope.set, Scope.has, Ne.symm hk]
  | cons p rest ih =>
    obtain ⟨k₀, v₀⟩ := p
    by_cases h : k₀ = k
    · subst h
      simp [Scope.set, Scope.has, Ne.symm hk]
    · by_cases h' : k₀ = k'
      · subst h'
        simp [Scope.set, Scope.has, h]
      · simp [Scope.set, Scope.has, h, h', ih]

theorem Scope.get_set_other (sc : Scope) (k k' : String) (v : Value) (hk : k' ≠ k) :
    Scope.get (Scope.set sc k v) k' = Scope.get sc k' := by
  induction sc with
  | nil => simp [Scope.set, Scope.get, Ne.symm hk]
  | cons p rest ih =>
    obtain ⟨k₀, v₀⟩ := p
    by_cases h : k₀ = k
    · subst h
      simp [Scope.set, Scope.get, Ne.symm hk]
    · by_cases h' : k₀ = k'
      · subst h'
        simp [Scope.set, Scope.get, h]
      · simp [Scope.set, Scope.get, h, h', ih]

theorem Env.Find_eq_none (env : Env) (name : String)
    (h : ∀ scope ∈ env, Scope.has scope name = false) : Env.Find env name = none := by
  induction env with
  | nil => rfl
  | cons scope parent ih =>
    have h1 : Scope.has scope name = false := h scope (List.mem_cons_self _ _)
    simp only [Env.Find, h1]
    exact ih (fun sc hsc => h sc (List.mem_cons_of_mem _ hsc))

/-! ## C1: a symbol that is bound nowhere -/

/-- C1, as stated, fails on the code: in the base environment, where `x` is bound nowhere,
`eval` of the symbol `x` does not fail; it returns the nil expression. -/
theorem C1_counterexample :
    Env.Find baseEnv "x" = none ∧
      eval 1 (some (.symbol "x")) baseEnv = (.ret none, baseEnv) :=
  ⟨rfl, rfl⟩

/-- C1, amended: for a name bound neither in the scope of `env` nor in that of an
ancestor, `eval` of the symbol does not fail: it returns the nil expression and leaves the
chain as it was.  Evaluating `(+ x y)` in the base environment, `x` and `y` undefined,
does fail, by the failed type assertion of `plus` on its nil operand. -/
theorem C1_unbound_symbol_returns_nil (scope : Scope) (parents : Env) (name : String)
    (fuel : Nat) (h : ∀ sc ∈ scope :: parents, Scope.has sc name = false) :
    eval (fuel + 1) (some (.symbol name)) (scope :: parents) = (.ret none, scope :: parents) ∧
      eval (fuel + 2) (some (.list [.symbol "+", .symbol "x", .symbol "y"])) baseEnv
        = (.panic .interfaceConversion, baseEnv) := by
  refine ⟨?_, rfl⟩
  simp only [eval, Env.Find_eq_none (scope :: parents) name h, mapIndex]

/-- An instance of C1, amended: `x` looked up in a child of a root environment, neither
of which binds it. -/
theorem C1_unbound_symbol_returns_nil_witness :
    (∀ sc ∈ [("y", some (Expression.integer 1))] :: [[]], Scope.has sc "x" = false) ∧
      (eval 1 (some (.symbol "x")) ([("y", some (Expression.integer 1))] :: [[]])
          = (.ret none, [("y", some (Expression.integer 1))] :: [[]]) ∧
        eval 2 (some (.list [.symbol "+", .symbol "x", .symbol "y"])) baseEnv
          = (.panic .interfaceConversion, baseEnv)) :=
  ⟨by decide,
    C1_unbound_symbol_returns_nil [("y", some (Expression.integer 1))] [[]] "x" 0
      (by decide)⟩

/-! ## C2: tokens running out inside a list -/

theorem read_eof_aux (parseFloat : String → Option F64) (fuel : Nat) :
    (∀ tokens, read_from_tokens parseFloat fuel tokens = .panic .unexpectedEOF → tokens = []) ∧
      (∀ tokens l, readLoop parseFloat fuel tokens l ≠ .panic .unexpectedEOF) := by
  induction fuel with
  | zero =>
    constructor
    · intro tokens h
      simp [read_from_tokens] at h
    · intro tokens l h
      simp [readLoop] at h
  | succ n ih =>
    obtain ⟨ih1, ih2⟩ := ih
    constructor
    · intro tokens h
      cases tokens with
      | nil => rfl
      | cons token tokens =>
        exfalso
        simp only [read_from_tokens] at h
        split_ifs at h
        · exact ih2 _ _ h
        · cases h
    · intro tokens l h
      cases tokens with
      | nil => simp [readLoop] at h
      | cons token tokens =>
        simp only [readLoop] at h
        split_ifs at h
        split at h
        · exact ih2 _ _ h
        · rename_i p hp
          cases h
          have := ih1 _ hp
          simp at this
        · simp at h

theorem read_fuel_aux (parseFloat : String → Option F64) (fuel : Nat) :
    (∀ tokens, 2 * tokens.length + 1 ≤ fuel →
        read_from_tokens parseFloat fuel tokens ≠ .outOfFuel ∧
        ∀ e rest, read_from_tokens parseFloat fuel tokens = .ret (e, rest) →
          rest.length < tokens.length) ∧
      (∀ tokens l, 2 * tokens.length + 2 ≤ fuel →
        readLoop parseFloat fuel tokens l ≠ .outOfFuel ∧
        ∀ e rest, readLoop parseFloat fuel tokens l = .ret (e, rest) →
          rest.length < tokens.length) := by
  induction fuel with
  | zero =>
    constructor
    · intro tokens h; omega
    · intro tokens l h; omega
  | succ n ih =>
    obtain ⟨ih1, ih2⟩ := ih
    constructor
    · intro tokens h
      cases tokens with
      | nil => simp [read_from_tokens]
      | cons token tokens =>
        simp only [List.length_cons] at h
        simp only [read_from_tokens]
        split_ifs
        · obtain ⟨h1, h2⟩ := ih2 tokens [] (by omega)
          refine ⟨h1, fun e rest hr => ?_⟩
          have := h2 e rest hr
          simp only [List.length_cons]; omega
        · simp
        · simp
    · intro tokens l h
      cases tokens with
      | nil => simp [readLoop]
      | cons token tokens =>
        simp only [List.length_cons] at h
        simp only [readLoop]
        split_ifs
        · simp
        · obtain ⟨h1, h2⟩ := ih1 (token :: tokens) (by simp only [List.length_cons]; omega)
          split
          · rename_i e tokens1 hr
            have hlt := h2 e tokens1 hr
            simp only [List.length_cons] at hlt
            obtain ⟨h3, h4⟩ := ih2 tokens1 (Append l e) (by omega)
            refine ⟨h3, fun e' rest hr' => ?_⟩
            have := h4 e' rest hr'
            simp only [List.length_cons]; omega
          · simp
          · rename_i hr
            exact absurd hr h1

theorem parse_fuel (parseFloat : String → Option F64) (program : String) :
    parse parseFloat program ≠ .outOfFuel := by
  have h := ((read_fuel_aux parseFloat _).1 (tokenize program) (le_refl _)).1
  unfold parse
  split
  · simp
  · simp
  · rename_i hr
    exact absurd hr h

/-- C2 at the failing input `"(+ 1 2"`: the reader does not reach its end-of-input check;
`Peek` indexes past the last token and the failure is an index out of range.  The failure
"unexpected EOF while reading" is the one raised on the empty source, and the reader
raises it on no token sequence but the empty one, so never inside an unclosed list. -/
theorem C2_unclosed_list_index_out_of_range (parseFloat : String → Option F64) :
    parse parseFloat "(+ 1 2" = .panic .indexOutOfRange ∧
      parse parseFloat "" = .panic .unexpectedEOF ∧
      (∀ fuel tokens,
        read_from_tokens parseFloat fuel tokens = .panic .unexpectedEOF → tokens = []) :=
  ⟨rfl, rfl, fun fuel => (read_eof_aux parseFloat fuel).1⟩

/-! ## C3: the empty list -/

/-- C3, as stated, fails on the code: evaluating the empty list in the base environment
panics. -/
theorem C3_counterexample :
    eval 2 (some (.list [])) baseEnv = (.panic .interfaceConversion, baseEnv) :=
  rfl

/-- C3, amended: in every environment, evaluating the empty list fails at the type
assertion `x.Val.(Symbol)` of `evalList` (the head of the empty list is nil); no value is
returned and the chain is left as it was. -/
theorem C3_empty_list_panics (env : Env) (fuel : Nat) :
    eval (fuel + 1) (some (.list [])) env = (.panic .interfaceConversion, env) :=
  rfl

/-! ## C4: argument count of a user procedure -/

theorem bindArgs_too_few (fargs : List String) (args : List Value) (scope : Scope)
    (h : args.length < fargs.length) : bindArgs fargs args scope = .error .indexOutOfRange := by
  induction fargs generalizing args scope with
  | nil => simp at h
  | cons arg fargs ih =>
    cases args with
    | nil => rfl
    | cons a args =>
      simp only [bindArgs]
      exact ih args _ (by simpa using h)

theorem bindArgs_take (fargs : List String) (args : List Value) (scope : Scope) :
    bindArgs fargs (args.take fargs.length) scope = bindArgs fargs args scope := by
  induction fargs generalizing args scope with
  | nil => cases args <;> rfl
  | cons arg fargs ih =>
    cases args with
    | nil => rfl
    | cons a args =>
      simp only [List.length_cons, List.take_succ_cons, bindArgs]
      exact ih args _

/-- C4, as stated, fails on the code: a procedure declared without parameters and applied
to one argument returns the value of its body. -/
theorem C4_counterexample :
    eval 3 (some (.list [.symbol "f", .integer 5]))
        [[("f", some (.userFunction "f" [] [.integer 1]))]]
      = (.ret (some (.integer 1)), [[("f", some (.userFunction "f" [] [.integer 1]))]]) :=
  rfl

/-- C4, amended: applied to fewer arguments than it declares parameters, a user procedure
fails with an index out of range, returns no value and leaves the caller's chain as it
was; applied to more, it does not fail on that account: the surplus arguments are ignored,
the call behaving as on the first `n` arguments. -/
theorem C4_arity_mismatch (ev : Evaluator) (env : Env) (fargs : List String)
    (fbody : List Expression) (args : List Value) :
    (args.length < fargs.length →
        callUserFunction ev env fargs fbody args = (.panic .indexOutOfRange, env)) ∧
      (fargs.length < args.length →
        callUserFunction ev env fargs fbody args
          = callUserFunction ev env fargs fbody (args.take fargs.length)) := by
  constructor
  · intro h
    simp [callUserFunction, bindArgs_too_few fargs args _ h]
  · intro _
    simp [callUserFunction, bindArgs_take]

/-- Instances of C4, amended: one argument for two parameters, and two arguments for one
parameter. -/
theorem C4_arity_mismatch_witness :
    ([some (Expression.integer 1)].length < ["a", "b"].length ∧
        callUserFunction (eval 1) baseEnv ["a", "b"] [.symbol "a"] [some (.integer 1)]
          = (.panic .indexOutOfRange, baseEnv)) ∧
      (["a"].length < [some (Expression.integer 1), some (Expression.integer 2)].length ∧
        callUserFunction (eval 1) baseEnv ["a"] [.symbol "a"]
            [some (.integer 1), some (.integer 2)]
          = callUserFunction (eval 1) baseEnv ["a"] [.symbol "a"]
              ([some (Expression.integer 1), some (Expression.integer 2)].take ["a"].length)) :=
  ⟨⟨by decide,
      (C4_arity_mismatch (eval 1) baseEnv ["a", "b"] [.symbol "a"] [some (.integer 1)]).1
        (by decide)⟩,
    ⟨by decide,
      (C4_arity_mismatch (eval 1) baseEnv ["a"] [.symbol "a"]
        [some (.integer 1), some (.integer 2)]).2 (by decide)⟩⟩

/-! ## More fuel does not change an outcome -/

theorem evalArgs_mono (ev ev' : Evaluator)
    (hev : ∀ x env, (ev x env).1 ≠ .outOfFuel → ev' x env = ev x env)
    (xs : List Expression) (env : Env) (acc : List Value)
    (h : (evalArgs ev xs env acc).1 ≠ .outOfFuel) :
    evalArgs ev' xs env acc = evalArgs ev xs env acc := by
  induction xs generalizing env acc with
  | nil => rfl
  | cons x rest ih =>
    simp only [evalArgs] at h ⊢
    rcases hr : ev (some x) env with ⟨o, env1⟩
    rw [hr] at h
    cases o with
    | ret v =>
      rw [hev (some x) env (by rw [hr]; simp), hr]
      exact ih env1 _ h
    | panic p => rw [hev (some x) env (by rw [hr]; simp), hr]
    | outOfFuel => simp at h

theorem evalBody_mono (ev ev' : Evaluator)
    (hev : ∀ x env, (ev x env).1 ≠ .outOfFuel → ev' x env = ev x env)
    (xs : List Expression) (env : Env) (r : Value)
    (h : (evalBody ev xs env r).1 ≠ .outOfFuel) :
    evalBody ev' xs env r = evalBody ev xs env r := by
  induction xs generalizing env r with
  | nil => rfl
  | cons x rest ih =>
    simp only [evalBody] at h ⊢
    rcases hr : ev (some x) env with ⟨o, env1⟩
    rw [hr] at h
    cases o with
    | ret v =>
      rw [hev (some x) env (by rw [hr]; simp), hr]
      exact ih env1 _ h
    | panic p => rw [hev (some x) env (by rw [hr]; simp), hr]
    | outOfFuel => simp at h

theorem callUserFunction_mono (ev ev' : Evaluator)
    (hev : ∀ x env, (ev x env).1 ≠ .outOfFuel → ev' x env = ev x env)
    (env : Env) (fargs : List String) (fbody : List Expression) (args : List Value)
    (h : (callUserFunction ev env fargs fbody args).1 ≠ .outOfFuel) :
    callUserFunction ev' env fargs fbody args = callUserFunction ev env fargs fbody args := by
  simp only [callUserFunction] at h ⊢
  cases hb : bindArgs fargs args (NewEnv env).scope with
  | error p => rfl
  | ok scope =>
    rw [hb] at h
    simp only at h ⊢
    rw [evalBody_mono ev ev' hev fbody (scope :: env) none h]

theorem evalList_mono (ev ev' : Evaluator)
    (hev : ∀ x env, (ev x env).1 ≠ .outOfFuel → ev' x env = ev x env)
    (x : List Expression) (env : Env) (h : (evalList ev x env).1 ≠ .outOfFuel) :
    evalList ev' x env = evalList ev x env := by
  cases x with
  | nil => rfl
  | cons hd rest =>
    cases hd with
    | symbol name =>
      simp only [evalList] at h ⊢
      split_ifs at h ⊢ with h1 h2 h3 h4
      · -- if
        match rest with
        | [] => rfl
        | [_] => rfl
        | test :: conseq :: rest2 =>
          simp only at h ⊢
          rcases hr : ev (some test) env with ⟨o, env1⟩
          rw [hr] at h
          have ht : o ≠ .outOfFuel → ev' (some test) env = (o, env1) := fun ho => by
            rw [hev (some test) env (by rw [hr]; exact ho), hr]
          cases o with
          | ret v =>
            rw [ht (by simp)]
            rcases v with _ | v
            · rfl
            · cases v <;> try rfl
              rename_i b
              cases b
              · simp only at h ⊢
                exact hev _ _ (by simpa using h)
              · simp only at h ⊢
                exact hev _ _ (by simpa using h)
          | panic p => rw [ht (by simp)]
          | outOfFuel => simp at h
      · -- define
        match rest with
        | [] => rfl
        | vvar :: rest2 =>
          simp only at h ⊢
          rcases hr : ev rest2.head? env with ⟨o, env1⟩
          rw [hr] at h
          have ht : o ≠ .outOfFuel → ev' rest2.head? env = (o, env1) := fun ho => by
            rw [hev _ env (by rw [hr]; exact ho), hr]
          cases o with
          | ret v => rw [ht (by simp)]
          | panic p => rw [ht (by simp)]
          | outOfFuel => simp at h
      · rfl
      · rfl
      · -- application
        rcases hr : ev (some (.symbol name)) env with ⟨o, env1⟩
        rw [hr] at h
        have ht : o ≠ .outOfFuel → ev' (some (.symbol name)) env = (o, env1) := fun ho => by
          rw [hev _ env (by rw [hr]; exact ho), hr]
        cases o with
        | ret proc =>
          rw [ht (by simp)]
          simp only at h ⊢
          rcases ha : evalArgs ev rest env1 [] with ⟨oa, env2⟩
          rw [ha] at h
          have hta : oa ≠ .outOfFuel → evalArgs ev' rest env1 [] = (oa, env2) := fun ho => by
            rw [evalArgs_mono ev ev' hev rest env1 [] (by rw [ha]; exact ho), ha]
          cases oa with
          | ret args =>
            rw [hta (by simp)]
            simp only at h ⊢
            rcases proc with _ | p
            · rfl
            · cases p <;> try rfl
              exact callUserFunction_mono ev ev' hev _ _ _ _ h
          | panic p => rw [hta (by simp)]
          | outOfFuel => simp at h
        | panic p => rw [ht (by simp)]
        | outOfFuel => simp at h
    | _ => rfl

theorem eval_succ_of_ne_outOfFuel (fuel : Nat) (x : Value) (env : Env)
    (h : (eval fuel x env).1 ≠ .outOfFuel) : eval (fuel + 1) x env = eval fuel x env := by
  induction fuel generalizing x env with
  | zero => simp [eval] at h
  | succ n ih =>
    rcases x with _ | x
    · rfl
    · cases x <;> try rfl
      rename_i xs
      simp only [eval] at h ⊢
      exact evalList_mono (eval n) (eval (n + 1)) ih xs env h

theorem eval_mono (fuel fuel' : Nat) (x : Value) (env : Env) (hle : fuel ≤ fuel')
    (h : (eval fuel x env).1 ≠ .outOfFuel) : eval fuel' x env = eval fuel x env := by
  induction hle with
  | refl => rfl
  | step _ ih =>
    rw [eval_succ_of_ne_outOfFuel _ x env (by rw [ih]; exact h), ih]

/-! ## C5: applications -/

theorem evalArgs_of_EvalSeq (ev : Evaluator) (xs : List Expression) (env env2 : Env)
    (vs acc : List Value) (h : EvalSeq ev xs env vs env2) :
    evalArgs ev xs env acc = (.ret (acc ++ vs), env2) := by
  induction h generalizing acc with
  | nil env => simp [evalArgs]
  | cons hx _ ih => simp [evalArgs, hx, ih]

/-- C5, as stated, fails on the code: `((if true + -) 1 2)`, whose head is a list, does not
evaluate to `Integer(3)` in the base environment; `evalList` fails at its type assertion
on the head. -/
theorem C5_counterexample :
    eval 5 (some (.list [.list [.symbol "if", .bool true, .symbol "+", .symbol "-"],
        .integer 1, .integer 2])) baseEnv
      = (.panic .interfaceConversion, baseEnv) :=
  rfl

/-- C5, amended: a non-empty list whose head is a symbol other than `if`, `define`, `set!`
and `define-func` is an application: the head is evaluated to the callable, the remaining
elements are evaluated from left to right, each in the environment left by the one before,
and the callable is applied to their values: a user procedure through
`callUserFunction`, a builtin on a new child environment; anything else is not
callable. -/
theorem C5_symbol_head_application (fuel : Nat) (env env1 env2 : Env) (name : String)
    (rest : List Expression) (proc : Value) (args : List Value)
    (hname : name ≠ "if" ∧ name ≠ "define" ∧ name ≠ "set!" ∧ name ≠ "define-func")
    (hproc : eval fuel (some (.symbol name)) env = (.ret proc, env1))
    (hargs : EvalSeq (eval fuel) rest env1 args env2) :
    eval (fuel + 1) (some (.list (.symbol name :: rest))) env =
      match proc with
      | some (.userFunction _ fargs fbody) => callUserFunction (eval fuel) env2 fargs fbody args
      | some (.function f) => (Outcome.ofExcept (f.call (NewEnv env2) args), env2)
      | _ => (.panic .interfaceConversion, env2) := by
  obtain ⟨h1, h2, h3, h4⟩ := hname
  have ha := evalArgs_of_EvalSeq (eval fuel) rest env1 env2 args [] hargs
  simp only [List.nil_append] at ha
  simp only [eval, evalList, h1, h2, h3, h4, if_false, hproc, ha]
  rcases proc with _ | p
  · rfl
  · cases p <;> rfl

/-- An instance of C5, amended: `(+ 1 2)` evaluates to `Integer(3)` in the base
environment. -/
theorem C5_symbol_head_application_witness :
    (("+" : String) ≠ "if" ∧ ("+" : String) ≠ "define" ∧ ("+" : String) ≠ "set!" ∧
        ("+" : String) ≠ "define-func") ∧
      eval 1 (some (.symbol "+")) baseEnv = (.ret (some (.function .plus)), baseEnv) ∧
      EvalSeq (eval 1) [.integer 1, .integer 2] baseEnv
        [some (.integer 1), some (.integer 2)] baseEnv ∧
      eval 2 (some (.list [.symbol "+", .integer 1, .integer 2])) baseEnv
        = (.ret (some (.integer 3)), baseEnv) :=
  ⟨by decide, rfl, .cons rfl (.cons rfl (.nil _)),
    C5_symbol_head_application 1 baseEnv baseEnv baseEnv "+" [.integer 1, .integer 2]
      (some (.function .plus)) [some (.integer 1), some (.integer 2)] (by decide) rfl
      (.cons rfl (.cons rfl (.nil _)))⟩

/-! ## C6: `set!` -/

theorem Env.Find_isSome (env : Env) (v : String)
    (h : ∃ scope ∈ env, Scope.has scope v = true) : ∃ m, Env.Find env v = some m := by
  induction env with
  | nil => simp at h
  | cons scope parent ih =>
    by_cases hs : Scope.has scope v = true
    · exact ⟨scope, by simp [Env.Find, hs]⟩
    · obtain ⟨sc, hmem, hsc⟩ := h
      rcases List.mem_cons.1 hmem with rfl | hmem
      · exact absurd hsc hs
      · obtain ⟨m, hm⟩ := ih ⟨sc, hmem, hsc⟩
        exact ⟨m, by simp [Env.Find, hs, hm]⟩

theorem Env.assignFound_spec (env : Env) (v : String) (w : Value)
    (h : ∃ scope ∈ env, Scope.has scope v = true) :
    ∃ pre sc post, env = pre ++ sc :: post ∧ (∀ s ∈ pre, Scope.has s v = false) ∧
      Scope.has sc v = true ∧ Env.Find env v = some sc ∧
      Env.assignFound env v w = pre ++ Scope.set sc v w :: post := by
  induction env with
  | nil => simp at h
  | cons scope parent ih =>
    by_cases hs : Scope.has scope v = true
    · exact ⟨[], scope, parent, rfl, by simp, hs, by simp [Env.Find, hs],
        by simp [Env.assignFound, hs]⟩
    · obtain ⟨sc, hmem, hsc⟩ := h
      rcases List.mem_cons.1 hmem with rfl | hmem
      · exact absurd hsc hs
      · obtain ⟨pre, sc', post, h1, h2, h3, h4, h5⟩ := ih ⟨sc, hmem, hsc⟩
        refine ⟨scope :: pre, sc', post, by simp [h1], ?_, h3, by simp [Env.Find, hs, h4],
          by simp [Env.assignFound, hs, h5]⟩
        intro s hsm
        rcases List.mem_cons.1 hsm with rfl | hsm
        · simpa using hs
        · exact h2 s hsm

theorem Env.Find_append (pre : List Scope) (sc : Scope) (post : Env) (v : String)
    (hpre : ∀ s ∈ pre, Scope.has s v = false) (hsc : Scope.has sc v = true) :
    Env.Find (pre ++ sc :: post) v = some sc := by
  induction pre with
  | nil => simp [Env.Find, hsc]
  | cons s pre ih =>
    have h1 : Scope.has s v = false := hpre s (List.mem_cons_self _ _)
    simp only [List.cons_append, Env.Find, h1]
    exact ih (fun t ht => hpre t (List.mem_cons_of_mem _ ht))

/-- C6: for a symbol `v` bound on the chain of `env`, `(set! v e)` evaluates nothing
(whatever the evaluator `ev` used for nested calls, the result is the same): it returns
`e` itself, and in the innermost environment of the chain whose scope has `v` (the scope
`sc`, after the scopes `pre` that lack `v`) it stores `e` under `v`, every other key of
that scope and every other scope of the chain staying as it was; the symbol `v` then
evaluates to `e`.  After `(define x 1)` and `(set! x (+ 1 2))` in the base environment,
`x` evaluates to the list `(+ 1 2)`. -/
theorem C6_set_stores_unevaluated (ev : Evaluator) (fuel : Nat) (env : Env) (v : String)
    (e : Expression) (h : ∃ scope ∈ env, Scope.has scope v = true) :
    evalList ev [.symbol "set!", .symbol v, e] env
        = (.ret (some e), Env.assignFound env v (some e)) ∧
      eval (fuel + 1) (some (.list [.symbol "set!", .symbol v, e])) env
        = (.ret (some e), Env.assignFound env v (some e)) ∧
      (∃ pre sc post, env = pre ++ sc :: post ∧ (∀ s ∈ pre, Scope.has s v = false) ∧
        Scope.has sc v = true ∧
        Env.assignFound env v (some e) = pre ++ Scope.set sc v (some e) :: post ∧
        Scope.get (Scope.set sc v (some e)) v = some e ∧
        ∀ k, k ≠ v → Scope.has (Scope.set sc v (some e)) k = Scope.has sc k ∧
          Scope.get (Scope.set sc v (some e)) k = Scope.get sc k) ∧
      eval (fuel + 1) (some (.symbol v)) (Env.assignFound env v (some e))
        = (.ret (some e), Env.assignFound env v (some e)) ∧
      (eval 1 (some (.symbol "x"))
          (eval 3 (some (.list [.symbol "set!", .symbol "x",
              .list [.symbol "+", .integer 1, .integer 2]]))
            (eval 3 (some (.list [.symbol "define", .symbol "x", .integer 1])) baseEnv).2).2).1
        = .ret (some (.list [.symbol "+", .integer 1, .integer 2])) := by
  obtain ⟨m, hm⟩ := Env.Find_isSome env v h
  obtain ⟨pre, sc, post, h1, h2, h3, _, h5⟩ := Env.assignFound_spec env v (some e) h
  have hl : evalList ev [.symbol "set!", .symbol v, e] env
      = (.ret (some e), Env.assignFound env v (some e)) := by
    simp [evalList, hm]
  refine ⟨hl, ?_, ⟨pre, sc, post, h1, h2, h3, h5, Scope.get_set_self _ _ _, fun k hk =>
    ⟨Scope.has_set_other _ _ _ _ hk, Scope.get_set_other _ _ _ _ hk⟩⟩, ?_, rfl⟩
  · simp only [eval]
    simp [evalList, hm]
  · rw [h5]
    simp [eval, Env.Find_append pre (Scope.set sc v (some e)) post v h2
      (Scope.has_set_self _ _ _), mapIndex, Scope.get_set_self]

/-- An instance of C6: `(set! x (+ 1 2))` in a child of the environment that binds `x`. -/
theorem C6_set_stores_unevaluated_witness :
    (∃ scope ∈ [[], [("x", some (Expression.integer 1))]], Scope.has scope "x" = true) ∧
      evalList (eval 0) [.symbol "set!", .symbol "x", .list [.symbol "+", .integer 1, .integer 2]]
          [[], [("x", some (Expression.integer 1))]]
        = (.ret (some (.list [.symbol "+", .integer 1, .integer 2])),
            [[], [("x", some (.list [.symbol "+", .integer 1, .integer 2]))]]) :=
  ⟨⟨[("x", some (Expression.integer 1))], by simp, rfl⟩,
    (C6_set_stores_unevaluated (eval 0) 0 [[], [("x", some (Expression.integer 1))]] "x"
      (.list [.symbol "+", .integer 1, .integer 2])
      ⟨[("x", some (Expression.integer 1))], by simp, rfl⟩).1⟩

/-! ## The length of the chain is preserved -/

theorem Env.length_assign (env : Env) (k : String) (v : Value) :
    (Env.assign env k v).length = env.length := by
  cases env <;> rfl

theorem Env.length_assignFound (env : Env) (k : String) (v : Value) :
    (Env.assignFound env k v).length = env.length := by
  induction env with
  | nil => rfl
  | cons scope parent ih =>
    by_cases h : Scope.has scope k = true
    · simp [Env.assignFound, h]
    · simp [Env.assignFound, h, ih]

theorem Env.length_parent (env : Env) : (Env.parent env).length = env.length - 1 := by
  cases env <;> rfl

theorem evalArgs_length (ev : Evaluator) (hev : ∀ x env, (ev x env).2.length = env.length)
    (xs : List Expression) (env : Env) (acc : List Value) :
    (evalArgs ev xs env acc).2.length = env.length := by
  induction xs generalizing env acc with
  | nil => rfl
  | cons x rest ih =>
    have hx := hev (some x) env
    simp only [evalArgs]
    rcases hr : ev (some x) env with ⟨o, env1⟩
    rw [hr] at hx
    cases o with
    | ret v => simpa [ih env1] using hx
    | panic p => simpa using hx
    | outOfFuel => simpa using hx

theorem evalBody_length (ev : Evaluator) (hev : ∀ x env, (ev x env).2.length = env.length)
    (xs : List Expression) (env : Env) (r : Value) :
    (evalBody ev xs env r).2.length = env.length := by
  induction xs generalizing env r with
  | nil => rfl
  | cons x rest ih =>
    have hx := hev (some x) env
    simp only [evalBody]
    rcases hr : ev (some x) env with ⟨o, env1⟩
    rw [hr] at hx
    cases o with
    | ret v => simpa [ih env1] using hx
    | panic p => simpa using hx
    | outOfFuel => simpa using hx

theorem callUserFunction_length (ev : Evaluator)
    (hev : ∀ x env, (ev x env).2.length = env.length) (env : Env) (fargs : List String)
    (fbody : List Expression) (args : List Value) :
    (callUserFunction ev env fargs fbody args).2.length = env.length := by
  simp only [callUserFunction]
  cases bindArgs fargs args (NewEnv env).scope with
  | error p => rfl
  | ok scope =>
    have h := evalBody_length ev hev fbody (scope :: env) none
    simp only [Env.length_parent, h, List.length_cons, Nat.add_sub_cancel]

theorem length_of_eval_eq (ev : Evaluator) (hev : ∀ x env, (ev x env).2.length = env.length)
    {x : Value} {env env1 : Env} {o : Outcome Value} (h : ev x env = (o, env1)) :
    env1.length = env.length := by
  have h1 := hev x env
  rw [h] at h1
  exact h1

theorem length_of_evalArgs_eq (ev : Evaluator)
    (hev : ∀ x env, (ev x env).2.length = env.length) {xs : List Expression} {env env1 : Env}
    {acc : List Value} {o : Outcome (List Value)} (h : evalArgs ev xs env acc = (o, env1)) :
    env1.length = env.length := by
  have h1 := evalArgs_length ev hev xs env acc
  rw [h] at h1
  exact h1

theorem evalList_length (ev : Evaluator) (hev : ∀ x env, (ev x env).2.length = env.length)
    (x : List Expression) (env : Env) : (evalList ev x env).2.length = env.length := by
  unfold evalList
  split
  · split_ifs
    · split
      · split
        · split
          · exact (hev _ _).trans (length_of_eval_eq ev hev (by assumption))
          · exact (hev _ _).trans (length_of_eval_eq ev hev (by assumption))
        · exact length_of_eval_eq ev hev (by assumption)
        · exact length_of_eval_eq ev hev (by assumption)
      · rfl
    · split
      · split
        · exact (Env.length_assign _ _ _).trans (length_of_eval_eq ev hev (by assumption))
        · exact length_of_eval_eq ev hev (by assumption)
      · rfl
    · split
      · split
        · simp [Env.length_assignFound]
        · rfl
      · rfl
      · rfl
    · split
      · split
        · simp [Env.length_assign]
        · rfl
      · rfl
    · split
      · have h1 := length_of_eval_eq ev hev (by assumption)
        split
        · have h2 := length_of_evalArgs_eq ev hev (by assumption)
          split
          · rw [callUserFunction_length ev hev]
            exact h2.trans h1
          · exact h2.trans h1
          · exact h2.trans h1
        · exact (length_of_evalArgs_eq ev hev (by assumption)).trans h1
        · exact (length_of_evalArgs_eq ev hev (by assumption)).trans h1
      · exact length_of_eval_eq ev hev (by assumption)
  · rfl

theorem eval_length (fuel : Nat) (x : Value) (env : Env) :
    (eval fuel x env).2.length = env.length := by
  induction fuel generalizing x env with
  | zero => rfl
  | succ n ih =>
    unfold eval
    split
    · rfl
    · exact evalList_length (eval n) ih _ env
    · rfl

/-! ## C7: `define` -/

/-- C7: when `e` evaluates in `env` to the value `w`, leaving the chain `env1`,
`(define v e)` returns `w` and leaves `env1` with `v` mapped to `w` in the scope of `env`
itself: the symbol `v` then evaluates to `w`, the ancestors are those of `env1`, and the
other keys of the scope are as in `env1`.  So `(define x 10)` followed by `(+ x 5)` gives
`Integer(15)` in the base environment. -/
theorem C7_define_binds_in_own_scope (fuel : Nat) (scope : Scope) (parents : Env)
    (v : String) (e : Expression) (w : Value) (env1 : Env)
    (h : eval fuel (some e) (scope :: parents) = (.ret w, env1)) :
    eval (fuel + 1) (some (.list [.symbol "define", .symbol v, e])) (scope :: parents)
        = (.ret w, Env.assign env1 v w) ∧
      Scope.has (Env.assign env1 v w).scope v = true ∧
      Scope.get (Env.assign env1 v w).scope v = w ∧
      (∀ n, eval (n + 1) (some (.symbol v)) (Env.assign env1 v w)
        = (.ret w, Env.assign env1 v w)) ∧
      (Env.assign env1 v w).parent = env1.parent ∧
      (∀ k, k ≠ v → Scope.has (Env.assign env1 v w).scope k = Scope.has env1.scope k ∧
        Scope.get (Env.assign env1 v w).scope k = Scope.get env1.scope k) ∧
      (eval 3 (some (.list [.symbol "+", .symbol "x", .integer 5]))
          (eval 2 (some (.list [.symbol "define", .symbol "x", .integer 10])) baseEnv).2).1
        = .ret (some (.integer 15)) := by
  have hlen := length_of_eval_eq (eval fuel) (eval_length fuel) h
  obtain ⟨s1, p1, rfl⟩ : ∃ s1 p1, env1 = s1 :: p1 := by
    cases env1 with
    | nil => simp at hlen
    | cons s1 p1 => exact ⟨s1, p1, rfl⟩
  refine ⟨?_, ?_, ?_, ?_, rfl, ?_, rfl⟩
  · simp [eval, evalList, h, Env.assign, Env.scope, Scope.get_set_self, Expression.Sexpr]
  · simp [Env.assign, Env.scope, Scope.has_set_self]
  · simp [Env.assign, Env.scope, Scope.get_set_self]
  · intro n
    simp [eval, Env.assign, Env.Find, Scope.has_set_self, mapIndex, Scope.get_set_self]
  · intro k hk
    simp [Env.assign, Env.scope, Scope.has_set_other _ _ _ _ hk, Scope.get_set_other _ _ _ _ hk]

/-- An instance of C7: `(define x (+ 1 2))` in a child of the base environment whose scope
already binds `x`. -/
theorem C7_define_binds_in_own_scope_witness :
    eval 2 (some (.list [.symbol "+", .integer 1, .integer 2]))
        ([("x", some (.integer 0))] :: baseEnv)
      = (.ret (some (.integer 3)), [("x", some (.integer 0))] :: baseEnv) ∧
    eval 3 (some (.list [.symbol "define", .symbol "x",
        .list [.symbol "+", .integer 1, .integer 2]])) ([("x", some (.integer 0))] :: baseEnv)
      = (.ret (some (.integer 3)), [("x", some (.integer 3))] :: baseEnv) :=
  ⟨rfl,
    (C7_define_binds_in_own_scope 2 [("x", some (.integer 0))] baseEnv "x"
      (.list [.symbol "+", .integer 1, .integer 2]) (some (.integer 3))
      ([("x", some (.integer 0))] :: baseEnv) rfl).1⟩

/-! ## C8: calling a user procedure -/

theorem bindArgs_eq_foldl (fargs : List String) (args : List Value) (scope : Scope)
    (h : fargs.length ≤ args.length) :
    bindArgs fargs args scope
      = .ok ((List.zip fargs args).foldl (fun sc p => Scope.set sc p.1 p.2) scope) := by
  induction fargs generalizing args scope with
  | nil => cases args <;> rfl
  | cons arg fargs ih =>
    cases args with
    | nil => simp at h
    | cons a args =>
      simp only [bindArgs, List.zip_cons_cons, List.foldl_cons]
      exact ih args _ (by simpa using h)

theorem evalBody_last (ev : Evaluator) (bk : Expression) (env : Env) (r : Value) :
    evalBody ev [bk] env r = ev (some bk) env := by
  simp only [evalBody]
  rcases h : ev (some bk) env with ⟨o, env1⟩
  cases o <;> rfl

theorem evalBody_of_EvalSeq (ev : Evaluator) (bs : List Expression) (bk : Expression)
    (env envk : Env) (vs : List Value) (r : Value) (h : EvalSeq ev bs env vs envk) :
    evalBody ev (bs ++ [bk]) env r = ev (some bk) envk := by
  induction h generalizing r with
  | nil env => exact evalBody_last ev bk env r
  | cons hx _ ih => simp [evalBody, hx, ih]

theorem Scope.get_foldl_not_mem (fargs : List String) (args : List Value) (scope : Scope)
    (k : String) (h : k ∉ fargs) :
    Scope.get ((List.zip fargs args).foldl (fun sc p => Scope.set sc p.1 p.2) scope) k
      = Scope.get scope k := by
  induction fargs generalizing args scope with
  | nil => simp
  | cons arg fargs ih =>
    cases args with
    | nil => simp
    | cons a args =>
      simp only [List.zip_cons_cons, List.foldl_cons]
      rw [ih args _ (fun hm => h (List.mem_cons_of_mem _ hm))]
      exact Scope.get_set_other _ _ _ _ (fun hk => h (by simp [hk]))

theorem Scope.has_foldl_not_mem (fargs : List String) (args : List Value) (scope : Scope)
    (k : String) (h : k ∉ fargs) :
    Scope.has ((List.zip fargs args).foldl (fun sc p => Scope.set sc p.1 p.2) scope) k
      = Scope.has scope k := by
  induction fargs generalizing args scope with
  | nil => simp
  | cons arg fargs ih =>
    cases args with
    | nil => simp
    | cons a args =>
      simp only [List.zip_cons_cons, List.foldl_cons]
      rw [ih args _ (fun hm => h (List.mem_cons_of_mem _ hm))]
      exact Scope.has_set_other _ _ _ _ (fun hk => h (by simp [hk]))

theorem Scope.get_foldl_at (fargs : List String) (args : List Value) (scope : Scope)
    (i : Nat) (p : String) (a : Value) (hp : fargs.get? i = some p)
    (ha : args.get? i = some a) (hlast : ∀ j, i < j → fargs.get? j ≠ some p) :
    Scope.get ((List.zip fargs args).foldl (fun sc q => Scope.set sc q.1 q.2) scope) p = a := by
  induction fargs generalizing args scope i with
  | nil => simp at hp
  | cons arg fargs ih =>
    cases args with
    | nil => simp at ha
    | cons a0 args =>
      simp only [List.zip_cons_cons, List.foldl_cons]
      cases i with
      | zero =>
        simp only [List.get?_cons_zero, Option.some.injEq] at hp ha
        subst hp ha
        have hnot : arg ∉ fargs := by
          intro hm
          obtain ⟨j, hj⟩ := List.get?_of_mem hm
          exact hlast (j + 1) (Nat.succ_pos j) (by simpa using hj)
        rw [Scope.get_foldl_not_mem fargs args _ arg hnot]
        exact Scope.get_set_self _ _ _
      | succ i =>
        simp only [List.get?_cons_succ] at hp ha
        exact ih args _ i hp ha (fun j hj => by
          have := hlast (j + 1) (Nat.succ_lt_succ hj)
          simpa using this)

/-- C8, as stated, fails on the code: with `(define-func f (a a) a)` defined in the base
environment, `(f 1 2)` gives `Integer(2)`: in the scope of the call the first parameter,
`a`, is not bound to the first argument, `1`, but to the second, `2`. -/
theorem C8_counterexample :
    (eval 4 (some (.list [.symbol "f", .integer 1, .integer 2]))
        (eval 2 (some (.list [.symbol "define-func", .symbol "f",
          .list [.symbol "a", .symbol "a"], .symbol "a"])) baseEnv).2).1
        = .ret (some (.integer 2)) ∧
      ["a", "a"].get? 0 = some "a" ∧
      [some (Expression.integer 1), some (Expression.integer 2)].get? 0
        = some (some (Expression.integer 1)) ∧
      Scope.get (bindScope ["a", "a"] [some (.integer 1), some (.integer 2)]) "a"
        = some (.integer 2) ∧
      callUserFunction (eval 3) baseEnv ["a", "a"] [.symbol "a"]
          [some (.integer 1), some (.integer 2)]
        = (.ret (some (.integer 2)), baseEnv) :=
  ⟨rfl, rfl, rfl, rfl, rfl⟩

/-- C8, amended: a user procedure with parameters `fargs` and body `b1 ... bk` (`bs`
followed by `bk`) applied to as many arguments as it has parameters.  The body is evaluated
in a new child of the caller's `env` whose scope binds the parameters to the arguments and
nothing else: a parameter name is bound to the argument at the last position at which that
name is declared, so the `i`-th parameter is bound to the `i`-th argument whenever its name
is not declared again after position `i`.  When `b1 ... b(k-1)`, evaluated in that order,
each in the chain left by the one before, return values, the call returns what `bk` returns
in the chain they leave, and the caller's chain afterwards is the parent part of the chain
`bk` leaves.  Free variables resolve through the caller's chain: with `(define-func f () x)`
and `(define-func g (x) (f))` defined in the base environment, `(g 7)` gives `Integer(7)`;
`(define-func sq (n) (* n n))` followed by `(sq 5)` gives `Integer(25)`. -/
theorem C8_user_procedure_call (ev : Evaluator) (env envk : Env) (fargs : List String)
    (args vs : List Value) (bs : List Expression) (bk : Expression)
    (hlen : args.length = fargs.length)
    (hbody : EvalSeq ev bs (bindScope fargs args :: env) vs envk) :
    callUserFunction ev env fargs (bs ++ [bk]) args
        = ((ev (some bk) envk).1, (ev (some bk) envk).2.parent) ∧
      (∀ i p a, fargs.get? i = some p → args.get? i = some a →
        (∀ j, i < j → fargs.get? j ≠ some p) → Scope.get (bindScope fargs args) p = a) ∧
      (∀ k, k ∉ fargs → Scope.has (bindScope fargs args) k = false) ∧
      (eval 5 (some (.list [.symbol "g", .integer 7]))
          (eval 2 (some (.list [.symbol "define-func", .symbol "g", .list [.symbol "x"],
              .list [.symbol "f"]]))
            (eval 2 (some (.list [.symbol "define-func", .symbol "f", .list [],
              .symbol "x"])) baseEnv).2).2).1
        = .ret (some (.integer 7)) ∧
      (eval 4 (some (.list [.symbol "sq", .integer 5]))
          (eval 2 (some (.list [.symbol "define-func", .symbol "sq", .list [.symbol "n"],
            .list [.symbol "*", .symbol "n", .symbol "n"]])) baseEnv).2).1
        = .ret (some (.integer 25)) := by
  refine ⟨?_, ?_, ?_, rfl, rfl⟩
  · have hb := bindArgs_eq_foldl fargs args (NewEnv env).scope (by omega)
    simp only [callUserFunction, hb]
    have he := evalBody_of_EvalSeq ev bs bk _ envk vs none hbody
    simp only [bindScope] at he
    simp only [NewEnv, Env.scope, he]
  · intro i p a hp ha hlast
    exact Scope.get_foldl_at fargs args [] i p a hp ha hlast
  · intro k hk
    simp only [bindScope]
    rw [Scope.has_foldl_not_mem fargs args [] k hk]
    rfl

/-- An instance of C8: a procedure with parameter `n` and body `(define m n) (* n m)`
applied to `5`. -/
theorem C8_user_procedure_call_witness :
    [some (Expression.integer 5)].length = ["n"].length ∧
      EvalSeq (eval 3) [.list [.symbol "define", .symbol "m", .symbol "n"]]
        (bindScope ["n"] [some (.integer 5)] :: baseEnv) [some (.integer 5)]
        ([("n", some (.integer 5)), ("m", some (.integer 5))] :: baseEnv) ∧
      callUserFunction (eval 3) baseEnv ["n"]
          ([.list [.symbol "define", .symbol "m", .symbol "n"]]
            ++ [.list [.symbol "*", .symbol "n", .symbol "m"]]) [some (.integer 5)]
        = (.ret (some (.integer 25)), baseEnv) :=
  ⟨rfl, .cons rfl (.nil _),
    (C8_user_procedure_call (eval 3) baseEnv
      ([("n", some (.integer 5)), ("m", some (.integer 5))] :: baseEnv) ["n"]
      [some (.integer 5)] [some (.integer 5)]
      [.list [.symbol "define", .symbol "m", .symbol "n"]]
      (.list [.symbol "*", .symbol "n", .symbol "m"]) rfl (.cons rfl (.nil _))).1⟩

/-! ## C9: `define-func` -/

theorem symbolNames_map (ps : List String) :
    symbolNames (ps.map Expression.symbol) = some ps := by
  induction ps with
  | nil => rfl
  | cons p ps ih => simp [symbolNames, ih]

/-- C9: `(define-func f (p1 ... pn) b1 ... bk)` evaluates nothing (the result is the same
whatever evaluator `ev` stands for the nested calls of `eval`): it returns
`UserFunction{f, [p1, ..., pn], [b1, ..., bk]}` and stores that value under `f` in the
scope of `env` itself; the other keys of that scope and the ancestors are unchanged. -/
theorem C9_define_func_builds_procedure (ev : Evaluator) (fuel : Nat) (scope : Scope)
    (parents : Env) (f : String) (ps : List String) (body : List Expression) :
    evalList ev (.symbol "define-func" :: .symbol f :: .list (ps.map .symbol) :: body)
        (scope :: parents)
      = (.ret (some (.userFunction f ps body)),
          Scope.set scope f (some (.userFunction f ps body)) :: parents) ∧
    eval (fuel + 1)
        (some (.list (.symbol "define-func" :: .symbol f :: .list (ps.map .symbol) :: body)))
        (scope :: parents)
      = (.ret (some (.userFunction f ps body)),
          Scope.set scope f (some (.userFunction f ps body)) :: parents) ∧
    Scope.has (Scope.set scope f (some (.userFunction f ps body))) f = true ∧
    Scope.get (Scope.set scope f (some (.userFunction f ps body))) f
      = some (.userFunction f ps body) ∧
    (∀ k, k ≠ f →
      Scope.has (Scope.set scope f (some (.userFunction f ps body))) k = Scope.has scope k ∧
      Scope.get (Scope.set scope f (some (.userFunction f ps body))) k = Scope.get scope k) := by
  have hl : evalList ev (.symbol "define-func" :: .symbol f :: .list (ps.map .symbol) :: body)
        (scope :: parents)
      = (.ret (some (.userFunction f ps body)),
          Scope.set scope f (some (.userFunction f ps body)) :: parents) := by
    simp [evalList, symbolNames_map, Env.assign]
  refine ⟨hl, ?_, Scope.has_set_self _ _ _, Scope.get_set_self _ _ _, fun k hk =>
    ⟨Scope.has_set_other _ _ _ _ hk, Scope.get_set_other _ _ _ _ hk⟩⟩
  simp [eval, evalList, symbolNames_map, Env.assign]

/-! ## C10: `if` -/

/-- C10: when `test` evaluates in `env` to `Bool(b)`, leaving the chain `env1`,
`(if test conseq alt)` returns exactly what evaluating the selected branch in `env1`
returns.  The other branch is not evaluated: replacing it by any expression changes
nothing, and this holds for whatever evaluator `ev` stands for the nested calls of
`eval`.  In the base environment `(if (> 3 2) 1 0)` gives `Integer(1)`, `(if (> 2 3) 1 0)`
gives `Integer(0)`, and `(if true 1 (set! y 2))`, whose second branch alone would panic,
gives `Integer(1)`. -/
theorem C10_if_evaluates_selected_branch_only (fuel : Nat) (env env1 : Env)
    (test conseq alt : Expression) (b : Bool)
    (h : eval fuel (some test) env = (.ret (some (.bool b)), env1)) :
    eval (fuel + 1) (some (.list [.symbol "if", test, conseq, alt])) env
        = eval fuel (some (if b then conseq else alt)) env1 ∧
      (∀ other : Expression,
        eval (fuel + 1) (some (.list [.symbol "if", test, if b then conseq else other,
            if b then other else alt])) env
          = eval (fuel + 1) (some (.list [.symbol "if", test, conseq, alt])) env) ∧
      (∀ (ev : Evaluator) (env env1 : Env),
        ev (some test) env = (.ret (some (.bool b)), env1) →
          evalList ev [.symbol "if", test, conseq, alt] env
            = ev (some (if b then conseq else alt)) env1) ∧
      eval 4 (some (.list [.symbol "if", .list [.symbol ">", .integer 3, .integer 2],
          .integer 1, .integer 0])) baseEnv = (.ret (some (.integer 1)), baseEnv) ∧
      eval 4 (some (.list [.symbol "if", .list [.symbol ">", .integer 2, .integer 3],
          .integer 1, .integer 0])) baseEnv = (.ret (some (.integer 0)), baseEnv) ∧
      eval 4 (some (.list [.symbol "if", .bool true, .integer 1,
          .list [.symbol "set!", .symbol "y", .integer 2]])) baseEnv
        = (.ret (some (.integer 1)), baseEnv) ∧
      eval 4 (some (.list [.symbol "set!", .symbol "y", .integer 2])) baseEnv
        = (.panic .assignNilMap, baseEnv) := by
  have hg : ∀ (ev : Evaluator) (env env1 : Env) (c a : Expression),
      ev (some test) env = (.ret (some (.bool b)), env1) →
        evalList ev [.symbol "if", test, c, a] env = ev (some (if b then c else a)) env1 := by
    intro ev env env1 c a hev
    cases b <;> simp [evalList, hev]
  refine ⟨?_, ?_, fun ev env env1 => hg ev env env1 conseq alt, rfl, rfl, rfl, rfl⟩
  · simp only [eval]
    exact hg (eval fuel) env env1 conseq alt h
  · intro other
    simp only [eval]
    rw [hg (eval fuel) env env1 _ _ h, hg (eval fuel) env env1 _ _ h]
    cases b <;> rfl

/-- An instance of C10: `(if (> 3 2) 1 undefined)` in the base environment. -/
theorem C10_if_evaluates_selected_branch_only_witness :
    eval 2 (some (.list [.symbol ">", .integer 3, .integer 2])) baseEnv
        = (.ret (some (.bool true)), baseEnv) ∧
      eval 3 (some (.list [.symbol "if", .list [.symbol ">", .integer 3, .integer 2],
          .integer 1, .symbol "undefined"])) baseEnv
        = eval 2 (some (.integer 1)) baseEnv :=
  ⟨rfl,
    (C10_if_evaluates_selected_branch_only 2 baseEnv baseEnv
      (.list [.symbol ">", .integer 3, .integer 2]) (.integer 1) (.symbol "undefined") true
      rfl).1⟩

/-! ## C19: looking a symbol up -/

/-- C19: when `name` is bound on the chain, its innermost binding being that of the scope
`sc` (the scopes `pre` before it lack the name; the scopes `post` after it are arbitrary
and may bind the name too), `eval` of the symbol returns the value that `sc` holds for the
name, and leaves every scope of the chain as it was. -/
theorem C19_symbol_innermost_binding (fuel : Nat) (pre : List Scope) (sc : Scope) (post : Env)
    (name : String) (hpre : ∀ s ∈ pre, Scope.has s name = false)
    (hsc : Scope.has sc name = true) :
    eval (fuel + 1) (some (.symbol name)) (pre ++ sc :: post)
      = (.ret (Scope.get sc name), pre ++ sc :: post) := by
  simp only [eval, Env.Find_append pre sc post name hpre hsc, mapIndex]

/-- An instance of C19: `x` is bound to `1` in the parent and to `2` in the grandparent of
an environment that does not bind it. -/
theorem C19_symbol_innermost_binding_witness :
    (∀ s ∈ [([] : Scope)], Scope.has s "x" = false) ∧
      Scope.has [("x", some (Expression.integer 1))] "x" = true ∧
      eval 1 (some (.symbol "x"))
          ([[]] ++ [("x", some (Expression.integer 1))] :: [[("x", some (.integer 2))]])
        = (.ret (some (.integer 1)),
            [[]] ++ [("x", some (Expression.integer 1))] :: [[("x", some (.integer 2))]]) :=
  ⟨by decide, rfl,
    C19_symbol_innermost_binding 0 [[]] [("x", some (Expression.integer 1))]
      [[("x", some (.integer 2))]] "x" (by decide) rfl⟩

/-! ## C11, C12: integer arithmetic -/

theorem wrap64_range (x : Int) : -(2 : Int) ^ 63 ≤ wrap64 x ∧ wrap64 x < (2 : Int) ^ 63 := by
  unfold wrap64
  have h1 := Int.emod_nonneg (x + 2 ^ 63) (show ((2 : Int) ^ 64) ≠ 0 by norm_num)
  have h2 := Int.emod_lt_of_pos (x + 2 ^ 63) (show (0 : Int) < 2 ^ 64 by norm_num)
  constructor <;> omega

theorem wrap64_congr (x : Int) : (2 : Int) ^ 64 ∣ wrap64 x - x := by
  unfold wrap64
  have h := Int.emod_add_ediv (x + 2 ^ 63) (2 ^ 64)
  refine ⟨-((x + 2 ^ 63) / 2 ^ 64), ?_⟩
  linarith

theorem wrap64_of_range (x : Int) (h1 : -(2 : Int) ^ 63 ≤ x) (h2 : x < (2 : Int) ^ 63) :
    wrap64 x = x := by
  unfold wrap64
  rw [Int.emod_eq_of_lt (by omega) (by omega)]
  omega

/-- C11: on two Integers, `+`, `-` and `*` evaluate in the base environment to the Integer
(never a Float) that is the sum, difference and product in int64 arithmetic: the value
`wrap64 r` of the mathematical result `r`, which lies in the int64 range, differs from `r`
by a multiple of `2^64`, and is `r` itself whenever `r` lies in the int64 range. -/
theorem C11_integer_add_sub_mul (a b : Int) (fuel : Nat) :
    eval (fuel + 2) (some (.list [.symbol "+", .integer a, .integer b])) baseEnv
        = (.ret (some (.integer (wrap64 (a + b)))), baseEnv) ∧
      eval (fuel + 2) (some (.list [.symbol "-", .integer a, .integer b])) baseEnv
        = (.ret (some (.integer (wrap64 (a - b)))), baseEnv) ∧
      eval (fuel + 2) (some (.list [.symbol "*", .integer a, .integer b])) baseEnv
        = (.ret (some (.integer (wrap64 (a * b)))), baseEnv) ∧
      (∀ r : Int, -(2 : Int) ^ 63 ≤ wrap64 r ∧ wrap64 r < (2 : Int) ^ 63 ∧
        (2 : Int) ^ 64 ∣ wrap64 r - r ∧
        (-(2 : Int) ^ 63 ≤ r → r < (2 : Int) ^ 63 → wrap64 r = r)) ∧
      eval 2 (some (.list [.symbol "+", .integer 1, .integer 2])) baseEnv
        = (.ret (some (.integer 3)), baseEnv) ∧
      eval 2 (some (.list [.symbol "+", .integer (2 ^ 63 - 1), .integer 1])) baseEnv
        = (.ret (some (.integer (-2 ^ 63))), baseEnv) :=
  ⟨rfl, rfl, rfl, fun r => ⟨(wrap64_range r).1, (wrap64_range r).2, wrap64_congr r,
    wrap64_of_range r⟩, rfl, rfl⟩
theorem tdiv_int64_range (a b : Int) (ha : -(2 : Int) ^ 63 ≤ a ∧ a < (2 : Int) ^ 63)
    (hb0 : b ≠ 0) (hov : ¬(a = -(2 : Int) ^ 63 ∧ b = -1)) :
    -(2 : Int) ^ 63 ≤ Int.tdiv a b ∧ Int.tdiv a b < (2 : Int) ^ 63 := by
  by_cases h1 : b = 1
  · subst h1
    simpa using ha
  by_cases h2 : b = -1
  · subst h2
    have : Int.tdiv a (-1) = -a := by
      rw [show (-1 : Int) = -(1 : Int) from rfl, Int.tdiv_neg, Int.tdiv_one]
    rw [this]
    have : a ≠ -(2 : Int) ^ 63 := fun h => hov ⟨h, rfl⟩
    omega
  have hn : (Int.tdiv a b).natAbs = a.natAbs / b.natAbs := Int.natAbs_tdiv a b
  have hb2 : 2 ≤ b.natAbs := by omega
  have hle : a.natAbs / b.natAbs ≤ a.natAbs / 2 := Nat.div_le_div_left hb2 (by norm_num)
  have ha' : a.natAbs ≤ 2 ^ 63 := by omega
  have : (Int.tdiv a b).natAbs ≤ 2 ^ 62 := by omega
  omega

theorem tdiv_sign (a b : Int) :
    (0 ≤ a * b → 0 ≤ Int.tdiv a b) ∧ (a * b ≤ 0 → Int.tdiv a b ≤ 0) := by
  rcases Int.le_total 0 a with ha | ha <;> rcases Int.le_total 0 b with hb | hb
  · exact ⟨fun _ => Int.tdiv_nonneg ha hb, fun h => by
      have h0 : a * b = 0 := le_antisymm h (mul_nonneg ha hb)
      rcases mul_eq_zero.1 h0 with h | h <;> simp [h]⟩
  · exact ⟨fun h => by
      have h0 : a * b = 0 := le_antisymm (mul_nonpos_of_nonneg_of_nonpos ha hb) h
      rcases mul_eq_zero.1 h0 with h | h <;> simp [h], fun _ => Int.tdiv_nonpos ha hb⟩
  · have hq : Int.tdiv a b ≤ 0 := by
      have := Int.tdiv_nonneg (Int.neg_nonneg.2 ha) hb
      rw [Int.neg_tdiv] at this
      omega
    exact ⟨fun h => by
      have h0 : a * b = 0 := le_antisymm (mul_nonpos_of_nonpos_of_nonneg ha hb) h
      rcases mul_eq_zero.1 h0 with h | h <;> simp [h], fun _ => hq⟩
  · have hq : 0 ≤ Int.tdiv a b := by
      have := Int.tdiv_nonneg (Int.neg_nonneg.2 ha) (Int.neg_nonneg.2 hb)
      rwa [Int.neg_tdiv_neg] at this
    exact ⟨fun _ => hq, fun h => by
      have h0 : a * b = 0 := le_antisymm h (mul_nonneg_of_nonpos_of_nonpos ha hb)
      rcases mul_eq_zero.1 h0 with h | h <;> simp [h]⟩

/-- C12: on two Integers `a` and `b` (int64 values), `(/ a b)` in the base environment
panics with an integer division by zero when `b = 0`; otherwise it returns the Integer
`wrap64 q`, `q` being the quotient truncated toward zero (its magnitude is `|a| / |b|`
rounded down and its sign that of `a * b`), which is `q` itself except in the one
overflowing case `a = -2^63`, `b = -1`, where it is `-2^63`. -/
theorem C12_integer_division (a b : Int) (fuel : Nat)
    (ha : -(2 : Int) ^ 63 ≤ a ∧ a < (2 : Int) ^ 63)
    (hb : -(2 : Int) ^ 63 ≤ b ∧ b < (2 : Int) ^ 63) :
    (b = 0 → eval (fuel + 2) (some (.list [.symbol "/", .integer a, .integer b])) baseEnv
        = (.panic .divideByZero, baseEnv)) ∧
      (b ≠ 0 → eval (fuel + 2) (some (.list [.symbol "/", .integer a, .integer b])) baseEnv
        = (.ret (some (.integer (wrap64 (Int.tdiv a b)))), baseEnv)) ∧
      (b ≠ 0 → ¬(a = -(2 : Int) ^ 63 ∧ b = -1) → wrap64 (Int.tdiv a b) = Int.tdiv a b) ∧
      (a = -(2 : Int) ^ 63 ∧ b = -1 → wrap64 (Int.tdiv a b) = -(2 : Int) ^ 63) ∧
      (Int.tdiv a b).natAbs = a.natAbs / b.natAbs ∧
      (0 ≤ a * b → 0 ≤ Int.tdiv a b) ∧ (a * b ≤ 0 → Int.tdiv a b ≤ 0) := by
  refine ⟨?_, ?_, ?_, ?_, Int.natAbs_tdiv a b, (tdiv_sign a b).1, (tdiv_sign a b).2⟩
  · intro h
    subst h
    rfl
  · intro h
    simp [eval, evalList, Env.Find, baseEnv, Scope.has, Scope.get, mapIndex, evalArgs,
      Function.call, divide, isFloat, toInt, Outcome.ofExcept, h, bind, Except.bind, pure,
      Except.pure]
  · intro h0 hov
    have h := tdiv_int64_range a b ha h0 hov
    exact wrap64_of_range _ h.1 h.2
  · rintro ⟨rfl, rfl⟩
    rfl

/-- Instances of C12: `(/ -7 2)` gives `Integer(-3)`, and `(/ 1 0)` panics. -/
theorem C12_integer_division_witness :
    (-(2 : Int) ^ 63 ≤ -7 ∧ (-7 : Int) < (2 : Int) ^ 63) ∧
      (-(2 : Int) ^ 63 ≤ 2 ∧ (2 : Int) < (2 : Int) ^ 63) ∧
      eval 2 (some (.list [.symbol "/", .integer (-7), .integer 2])) baseEnv
        = (.ret (some (.integer (-3))), baseEnv) ∧
      eval 2 (some (.list [.symbol "/", .integer 1, .integer 0])) baseEnv
        = (.panic .divideByZero, baseEnv) :=
  ⟨by decide, by decide,
    (C12_integer_division (-7) 2 0 (by decide) (by decide)).2.1 (by decide),
    (C12_integer_division 1 0 0 (by decide) (by decide)).1 rfl⟩

/-! ## C13: comparisons -/

theorem F64.log2Aux_spec (fuel n : Nat) (hn : 0 < n) (hf : n ≤ fuel) :
    2 ^ F64.log2Aux fuel n ≤ n ∧ n < 2 ^ (F64.log2Aux fuel n + 1) := by
  induction fuel generalizing n with
  | zero => omega
  | succ f ih =>
    unfold F64.log2Aux
    by_cases h2 : n < 2
    · have : n = 1 := by omega
      subst this
      simp
    · simp only [h2, if_false]
      obtain ⟨h3, h4⟩ := ih (n / 2) (by omega) (by omega)
      constructor
      · rw [pow_succ]; omega
      · rw [pow_succ]; omega

theorem F64.log2_spec (n : Nat) (hn : 0 < n) :
    2 ^ F64.log2 n ≤ n ∧ n < 2 ^ (F64.log2 n + 1) :=
  F64.log2Aux_spec n n hn (le_refl n)

theorem F64.nearest_exact (neg : Bool) (n : Nat) (hn : 0 < n) (h : n ≤ 2 ^ 53) :
    ∃ m e, F64.nearest neg n 1 = F64.fin neg m e ∧ -52 ≤ e ∧ e ≤ 1 ∧
      m * 2 ^ (e + 52).toNat = n * 2 ^ 52 := by
  obtain ⟨hl1, hl2⟩ := F64.log2_spec n hn
  have hl53 : F64.log2 n ≤ 53 := by
    by_contra hc
    have : 2 ^ 54 ≤ 2 ^ F64.log2 n := Nat.pow_le_pow_right (by norm_num) (by omega)
    omega
  have h1 : F64.log2 1 = 0 := rfl
  have hge : F64.geTwoPow n 1 ((F64.log2 n : Int) - (0 : Nat)) = true := by
    simp [F64.geTwoPow, hl1]
  have hmax : ((F64.log2 n : Int) - (0 : Nat) - 52) ⊔ -1074 = (F64.log2 n : Int) - 52 :=
    max_eq_left (by omega)
  unfold F64.nearest
  rw [if_neg (Nat.pos_iff_ne_zero.1 hn)]
  simp only [h1, hge, if_true, hmax]
  by_cases hlt : F64.log2 n < 52
  · have hneg : ((F64.log2 n : Int) - 52 < 0) := by omega
    have hexp : (-((F64.log2 n : Int) - 52)).toNat = 52 - F64.log2 n := by omega
    have hq : n * 2 ^ (52 - F64.log2 n) < 2 ^ 53 := by
      calc n * 2 ^ (52 - F64.log2 n)
          < 2 ^ (F64.log2 n + 1) * 2 ^ (52 - F64.log2 n) :=
            Nat.mul_lt_mul_of_pos_right hl2 (by positivity)
        _ = 2 ^ 53 := by rw [← pow_add]; congr 1; omega
    simp only [hneg, if_true, hexp, Nat.mod_one, Nat.div_one]
    refine ⟨n * 2 ^ (52 - F64.log2 n), (F64.log2 n : Int) - 52, ?_, by omega, by omega, ?_⟩
    · have hq' : n * 2 ^ (52 - F64.log2 n) ≠ 9007199254740992 := by
        norm_num at hq
        omega
      have h971 : ¬ (971 < (F64.log2 n : Int) - 52) := by omega
      simp [hq', h971]
    · have : ((F64.log2 n : Int) - 52 + 52).toNat = F64.log2 n := by omega
      rw [this, mul_assoc, ← pow_add]
      congr 2
      omega
  · have h5253 : F64.log2 n = 52 ∨ F64.log2 n = 53 := by omega
    rcases h5253 with h52 | h53
    · rw [h52] at hl1 hl2 ⊢
      have hq' : n ≠ 9007199254740992 := by
        norm_num at hl2
        omega
      refine ⟨n, 0, ?_, by omega, by omega, by simp⟩
      simp [hq', Nat.mod_one]
    · rw [h53] at hl1 ⊢
      have hn53 : n = 9007199254740992 := by
        norm_num at hl1 h
        omega
      subst hn53
      refine ⟨4503599627370496, 1, by simp, by omega, by omega, ?_⟩
      have : ((1 : Int) + 52).toNat = 53 := rfl
      rw [this]
      norm_num

theorem F64.ofInt_repr (i : Int) (h : i.natAbs ≤ 2 ^ 53) :
    ∃ m e, F64.ofInt i = F64.fin (decide (i < 0)) m e ∧ -1074 ≤ e ∧
      m * 2 ^ (e + 1074).toNat = i.natAbs * 2 ^ 1074 := by
  by_cases h0 : i.natAbs = 0
  · have hi : i = 0 := Int.natAbs_eq_zero.1 h0
    subst hi
    exact ⟨0, -1074, rfl, le_refl _, by rw [Int.natAbs_zero, zero_mul, zero_mul]⟩
  · obtain ⟨m, e, h1, h2, _, h4⟩ :=
      F64.nearest_exact (decide (i < 0)) i.natAbs (Nat.pos_of_ne_zero h0) h
    refine ⟨m, e, h1, by omega, ?_⟩
    have he : (e + 1074).toNat = (e + 52).toNat + 1022 := by omega
    rw [he, pow_add, ← mul_assoc, h4, mul_assoc, ← pow_add]

theorem F64.scaledInt_scale (i : Int) (m : Nat) (e e0 : Int)
    (hrep : m * 2 ^ (e + 1074).toNat = i.natAbs * 2 ^ 1074) (he0 : -1074 ≤ e0) (hle : e0 ≤ e) :
    F64.scaledInt (decide (i < 0)) m e e0 * ((2 ^ (e0 + 1074).toNat : Nat) : Int)
      = i * ((2 ^ 1074 : Nat) : Int) := by
  have hexp : (e - e0).toNat + (e0 + 1074).toNat = (e + 1074).toNat := by omega
  have hnat : m * 2 ^ (e - e0).toNat * 2 ^ (e0 + 1074).toNat = i.natAbs * 2 ^ 1074 := by
    rw [mul_assoc, ← pow_add, hexp, hrep]
  have hint : ((m * 2 ^ (e - e0).toNat : Nat) : Int) * ((2 ^ (e0 + 1074).toNat : Nat) : Int)
      = (i.natAbs : Int) * ((2 ^ 1074 : Nat) : Int) := by
    exact_mod_cast hnat
  unfold F64.scaledInt
  by_cases hneg : i < 0
  · simp only [hneg, decide_True, if_true]
    rw [neg_mul, hint, Int.ofNat_natAbs_of_nonpos (le_of_lt hneg)]
    ring
  · simp only [hneg, decide_False, Bool.false_eq_true, if_false]
    rw [hint, Int.natAbs_of_nonneg (not_lt.1 hneg)]

theorem F64.compare_ofInt (a b : Int) (ha : a.natAbs ≤ 2 ^ 53) (hb : b.natAbs ≤ 2 ^ 53) :
    F64.lt (F64.ofInt a) (F64.ofInt b) = decide (a < b) ∧
      F64.eq (F64.ofInt a) (F64.ofInt b) = decide (a = b) := by
  obtain ⟨ma, ea, h1, h2, h3⟩ := F64.ofInt_repr a ha
  obtain ⟨mb, eb, h4, h5, h6⟩ := F64.ofInt_repr b hb
  have hA := F64.scaledInt_scale a ma ea (min ea eb) h3 (le_min h2 h5) (min_le_left _ _)
  have hB := F64.scaledInt_scale b mb eb (min ea eb) h6 (le_min h2 h5) (min_le_right _ _)
  have hK : (0 : Int) < ((2 ^ (min ea eb + 1074).toNat : Nat) : Int) := by positivity
  have hC : (0 : Int) < ((2 ^ 1074 : Nat) : Int) := by positivity
  rw [h1, h4]
  simp only [F64.lt, F64.eq]
  constructor
  · congr 1
    apply propext
    rw [← mul_lt_mul_right hK, hA, hB, mul_lt_mul_right hC]
  · congr 1
    apply propext
    constructor
    · intro h
      have : a * ((2 ^ 1074 : Nat) : Int) = b * ((2 ^ 1074 : Nat) : Int) := by
        rw [← hA, ← hB, h]
      exact mul_right_cancel₀ (ne_of_gt hC) this
    · intro h
      have : F64.scaledInt (decide (a < 0)) ma ea (min ea eb)
            * ((2 ^ (min ea eb + 1074).toNat : Nat) : Int)
          = F64.scaledInt (decide (b < 0)) mb eb (min ea eb)
            * ((2 ^ (min ea eb + 1074).toNat : Nat) : Int) := by
        rw [hA, hB, h]
      exact mul_right_cancel₀ (ne_of_gt hK) this

/-- C13, as stated, fails on the code: `9007199254740993` is greater than
`9007199254740992`, yet in the base environment `(> 9007199254740993 9007199254740992)`
gives `Bool(false)`, `(== 9007199254740993 9007199254740992)` gives `Bool(true)`, and
`(if (> 9007199254740993 9007199254740992) 1 0)` gives `Integer(0)`: both Integers
convert to the same float64. -/
theorem C13_counterexample :
    eval 2 (some (.list [.symbol ">", .integer 9007199254740993, .integer 9007199254740992]))
        baseEnv = (.ret (some (.bool false)), baseEnv) ∧
      eval 2 (some (.list [.symbol "==", .integer 9007199254740993,
        .integer 9007199254740992])) baseEnv = (.ret (some (.bool true)), baseEnv) ∧
      eval 3 (some (.list [.symbol "if",
        .list [.symbol ">", .integer 9007199254740993, .integer 9007199254740992],
        .integer 1, .integer 0])) baseEnv = (.ret (some (.integer 0)), baseEnv) :=
  ⟨rfl, rfl, rfl⟩

/-- C13, amended: `>`, `<` and `==` compare the float64 conversions of their operands.
For Integers `a` and `b` between `-2^53` and `2^53`, which convert exactly, `(> a b)`,
`(< a b)` and `(== a b)` give `Bool(a > b)`, `Bool(a < b)` and `Bool(a = b)` in the base
environment, and `(if (> a b) 1 0)` gives `Integer(1)` when `a > b` and `Integer(0)`
otherwise. -/
theorem C13_comparisons_through_float64 (a b : Int) (fuel : Nat)
    (ha : -(2 : Int) ^ 53 ≤ a ∧ a ≤ (2 : Int) ^ 53)
    (hb : -(2 : Int) ^ 53 ≤ b ∧ b ≤ (2 : Int) ^ 53) :
    eval (fuel + 2) (some (.list [.symbol ">", .integer a, .integer b])) baseEnv
        = (.ret (some (.bool (decide (a > b)))), baseEnv) ∧
      eval (fuel + 2) (some (.list [.symbol "<", .integer a, .integer b])) baseEnv
        = (.ret (some (.bool (decide (a < b)))), baseEnv) ∧
      eval (fuel + 2) (some (.list [.symbol "==", .integer a, .integer b])) baseEnv
        = (.ret (some (.bool (decide (a = b)))), baseEnv) ∧
      eval (fuel + 3) (some (.list [.symbol "if",
          .list [.symbol ">", .integer a, .integer b], .integer 1, .integer 0])) baseEnv
        = (.ret (some (.integer (if a > b then 1 else 0))), baseEnv) ∧
      (∀ x y : Int,
        eval (fuel + 2) (some (.list [.symbol ">", .integer x, .integer y])) baseEnv
            = (.ret (some (.bool (F64.gt (F64.ofInt x) (F64.ofInt y)))), baseEnv) ∧
          eval (fuel + 2) (some (.list [.symbol "<", .integer x, .integer y])) baseEnv
            = (.ret (some (.bool (F64.lt (F64.ofInt x) (F64.ofInt y)))), baseEnv) ∧
          eval (fuel + 2) (some (.list [.symbol "==", .integer x, .integer y])) baseEnv
            = (.ret (some (.bool (F64.eq (F64.ofInt x) (F64.ofInt y)))), baseEnv)) := by
  have hna : a.natAbs ≤ 2 ^ 53 := by omega
  have hnb : b.natAbs ≤ 2 ^ 53 := by omega
  have hab := F64.compare_ofInt a b hna hnb
  have hba := F64.compare_ofInt b a hnb hna
  have hgt : eval (fuel + 2) (some (.list [.symbol ">", .integer a, .integer b])) baseEnv
      = (.ret (some (.bool (decide (a > b)))), baseEnv) := by
    have : eval (fuel + 2) (some (.list [.symbol ">", .integer a, .integer b])) baseEnv
        = (.ret (some (.bool (F64.gt (F64.ofInt a) (F64.ofInt b)))), baseEnv) := rfl
    rw [this, F64.gt, hba.1]
  refine ⟨hgt, ?_, ?_, ?_, fun x y => ⟨rfl, rfl, rfl⟩⟩
  · have : eval (fuel + 2) (some (.list [.symbol "<", .integer a, .integer b])) baseEnv
        = (.ret (some (.bool (F64.lt (F64.ofInt a) (F64.ofInt b)))), baseEnv) := rfl
    rw [this, hab.1]
  · have : eval (fuel + 2) (some (.list [.symbol "==", .integer a, .integer b])) baseEnv
        = (.ret (some (.bool (F64.eq (F64.ofInt a) (F64.ofInt b)))), baseEnv) := rfl
    rw [this, hab.2]
  · have hif : eval (fuel + 3) (some (.list [.symbol "if",
          .list [.symbol ">", .integer a, .integer b], .integer 1, .integer 0])) baseEnv
        = evalList (eval (fuel + 2)) [.symbol "if",
          .list [.symbol ">", .integer a, .integer b], .integer 1, .integer 0] baseEnv := rfl
    rw [hif]
    simp only [evalList, if_true, hgt]
    by_cases h : a > b
    · simp [h, eval]
    · simp [h, eval]

/-- Instances of C13, amended: `(if (> 3 2) 1 0)` gives `Integer(1)` and
`(if (> 2 3) 1 0)` gives `Integer(0)`. -/
theorem C13_comparisons_through_float64_witness :
    (-(2 : Int) ^ 53 ≤ 3 ∧ (3 : Int) ≤ (2 : Int) ^ 53) ∧
      (-(2 : Int) ^ 53 ≤ 2 ∧ (2 : Int) ≤ (2 : Int) ^ 53) ∧
      eval 3 (some (.list [.symbol "if", .list [.symbol ">", .integer 3, .integer 2],
          .integer 1, .integer 0])) baseEnv = (.ret (some (.integer 1)), baseEnv) ∧
      eval 3 (some (.list [.symbol "if", .list [.symbol ">", .integer 2, .integer 3],
          .integer 1, .integer 0])) baseEnv = (.ret (some (.integer 0)), baseEnv) :=
  ⟨by decide, by decide,
    (C13_comparisons_through_float64 3 2 0 (by decide) (by decide)).2.2.2.1,
    (C13_comparisons_through_float64 2 3 0 (by decide) (by decide)).2.2.2.1⟩

/-! ## C14: the tokenizer -/

theorem replaceAll_open (cs : List Char) :
    replaceAll ')' [' ', ')', ' '] (replaceAll '(' [' ', '(', ' '] ('(' :: cs))
      = ' ' :: '(' :: ' ' :: replaceAll ')' [' ', ')', ' '] (replaceAll '(' [' ', '(', ' '] cs) := by
  simp [replaceAll]

theorem replaceAll_close (cs : List Char) :
    replaceAll ')' [' ', ')', ' '] (replaceAll '(' [' ', '(', ' '] (')' :: cs))
      = ' ' :: ')' :: ' ' :: replaceAll ')' [' ', ')', ' '] (replaceAll '(' [' ', '(', ' '] cs) := by
  simp [replaceAll]

theorem replaceAll_other (c : Char) (cs : List Char) (h1 : c ≠ '(') (h2 : c ≠ ')') :
    replaceAll ')' [' ', ')', ' '] (replaceAll '(' [' ', '(', ' '] (c :: cs))
      = c :: replaceAll ')' [' ', ')', ' '] (replaceAll '(' [' ', '(', ' '] cs) := by
  simp [replaceAll, h1, h2]

theorem filter_map_cons (w : List Char) (ps : List (List Char)) :
    ((w :: ps).filter (fun piece => !piece.isEmpty)).map String.mk
      = flushToken w ++ (ps.filter (fun piece => !piece.isEmpty)).map String.mk := by
  cases w <;> simp [flushToken]

theorem split_tokensBy (cs : List Char) :
    ∃ w ps, split ' ' (replaceAll ')' [' ', ')', ' '] (replaceAll '(' [' ', '(', ' '] cs))
        = w :: ps ∧
      ∀ cur, tokensBy isSpace cs cur
        = flushToken (cur ++ w) ++ (ps.filter (fun piece => !piece.isEmpty)).map String.mk := by
  induction cs with
  | nil => exact ⟨[], [], rfl, fun cur => by simp [tokensBy]⟩
  | cons c cs ih =>
    obtain ⟨w, ps, hs, ht⟩ := ih
    by_cases hsp : c = ' '
    · subst hsp
      refine ⟨[], w :: ps, ?_, fun cur => ?_⟩
      · rw [replaceAll_other ' ' cs (by decide) (by decide)]
        simp [split, hs]
      · rw [filter_map_cons]
        simp [tokensBy, isSpace, ht]
    · by_cases hop : c = '('
      · subst hop
        refine ⟨[], ['('] :: w :: ps, ?_, fun cur => ?_⟩
        · rw [replaceAll_open]
          simp [split, hs]
        · rw [filter_map_cons, filter_map_cons]
          simp [tokensBy, isSpace, ht, flushToken]
      · by_cases hcl : c = ')'
        · subst hcl
          refine ⟨[], [')'] :: w :: ps, ?_, fun cur => ?_⟩
          · rw [replaceAll_close]
            simp [split, hs]
          · rw [filter_map_cons, filter_map_cons]
            simp [tokensBy, isSpace, ht, flushToken]
        · refine ⟨c :: w, ps, ?_, fun cur => ?_⟩
          · rw [replaceAll_other c cs hop hcl]
            simp [split, hs, hsp]
          · simp [tokensBy, isSpace, hsp, hop, hcl, ht]

theorem tokenize_eq_tokensBy (s : String) : tokenize s = tokensBy isSpace s.data [] := by
  obtain ⟨w, ps, hs, ht⟩ := split_tokensBy s.data
  rw [tokenize, hs, filter_map_cons, ht []]
  simp

theorem tokensBy_ne_empty (isSep : Char → Bool) (cs cur : List Char) :
    ∀ t ∈ tokensBy isSep cs cur, t ≠ "" := by
  have hflush : ∀ cur : List Char, ∀ t ∈ flushToken cur, t ≠ "" := by
    intro cur t ht
    cases cur with
    | nil => simp [flushToken] at ht
    | cons c cur =>
      simp only [flushToken, List.isEmpty_cons, Bool.false_eq_true, if_false,
        List.mem_singleton] at ht
      subst ht
      intro h
      have := congrArg String.data h
      simp at this
  induction cs generalizing cur with
  | nil => exact hflush cur
  | cons c cs ih =>
    intro t ht
    simp only [tokensBy] at ht
    split_ifs at ht
    · rcases List.mem_append.1 ht with h | h
      · exact hflush cur t h
      · exact ih [] t h
    · rcases List.mem_append.1 ht with h | h
      · exact hflush cur t h
      · rcases List.mem_cons.1 h with h | h
        · subst h
          intro h'
          have := congrArg String.data h'
          simp at this
        · exact ih [] t h
    · exact ih _ t ht

/-- C14, as stated, fails on the code: two atoms separated only by a tab come out as one
token, where cutting at whitespace gives two. -/
theorem C14_counterexample :
    tokenize "a\tb" = ["a\tb"] ∧ tokensBy isWhitespace "a\tb".data [] = ["a", "b"] :=
  ⟨by decide, by decide⟩

/-- C14, amended: `tokenize` returns, in source order, exactly the tokens obtained by
making each `(` and each `)` a one-character token of its own and cutting the rest of the
text at the space character (and at no other: tabs and newlines are token characters
like any other); no token is empty. -/
theorem C14_tokenize_splits_on_spaces (s : String) :
    tokenize s = tokensBy isSpace s.data [] ∧ (∀ t ∈ tokenize s, t ≠ "") ∧
      tokenize "(define  x\t(+ 1\n2))" = ["(", "define", "x\t", "(", "+", "1\n2", ")", ")"] := by
  refine ⟨tokenize_eq_tokensBy s, ?_, by decide⟩
  rw [tokenize_eq_tokensBy]
  exact tokensBy_ne_empty isSpace s.data []

/-! ## C15, C16: what the reader consumes -/

theorem read_prefix_aux (parseFloat : String → Option F64) (fuel : Nat) :
    (∀ tokens e rem, read_from_tokens parseFloat fuel tokens = .ret (e, rem) →
        ∃ used, used ≠ [] ∧ tokens = used ++ rem ∧
          ∀ rest, read_from_tokens parseFloat fuel (used ++ rest) = .ret (e, rest)) ∧
      (∀ tokens l e rem, readLoop parseFloat fuel tokens l = .ret (e, rem) →
        ∃ used, tokens = used ++ rem ∧
          ∀ rest, readLoop parseFloat fuel (used ++ rest) l = .ret (e, rest)) := by
  induction fuel with
  | zero =>
    constructor
    · intro tokens e rem h
      simp [read_from_tokens] at h
    · intro tokens l e rem h
      simp [readLoop] at h
  | succ n ih =>
    obtain ⟨ih1, ih2⟩ := ih
    constructor
    · intro tokens e rem h
      cases tokens with
      | nil => simp [read_from_tokens] at h
      | cons token tokens =>
        simp only [read_from_tokens] at h
        split_ifs at h with h1 h2
        · obtain ⟨used, hu, hr⟩ := ih2 tokens [] e rem h
          refine ⟨token :: used, by simp, by simp [hu], fun rest => ?_⟩
          simp only [List.cons_append, read_from_tokens, h1, if_true]
          exact hr rest
        · simp only [Outcome.ret.injEq, Prod.mk.injEq] at h
          obtain ⟨he, hrem⟩ := h
          subst he hrem
          refine ⟨[token], by simp, by simp, fun rest => ?_⟩
          simp [read_from_tokens, h1, h2]
    · intro tokens l e rem h
      cases tokens with
      | nil => simp [readLoop] at h
      | cons token tokens =>
        simp only [readLoop] at h
        split_ifs at h with h1
        · simp only [Outcome.ret.injEq, Prod.mk.injEq] at h
          obtain ⟨he, hrem⟩ := h
          subst he hrem
          refine ⟨[token], by simp, fun rest => ?_⟩
          simp [readLoop, h1]
        · split at h
          · rename_i e1 t1 hr1
            obtain ⟨u1, hne, hu1, hr1'⟩ := ih1 _ e1 t1 hr1
            obtain ⟨u2, hu2, hr2'⟩ := ih2 t1 (Append l e1) e rem h
            cases u1 with
            | nil => exact absurd rfl hne
            | cons tk u1 =>
              simp only [List.cons_append, List.cons.injEq] at hu1
              obtain ⟨htk, htl⟩ := hu1
              subst htk
              refine ⟨token :: u1 ++ u2, by simp [htl, hu2], fun rest => ?_⟩
              have hr := hr1' (u2 ++ rest)
              simp only [List.cons_append, List.append_assoc] at hr ⊢
              simp only [readLoop, h1, if_false, hr]
              exact hr2' rest
          · simp at h
          · simp at h

theorem read_mono_aux (parseFloat : String → Option F64) (fuel : Nat) :
    (∀ tokens, read_from_tokens parseFloat fuel tokens ≠ .outOfFuel →
        read_from_tokens parseFloat (fuel + 1) tokens = read_from_tokens parseFloat fuel tokens) ∧
      (∀ tokens l, readLoop parseFloat fuel tokens l ≠ .outOfFuel →
        readLoop parseFloat (fuel + 1) tokens l = readLoop parseFloat fuel tokens l) := by
  induction fuel with
  | zero =>
    constructor
    · intro tokens h
      simp [read_from_tokens] at h
    · intro tokens l h
      simp [readLoop] at h
  | succ n ih =>
    obtain ⟨ih1, ih2⟩ := ih
    constructor
    · intro tokens h
      cases tokens with
      | nil => rfl
      | cons token tokens =>
        simp only [read_from_tokens] at h ⊢
        split_ifs at h ⊢
        · exact ih2 _ _ h
        · rfl
        · rfl
    · intro tokens l h
      cases tokens with
      | nil => rfl
      | cons token tokens =>
        rw [readLoop] at h
        rw [readLoop, readLoop]
        split_ifs at h ⊢
        · rfl
        · rcases hr : read_from_tokens parseFloat n (token :: tokens) with ⟨e1, t1⟩ | p | _
          · rw [hr] at h
            rw [ih1 _ (by rw [hr]; simp), hr]
            exact ih2 _ _ h
          · rw [ih1 _ (by rw [hr]; simp), hr]
          · rw [hr] at h
            simp at h

theorem read_mono (parseFloat : String → Option F64) (fuel fuel' : Nat) (tokens : List String)
    (hle : fuel ≤ fuel') (h : read_from_tokens parseFloat fuel tokens ≠ .outOfFuel) :
    read_from_tokens parseFloat fuel' tokens = read_from_tokens parseFloat fuel tokens := by
  induction hle with
  | refl => rfl
  | step _ ih => rw [(read_mono_aux parseFloat _).1 tokens (by rw [ih]; exact h), ih]

theorem tokensBy_append_space (xs ys cur : List Char) :
    tokensBy isSpace (xs ++ ' ' :: ys) cur = tokensBy isSpace xs cur ++ tokensBy isSpace ys [] := by
  induction xs generalizing cur with
  | nil => simp [tokensBy, isSpace]
  | cons c xs ih =>
    simp only [List.cons_append, tokensBy]
    split_ifs <;> simp [ih]

theorem tokenize_append_space (s t : String) :
    tokenize (s ++ " " ++ t) = tokenize s ++ tokenize t := by
  simp only [tokenize_eq_tokensBy, String.data_append]
  rw [List.append_assoc, List.singleton_append]
  exact tokensBy_append_space s.data t.data []

theorem parse_of_tokens_append (parseFloat : String → Option F64) (s s' : String)
    (e : Expression) (extra : List String) (ht : tokenize s' = tokenize s ++ extra)
    (h : parse parseFloat s = .ret e) : parse parseFloat s' = .ret e := by
  unfold parse at h ⊢
  rcases hr : read_from_tokens parseFloat (2 * (tokenize s).length + 1) (tokenize s)
    with ⟨e1, rem⟩ | p | _
  · rw [hr] at h
    simp only [Outcome.ret.injEq] at h
    subst h
    obtain ⟨used, _, hu, hrest⟩ := (read_prefix_aux parseFloat _).1 _ e1 rem hr
    have h1 := hrest (rem ++ extra)
    rw [← List.append_assoc, ← hu, ← ht] at h1
    have h2 := read_mono parseFloat (2 * (tokenize s).length + 1)
      (2 * (tokenize s').length + 1) (tokenize s') (by rw [ht]; simp) (by rw [h1]; simp)
    rw [h2, h1]
  · rw [hr] at h
    simp at h
  · rw [hr] at h
    simp at h

/-- C15: when the reader succeeds on the tokens `ts` with the expression `e`, leaving
`rem`, it has consumed a prefix `used` of `ts`, and on `used` followed by any tokens
`rest`, balanced or not, it succeeds with the same `e` and leaves exactly `rest`.  Hence
`parse` returns the first complete form of its source, whatever follows it: a source that
parses keeps its result when a space and any text are appended, and `"(+ 1 2) )"` parses
as `"(+ 1 2)"` does. -/
theorem C15_reader_ignores_what_follows (parseFloat : String → Option F64) (fuel : Nat)
    (ts rem : List String) (e : Expression)
    (h : read_from_tokens parseFloat fuel ts = .ret (e, rem)) :
    (∃ used, ts = used ++ rem ∧
        ∀ rest, read_from_tokens parseFloat fuel (used ++ rest) = .ret (e, rest)) ∧
      (∀ (s t : String) (e' : Expression), parse parseFloat s = .ret e' →
        parse parseFloat (s ++ " " ++ t) = .ret e') ∧
      parse parseFloat "(+ 1 2) )" = parse parseFloat "(+ 1 2)" ∧
      parse parseFloat "1 ) (" = .ret (.integer 1) := by
  obtain ⟨used, _, hu, hrest⟩ := (read_prefix_aux parseFloat fuel).1 ts e rem h
  exact ⟨⟨used, hu, hrest⟩,
    fun s t e' hp => parse_of_tokens_append parseFloat s _ e' (tokenize t)
      (tokenize_append_space s t) hp, rfl, rfl⟩

/-- An instance of C15: the reader on the tokens of `"1 )"`. -/
theorem C15_reader_ignores_what_follows_witness :
    read_from_tokens (fun _ => none) 1 ["1", ")"] = .ret (.integer 1, [")"]) ∧
      ∃ used, ["1", ")"] = used ++ [")"] ∧
        ∀ rest, read_from_tokens (fun _ => none) 1 (used ++ rest) = .ret (.integer 1, rest) :=
  ⟨rfl, (C15_reader_ignores_what_follows (fun _ => none) 1 ["1", ")"] [")"] (.integer 1) rfl).1⟩

theorem read_close_aux (parseFloat : String → Option F64) (fuel : Nat) :
    (∀ tokens, read_from_tokens parseFloat fuel tokens = .panic .unexpectedCloseParen →
        tokens.head? = some ")") ∧
      (∀ tokens l, readLoop parseFloat fuel tokens l ≠ .panic .unexpectedCloseParen) := by
  induction fuel with
  | zero =>
    constructor
    · intro tokens h
      simp [read_from_tokens] at h
    · intro tokens l h
      simp [readLoop] at h
  | succ n ih =>
    obtain ⟨ih1, ih2⟩ := ih
    constructor
    · intro tokens h
      cases tokens with
      | nil => simp [read_from_tokens] at h
      | cons token tokens =>
        simp only [read_from_tokens] at h
        split_ifs at h with h1 h2
        · exact absurd h (ih2 _ _)
        · simp [h2]
    · intro tokens l h
      cases tokens with
      | nil => simp [readLoop] at h
      | cons token tokens =>
        simp only [readLoop] at h
        split_ifs at h with h1
        split at h
        · exact ih2 _ _ h
        · rename_i p hp
          cases h
          have := ih1 _ hp
          simp only [List.head?_cons, Option.some.injEq] at this
          exact h1 this
        · simp at h

/-- C16, as stated, fails on the code: the token sequence of `"1 )"` contains a `)` with no
`(` before it, yet `parse` succeeds, with `Integer(1)`. -/
theorem C16_counterexample :
    tokenize "1 )" = ["1", ")"] ∧
      ∀ parseFloat : String → Option F64, parse parseFloat "1 )" = .ret (.integer 1) :=
  ⟨by decide, fun _ => rfl⟩

/-- C16, amended: `parse` fails with "unexpected )" exactly when the first token of the
source is `)`: a close-paren where the first form should start is an error, as for the
source `")"`, while a stray close-paren after the first complete form is ignored with the
rest of the source. -/
theorem C16_close_paren_first (parseFloat : String → Option F64) (s : String) :
    (parse parseFloat s = .panic .unexpectedCloseParen ↔ (tokenize s).head? = some ")") ∧
      parse parseFloat ")" = .panic .unexpectedCloseParen := by
  refine ⟨⟨fun h => ?_, fun h => ?_⟩, rfl⟩
  · unfold parse at h
    rcases hr : read_from_tokens parseFloat (2 * (tokenize s).length + 1) (tokenize s)
      with ⟨e1, rem⟩ | p | _
    · rw [hr] at h
      simp at h
    · rw [hr] at h
      simp only [Outcome.panic.injEq] at h
      subst h
      exact (read_close_aux parseFloat _).1 _ hr
    · rw [hr] at h
      simp at h
  · unfold parse
    cases hts : tokenize s with
    | nil => simp [hts] at h
    | cons token tokens =>
      simp only [hts, List.head?_cons, Option.some.injEq] at h
      subst h
      simp [read_from_tokens]

/-! ## C20: a call leaves the caller's chain as it was -/

theorem Env.parent_assign (env : Env) (k : String) (v : Value) :
    (Env.assign env k v).parent = env.parent := by
  cases env <;> rfl

theorem evalArgs_frame (st : SetTracker) (ev : Evaluator)
    (hfr : ∀ x env, st x env = false → (ev x env).2.parent = env.parent)
    (xs : List Expression) (env : Env) (acc : List Value)
    (h : setInSeq st ev xs env = false) :
    (evalArgs ev xs env acc).2.parent = env.parent := by
  induction xs generalizing env acc with
  | nil => rfl
  | cons x rest ih =>
    simp only [setInSeq, Bool.or_eq_false_iff] at h
    obtain ⟨h1, h2⟩ := h
    have hx := hfr (some x) env h1
    simp only [evalArgs]
    rcases hr : ev (some x) env with ⟨o, env1⟩
    rw [hr] at hx h2
    cases o with
    | ret v => exact (ih env1 _ h2).trans hx
    | panic p => exact hx
    | outOfFuel => exact hx

theorem evalBody_frame (st : SetTracker) (ev : Evaluator)
    (hfr : ∀ x env, st x env = false → (ev x env).2.parent = env.parent)
    (xs : List Expression) (env : Env) (r : Value)
    (h : setInSeq st ev xs env = false) :
    (evalBody ev xs env r).2.parent = env.parent := by
  induction xs generalizing env r with
  | nil => rfl
  | cons x rest ih =>
    simp only [setInSeq, Bool.or_eq_false_iff] at h
    obtain ⟨h1, h2⟩ := h
    have hx := hfr (some x) env h1
    simp only [evalBody]
    rcases hr : ev (some x) env with ⟨o, env1⟩
    rw [hr] at hx h2
    cases o with
    | ret v => exact (ih env1 _ h2).trans hx
    | panic p => exact hx
    | outOfFuel => exact hx

theorem callUserFunction_frame (st : SetTracker) (ev : Evaluator)
    (hfr : ∀ x env, st x env = false → (ev x env).2.parent = env.parent)
    (env : Env) (fargs : List String) (fbody : List Expression) (args : List Value)
    (h : setInCall st ev env fargs fbody args = false) :
    (callUserFunction ev env fargs fbody args).2 = env := by
  simp only [setInCall] at h
  simp only [callUserFunction]
  cases hb : bindArgs fargs args (NewEnv env).scope with
  | error p => rfl
  | ok scope =>
    rw [hb] at h
    exact evalBody_frame st ev hfr fbody (scope :: env) none h

theorem evalList_frame (st : SetTracker) (ev : Evaluator)
    (hfr : ∀ x env, st x env = false → (ev x env).2.parent = env.parent)
    (x : List Expression) (env : Env) (h : setInList st ev x env = false) :
    (evalList ev x env).2.parent = env.parent := by
  cases x with
  | nil => rfl
  | cons hd rest =>
    cases hd with
    | symbol name =>
      simp only [setInList] at h
      simp only [evalList]
      split_ifs at h ⊢ with h1 h2 h3 h4
      · match rest with
        | [] => rfl
        | [_] => rfl
        | test :: conseq :: rest2 =>
          simp only [Bool.or_eq_false_iff] at h
          obtain ⟨ht, hb⟩ := h
          have hx := hfr (some test) env ht
          simp only
          rcases hr : ev (some test) env with ⟨o, env1⟩
          rw [hr] at hx hb
          cases o with
          | ret v =>
            rcases v with _ | v
            · exact hx
            · cases v <;> try exact hx
              rename_i b
              cases b
              · exact (hfr _ _ (by simpa using hb)).trans hx
              · exact (hfr _ _ (by simpa using hb)).trans hx
          | panic p => exact hx
          | outOfFuel => exact hx
      · match rest with
        | [] => rfl
        | vvar :: rest2 =>
          simp only at h ⊢
          have hx := hfr rest2.head? env h
          rcases hr : ev rest2.head? env with ⟨o, env1⟩
          rw [hr] at hx
          cases o with
          | ret v => exact (Env.parent_assign _ _ _).trans hx
          | panic p => exact hx
          | outOfFuel => exact hx
      · match rest with
        | [] => rfl
        | hd :: rest2 =>
          cases hd with
          | symbol fname =>
            match rest2 with
            | [] => rfl
            | hd2 :: body =>
              cases hd2 with
              | list argsExpr =>
                simp only
                cases symbolNames argsExpr with
                | none => rfl
                | some args => exact Env.parent_assign _ _ _
              | _ => rfl
          | _ => rfl
      · simp only [Bool.or_eq_false_iff] at h
        obtain ⟨hs, hb⟩ := h
        have hx := hfr (some (.symbol name)) env hs
        rcases hr : ev (some (.symbol name)) env with ⟨o, env1⟩
        rw [hr] at hx hb
        cases o with
        | ret proc =>
          simp only [Bool.or_eq_false_iff] at hb ⊢
          obtain ⟨ha, hc⟩ := hb
          have hargs := evalArgs_frame st ev hfr rest env1 [] ha
          rcases hra : evalArgs ev rest env1 [] with ⟨oa, env2⟩
          rw [hra] at hargs hc
          cases oa with
          | ret args =>
            simp only at hc ⊢
            rcases proc with _ | p
            · exact hargs.trans hx
            · cases p <;> try exact hargs.trans hx
              rw [callUserFunction_frame st ev hfr _ _ _ _ hc]
              exact hargs.trans hx
          | panic p => exact hargs.trans hx
          | outOfFuel => exact hargs.trans hx
        | panic p => exact hx
        | outOfFuel => exact hx
    | _ => rfl

theorem eval_frame (fuel : Nat) (x : Value) (env : Env) (h : setEvaluated fuel x env = false) :
    (eval fuel x env).2.parent = env.parent := by
  induction fuel generalizing x env with
  | zero => rfl
  | succ n ih =>
    rcases x with _ | x
    · rfl
    · cases x <;> try rfl
      rename_i xs
      simp only [setEvaluated] at h
      simp only [eval]
      exact evalList_frame (setEvaluated n) (eval n) ih xs env h

/-- C20: when no `set!` form is evaluated during the application of a user procedure
(parameters `fargs`, body `fbody`) to the evaluated arguments `args` from `env`, the chain
of `env` is the same after the call as before, whether the call returns, panics or is cut
short: every scope of `env` and of its ancestors is unchanged, and a name unbound on the
chain stays unbound.  The bindings of the parameters and the `define`s and `define-func`s
of the body land in the environment created for the call. -/
theorem C20_call_leaves_caller_chain (fuel : Nat) (env : Env) (fargs : List String)
    (fbody : List Expression) (args : List Value)
    (h : setInCall (setEvaluated fuel) (eval fuel) env fargs fbody args = false) :
    (callUserFunction (eval fuel) env fargs fbody args).2 = env ∧
      (∀ name, Env.Find env name = none →
        Env.Find (callUserFunction (eval fuel) env fargs fbody args).2 name = none) := by
  have hc := callUserFunction_frame (setEvaluated fuel) (eval fuel)
    (fun x env hx => eval_frame fuel x env hx) env fargs fbody args h
  exact ⟨hc, fun name hn => by rw [hc]; exact hn⟩

/-- Instances of C20: the body `(define y a) (define-func g () y) (g)` applied to `5` in
the base environment returns `Integer(5)` and leaves the base environment as it was, and so
does the body `(define y a) (undefined-procedure)`, which panics. -/
theorem C20_call_leaves_caller_chain_witness :
    setInCall (setEvaluated 4) (eval 4) baseEnv ["a"]
        [.list [.symbol "define", .symbol "y", .symbol "a"],
          .list [.symbol "define-func", .symbol "g", .list [], .symbol "y"],
          .list [.symbol "g"]] [some (.integer 5)] = false ∧
      callUserFunction (eval 4) baseEnv ["a"]
        [.list [.symbol "define", .symbol "y", .symbol "a"],
          .list [.symbol "define-func", .symbol "g", .list [], .symbol "y"],
          .list [.symbol "g"]] [some (.integer 5)] = (.ret (some (.integer 5)), baseEnv) ∧
      callUserFunction (eval 4) baseEnv ["a"]
        [.list [.symbol "define", .symbol "y", .symbol "a"],
          .list [.symbol "undefined-procedure"]] [some (.integer 5)]
        = (.panic .interfaceConversion, baseEnv) ∧
      (callUserFunction (eval 4) baseEnv ["a"]
        [.list [.symbol "define", .symbol "y", .symbol "a"],
          .list [.symbol "undefined-procedure"]] [some (.integer 5)]).2 = baseEnv :=
  ⟨rfl, rfl, rfl,
    (C20_call_leaves_caller_chain 4 baseEnv ["a"]
      [.list [.symbol "define", .symbol "y", .symbol "a"],
        .list [.symbol "undefined-procedure"]] [some (.integer 5)] rfl).1⟩

/-! ## Decimal digits: `strconv.Itoa` and `strconv.ParseInt` -/

theorem digitChar_toNat (k : Nat) (hk : k < 10) : (Nat.digitChar k).toNat = 48 + k := by
  interval_cases k <;> rfl

theorem toDigitsCore_append (fuel n : Nat) (ds : List Char) :
    Nat.toDigitsCore 10 fuel n ds = Nat.toDigitsCore 10 fuel n [] ++ ds := by
  induction fuel generalizing n ds with
  | zero => rfl
  | succ f ih =>
    simp only [Nat.toDigitsCore]
    split_ifs
    · rfl
    · rw [ih (n / 10) (Nat.digitChar (n % 10) :: ds), ih (n / 10) [Nat.digitChar (n % 10)]]
      simp

theorem parseDigits_append_digit (xs : List Char) (acc a : Nat) (k : Nat) (hk : k < 10)
    (h : parseDigits xs acc = some a) :
    parseDigits (xs ++ [Nat.digitChar k]) acc = some (a * 10 + k) := by
  induction xs generalizing acc with
  | nil =>
    simp only [parseDigits, Option.some.injEq] at h
    subst h
    have hd := digitChar_toNat k hk
    simp only [List.nil_append, parseDigits, hd]
    rw [if_pos (by omega)]
    congr 2
    omega
  | cons c cs ih =>
    simp only [parseDigits, List.cons_append] at h ⊢
    split_ifs at h ⊢
    exact ih _ h

theorem parseDigits_toDigitsCore (fuel n : Nat) (h : n < fuel) :
    parseDigits (Nat.toDigitsCore 10 fuel n []) 0 = some n := by
  induction fuel generalizing n with
  | zero => omega
  | succ f ih =>
    simp only [Nat.toDigitsCore]
    split_ifs with h0
    · have hlt : n < 10 := by omega
      have := parseDigits_append_digit [] 0 0 (n % 10) (Nat.mod_lt _ (by norm_num)) rfl
      simp only [List.nil_append, zero_mul, zero_add] at this
      rw [this, Nat.mod_eq_of_lt hlt]
    · rw [toDigitsCore_append]
      have hlt : n / 10 < f := by omega
      rw [parseDigits_append_digit _ 0 (n / 10) (n % 10) (Nat.mod_lt _ (by norm_num))
        (ih (n / 10) hlt)]
      congr 1
      omega

theorem parseDigits_toDigits (n : Nat) : parseDigits (Nat.toDigits 10 n) 0 = some n :=
  parseDigits_toDigitsCore (n + 1) n (Nat.lt_succ_self n)

theorem parseDigits_isDigit (xs : List Char) (acc v : Nat) (h : parseDigits xs acc = some v) :
    ∀ c ∈ xs, 48 ≤ c.toNat ∧ c.toNat ≤ 57 := by
  induction xs generalizing acc with
  | nil => simp
  | cons c cs ih =>
    simp only [parseDigits] at h
    split_ifs at h with hc
    intro d hd
    rcases List.mem_cons.1 hd with rfl | hd
    · exact hc
    · exact ih _ h d hd

theorem toDigits_isDigit (n : Nat) : ∀ c ∈ Nat.toDigits 10 n, 48 ≤ c.toNat ∧ c.toNat ≤ 57 :=
  parseDigits_isDigit _ 0 n (parseDigits_toDigits n)

theorem toDigits_ne_nil (n : Nat) : Nat.toDigits 10 n ≠ [] := by
  unfold Nat.toDigits
  simp only [Nat.toDigitsCore]
  split_ifs
  · simp
  · rw [toDigitsCore_append]
    simp

theorem ParseInt_itoa (i : Int) (h1 : -(2 : Int) ^ 63 ≤ i) (h2 : i < (2 : Int) ^ 63) :
    ParseInt (itoa i) = some i := by
  have hne := toDigits_ne_nil i.natAbs
  have hp := parseDigits_toDigits i.natAbs
  have hd := toDigits_isDigit i.natAbs
  unfold ParseInt itoa
  by_cases hneg : i < 0
  · simp only [hneg, if_true]
    have hemp : (Nat.toDigits 10 i.natAbs).isEmpty = false := by
      cases hl : Nat.toDigits 10 i.natAbs with
      | nil => exact absurd hl hne
      | cons c cs => rfl
    simp only [or_true, if_true, hemp, Bool.false_eq_true, if_false, hp]
    rw [if_pos (by omega)]
    congr 1
    omega
  · simp only [hneg, if_false]
    cases hl : Nat.toDigits 10 i.natAbs with
    | nil => exact absurd hl hne
    | cons c cs =>
      have hc := hd c (by rw [hl]; exact List.mem_cons_self _ _)
      have hplus : c ≠ '+' := by
        intro hcp
        subst hcp
        revert hc
        decide
      have hminus : c ≠ '-' := by
        intro hcp
        subst hcp
        revert hc
        decide
      rw [hl] at hp
      simp only [hplus, hminus, or_self, if_false, List.isEmpty_cons, Bool.false_eq_true, hp]
      rw [if_pos (by omega)]
      congr 1
      omega
/-! ## C17: what the reader builds -/

theorem flushToken_ok (cur : List Char) (hcur : ∀ c ∈ cur, plainChar c) :
    ∀ t ∈ flushToken cur, TokenOK t := by
  intro t ht
  cases cur with
  | nil => simp [flushToken] at ht
  | cons c cs =>
    simp only [flushToken, List.isEmpty_cons, Bool.false_eq_true, if_false,
      List.mem_singleton] at ht
    subst ht
    exact Or.inr (Or.inr ⟨by simp, hcur⟩)

theorem tokensBy_ok (cs cur : List Char) (hcur : ∀ c ∈ cur, plainChar c) :
    ∀ t ∈ tokensBy isSpace cs cur, TokenOK t := by
  induction cs generalizing cur with
  | nil => exact flushToken_ok cur hcur
  | cons c cs ih =>
    intro t ht
    simp only [tokensBy] at ht
    split_ifs at ht with h1 h2
    · rcases List.mem_append.1 ht with h | h
      · exact flushToken_ok cur hcur t h
      · exact ih [] (by simp) t h
    · rcases List.mem_append.1 ht with h | h
      · exact flushToken_ok cur hcur t h
      · rcases List.mem_cons.1 h with h | h
        · subst h
          rcases h2 with rfl | rfl
          · exact Or.inl rfl
          · exact Or.inr (Or.inl rfl)
        · exact ih [] (by simp) t h
    · refine ih (cur ++ [c]) ?_ t ht
      intro d hd
      rcases List.mem_append.1 hd with hd | hd
      · exact hcur d hd
      · simp only [List.mem_singleton] at hd
        subst hd
        refine ⟨?_, fun h => h2 (Or.inl h), fun h => h2 (Or.inr h)⟩
        intro h
        subst h
        simp [isSpace] at h1

theorem tokenize_ok (s : String) : ∀ t ∈ tokenize s, TokenOK t := by
  rw [tokenize_eq_tokensBy]
  exact tokensBy_ok s.data [] (by simp)

theorem ParseInt_range (t : String) (v : Int) (h : ParseInt t = some v) :
    -(2 : Int) ^ 63 ≤ v ∧ v < (2 : Int) ^ 63 := by
  unfold ParseInt at h
  split at h
  · simp at h
  · simp only at h
    split_ifs at h
    all_goals split at h
    all_goals
      first
        | (simp at h; done)
        | (split_ifs at h; simp only [Option.some.injEq] at h; subst h; omega)

theorem atom_cases (parseFloat : String → Option F64) (t : String) :
    (∃ v, ParseInt t = some v ∧ atom parseFloat t = .integer v) ∨
      (∃ f, atom parseFloat t = .float f) ∨
      (t = "true" ∧ atom parseFloat t = .bool true) ∨
      (t = "false" ∧ atom parseFloat t = .bool false) ∨
      atom parseFloat t = .symbol t := by
  have htail : (∃ f, atom parseFloat t = .float f) ∨
      (t = "true" ∧ (match parseFloat t with
        | some fval => Expression.float fval
        | none => if t = "true" ∨ t = "false" then .bool (t = "true") else .symbol t)
          = .bool true) ∨
      (t = "false" ∧ (match parseFloat t with
        | some fval => Expression.float fval
        | none => if t = "true" ∨ t = "false" then .bool (t = "true") else .symbol t)
          = .bool false) ∨
      (match parseFloat t with
        | some fval => Expression.float fval
        | none => if t = "true" ∨ t = "false" then .bool (t = "true") else .symbol t)
          = .symbol t ∨
      (∃ f, (match parseFloat t with
        | some fval => Expression.float fval
        | none => if t = "true" ∨ t = "false" then .bool (t = "true") else .symbol t)
          = .float f) := by
    cases hpf : parseFloat t with
    | some f => exact Or.inr (Or.inr (Or.inr (Or.inr ⟨f, rfl⟩)))
    | none =>
      by_cases h1 : t = "true"
      · subst h1
        exact Or.inr (Or.inl ⟨rfl, by simp⟩)
      · by_cases h2 : t = "false"
        · subst h2
          exact Or.inr (Or.inr (Or.inl ⟨rfl, by simp⟩))
        · exact Or.inr (Or.inr (Or.inr (Or.inl (by simp [h1, h2]))))
  unfold atom
  cases hp : ParseInt t with
  | some v =>
    simp only
    by_cases hdot : t.data.contains '.' = true
    · simp only [hdot, Bool.not_true, Bool.false_eq_true, if_false]
      rcases htail with h | h | h | h | h
      · unfold atom at h
        rw [hp] at h
        simp only [hdot, Bool.not_true, Bool.false_eq_true, if_false] at h
        exact Or.inr (Or.inl h)
      · exact Or.inr (Or.inr (Or.inl h))
      · exact Or.inr (Or.inr (Or.inr (Or.inl h)))
      · exact Or.inr (Or.inr (Or.inr (Or.inr h)))
      · exact Or.inr (Or.inl h)
    · simp only [Bool.not_eq_true] at hdot
      simp only [hdot, Bool.not_false, if_true]
      exact Or.inl ⟨v, rfl, rfl⟩
  | none =>
    simp only
    rcases htail with h | h | h | h | h
    · unfold atom at h
      rw [hp] at h
      exact Or.inr (Or.inl h)
    · exact Or.inr (Or.inr (Or.inl h))
    · exact Or.inr (Or.inr (Or.inr (Or.inl h)))
    · exact Or.inr (Or.inr (Or.inr (Or.inr h)))
    · exact Or.inr (Or.inl h)

theorem atom_readable (parseFloat : String → Option F64) (t : String) (hne : t.data ≠ [])
    (hplain : ∀ c ∈ t.data, plainChar c) : Readable parseFloat (atom parseFloat t) := by
  rcases atom_cases parseFloat t with ⟨v, hv, h⟩ | ⟨f, h⟩ | ⟨ht, h⟩ | ⟨ht, h⟩ | h
  · rw [h]
    exact .integer v (ParseInt_range t v hv).1 (ParseInt_range t v hv).2
  · rw [h]
    exact .float f
  · rw [h]
    subst ht
    exact .bool true h
  · rw [h]
    subst ht
    exact .bool false h
  · rw [h]
    exact .symbol t hne hplain h

theorem read_readable_aux (parseFloat : String → Option F64) (fuel : Nat) :
    (∀ tokens e rem, (∀ t ∈ tokens, TokenOK t) →
        read_from_tokens parseFloat fuel tokens = .ret (e, rem) →
        Readable parseFloat e ∧ ∀ t ∈ rem, TokenOK t) ∧
      (∀ tokens l e rem, (∀ t ∈ tokens, TokenOK t) → (∀ x ∈ l, Readable parseFloat x) →
        readLoop parseFloat fuel tokens l = .ret (e, rem) →
        Readable parseFloat e ∧ ∀ t ∈ rem, TokenOK t) := by
  induction fuel with
  | zero =>
    constructor
    · intro tokens e rem _ h
      simp [read_from_tokens] at h
    · intro tokens l e rem _ _ h
      simp [readLoop] at h
  | succ n ih =>
    obtain ⟨ih1, ih2⟩ := ih
    constructor
    · intro tokens e rem hok h
      cases tokens with
      | nil => simp [read_from_tokens] at h
      | cons token tokens =>
        have hok' : ∀ t ∈ tokens, TokenOK t := fun t ht => hok t (List.mem_cons_of_mem _ ht)
        simp only [read_from_tokens] at h
        split_ifs at h with h1 h2
        · exact ih2 tokens [] e rem hok' (by simp) h
        · simp only [Outcome.ret.injEq, Prod.mk.injEq] at h
          obtain ⟨he, hrem⟩ := h
          subst he hrem
          rcases hok token (List.mem_cons_self _ _) with h3 | h3 | ⟨h3, h4⟩
          · exact absurd h3 h1
          · exact absurd h3 h2
          · exact ⟨atom_readable parseFloat token h3 h4, hok'⟩
    · intro tokens l e rem hok hl h
      cases tokens with
      | nil => simp [readLoop] at h
      | cons token tokens =>
        have hok' : ∀ t ∈ tokens, TokenOK t := fun t ht => hok t (List.mem_cons_of_mem _ ht)
        simp only [readLoop] at h
        split_ifs at h with h1
        · simp only [Outcome.ret.injEq, Prod.mk.injEq] at h
          obtain ⟨he, hrem⟩ := h
          subst he hrem
          exact ⟨.list l hl, hok'⟩
        · split at h
          · rename_i e1 t1 hr1
            obtain ⟨hre, hok1⟩ := ih1 _ e1 t1 hok hr1
            refine ih2 t1 (Append l e1) e rem hok1 ?_ h
            intro x hx
            simp only [Append, List.mem_append, List.mem_singleton] at hx
            rcases hx with hx | hx
            · exact hl x hx
            · subst hx
              exact hre
          · simp at h
          · simp at h

theorem parse_readable (parseFloat : String → Option F64) (s : String) (e : Expression)
    (h : parse parseFloat s = .ret e) : Readable parseFloat e := by
  unfold parse at h
  rcases hr : read_from_tokens parseFloat (2 * (tokenize s).length + 1) (tokenize s)
    with ⟨e1, rem⟩ | p | _
  · rw [hr] at h
    simp only [Outcome.ret.injEq] at h
    subst h
    exact ((read_readable_aux parseFloat _).1 _ e1 rem (tokenize_ok s) hr).1
  · rw [hr] at h
    simp at h
  · rw [hr] at h
    simp at h

theorem plainChar_of_digit (c : Char) (h : 48 ≤ c.toNat ∧ c.toNat ≤ 57) : plainChar c := by
  refine ⟨?_, ?_, ?_⟩ <;> (intro hc; subst hc; revert h; decide)

theorem itoa_data_cases (i : Int) :
    (itoa i).data = Nat.toDigits 10 i.natAbs ∨ (itoa i).data = '-' :: Nat.toDigits 10 i.natAbs := by
  unfold itoa
  by_cases h : i < 0
  · exact Or.inr (by simp [h])
  · exact Or.inl (by simp [h])

theorem itoa_plain (i : Int) : (itoa i).data ≠ [] ∧ ∀ c ∈ (itoa i).data, plainChar c := by
  have hd := toDigits_isDigit i.natAbs
  have hne := toDigits_ne_nil i.natAbs
  rcases itoa_data_cases i with h | h
  · rw [h]
    exact ⟨hne, fun c hc => plainChar_of_digit c (hd c hc)⟩
  · rw [h]
    refine ⟨by simp, fun c hc => ?_⟩
    rcases List.mem_cons.1 hc with rfl | hc
    · exact ⟨by decide, by decide, by decide⟩
    · exact plainChar_of_digit c (hd c hc)

theorem itoa_no_dot (i : Int) : (itoa i).data.contains '.' = false := by
  have hd := toDigits_isDigit i.natAbs
  have hnd : ('.' : Char) ∉ Nat.toDigits 10 i.natAbs := by
    intro hm
    have := hd '.' hm
    revert this
    decide
  rcases itoa_data_cases i with h | h
  · rw [h]
    simpa using hnd
  · rw [h]
    simp only [List.contains_cons, Bool.or_eq_false_iff]
    exact ⟨by decide, by simpa using hnd⟩

theorem atom_itoa (parseFloat : String → Option F64) (i : Int) (h1 : -(2 : Int) ^ 63 ≤ i)
    (h2 : i < (2 : Int) ^ 63) : atom parseFloat (itoa i) = .integer i := by
  unfold atom
  rw [ParseInt_itoa i h1 h2]
  simp only [itoa_no_dot, Bool.not_false, if_true]

/-- The facts on the rendering of an atom that the round trip uses. -/
theorem atom_facts (parseFloat : String → Option F64) (e : Expression)
    (hr : Readable parseFloat e) (hnf : noFloat e = true) (hnl : ∀ xs, e ≠ .list xs) :
    e.Sexpr.data ≠ [] ∧ (∀ c ∈ e.Sexpr.data, plainChar c) ∧ atom parseFloat e.Sexpr = e ∧
      toks e = [e.Sexpr] := by
  cases hr with
  | symbol t hne hplain hatom =>
    exact ⟨by simpa [Expression.Sexpr] using hne, by simpa [Expression.Sexpr] using hplain,
      by simpa [Expression.Sexpr] using hatom, by simp [toks]⟩
  | integer i h1 h2 =>
    refine ⟨?_, ?_, ?_, by simp [toks]⟩
    · simpa [Expression.Sexpr] using (itoa_plain i).1
    · simpa [Expression.Sexpr] using (itoa_plain i).2
    · simpa [Expression.Sexpr] using atom_itoa parseFloat i h1 h2
  | bool b hatom =>
    refine ⟨?_, ?_, hatom, by simp [toks]⟩
    · cases b <;> simp [Expression.Sexpr]
    · cases b
      · show ∀ c ∈ ['f', 'a', 'l', 's', 'e'], c ≠ ' ' ∧ c ≠ '(' ∧ c ≠ ')'
        decide
      · show ∀ c ∈ ['t', 'r', 'u', 'e'], c ≠ ' ' ∧ c ≠ '(' ∧ c ≠ ')'
        decide
  | float f => simp [noFloat] at hnf
  | list xs h => exact absurd rfl (hnl xs)

theorem ne_paren_of_plain (t : String) (hne : t.data ≠ []) (hplain : ∀ c ∈ t.data, plainChar c) :
    t ≠ "(" ∧ t ≠ ")" := by
  constructor
  · intro h
    subst h
    exact (hplain '(' (by decide)).2.1 rfl
  · intro h
    subst h
    exact (hplain ')' (by decide)).2.2 rfl

theorem noFloatList_mem (xs : List Expression) (h : noFloatList xs = true) :
    ∀ x ∈ xs, noFloat x = true := by
  induction xs with
  | nil => simp
  | cons y ys ih =>
    simp only [noFloatList, Bool.and_eq_true] at h
    intro x hx
    rcases List.mem_cons.1 hx with rfl | hx
    · exact h.1
    · exact ih h.2 x hx

/-- The text that follows an expression inside a rendering: nothing, a space or a closing
parenthesis. -/
theorem tokensBy_atom (a rest : List Char) (hne : a ≠ []) (hplain : ∀ c ∈ a, plainChar c)
    (hrest : rest = [] ∨ (∃ r, rest = ' ' :: r) ∨ ∃ r, rest = ')' :: r) (cur : List Char) :
    tokensBy isSpace (a ++ rest) cur
      = String.mk (cur ++ a) :: tokensBy isSpace rest [] := by
  induction a generalizing cur with
  | nil => exact absurd rfl hne
  | cons c cs ih =>
    obtain ⟨h1, h2, h3⟩ := hplain c (List.mem_cons_self _ _)
    have hsp : isSpace c = false := by simp [isSpace, h1]
    simp only [List.cons_append, tokensBy, hsp, Bool.false_eq_true, if_false, h2, h3, or_self,
      List.append_eq]
    by_cases hcs : cs = []
    · subst hcs
      have hflush : flushToken (cur ++ [c]) = [String.mk (cur ++ [c])] := by
        simp [flushToken]
      rcases hrest with rfl | ⟨r, rfl⟩ | ⟨r, rfl⟩
      · simp [tokensBy, hflush, flushToken]
      · simp [tokensBy, hflush, isSpace, flushToken]
      · simp [tokensBy, hflush, isSpace, flushToken]
    · rw [ih hcs (fun d hd => hplain d (List.mem_cons_of_mem _ hd)) (cur ++ [c])]
      simp

theorem sexprLoop_data (xs : List Expression) (buf : String) (h : 1 < buf.length) :
    (sexprLoop buf xs).data
      = buf.data ++ (xs.flatMap (fun x => ' ' :: x.Sexpr.data)) ++ [')'] := by
  induction xs generalizing buf with
  | nil => simp [sexprLoop]
  | cons x rest ih =>
    rw [sexprLoop, if_pos h, ih]
    · simp [String.data_append]
    · simp only [String.length_append]
      omega

theorem Sexpr_list_cons_data (x : Expression) (rest : List Expression)
    (hx : x.Sexpr.data ≠ []) :
    (Expression.list (x :: rest)).Sexpr.data
      = '(' :: (x.Sexpr.data ++ (rest.flatMap (fun y => ' ' :: y.Sexpr.data)) ++ [')']) := by
  have hlen : 1 < ("(" ++ x.Sexpr).length := by
    simp only [String.length_append]
    have : 0 < x.Sexpr.length := by
      rw [String.length]
      exact List.length_pos.2 hx
    have h1 : ("(" : String).length = 1 := rfl
    omega
  have h1 : ¬ (1 < ("(" : String).length) := by decide
  rw [Expression.Sexpr, sexprLoop, if_neg h1, sexprLoop_data rest _ hlen]
  simp [String.data_append]

theorem tokensBy_space_cons (cs : List Char) :
    tokensBy isSpace (' ' :: cs) [] = tokensBy isSpace cs [] := by
  simp [tokensBy, isSpace, flushToken]

theorem tokensBy_close_cons (cs : List Char) :
    tokensBy isSpace (')' :: cs) [] = ")" :: tokensBy isSpace cs [] := by
  simp [tokensBy, isSpace, flushToken]

theorem tokensBy_open_cons (cs : List Char) :
    tokensBy isSpace ('(' :: cs) [] = "(" :: tokensBy isSpace cs [] := by
  simp [tokensBy, isSpace, flushToken]

theorem elements_delim (ys : List Expression) (rest : List Char) :
    (ys.flatMap (fun y => ' ' :: y.Sexpr.data)) ++ ')' :: rest = [] ∨
      (∃ r', (ys.flatMap (fun y => ' ' :: y.Sexpr.data)) ++ ')' :: rest = ' ' :: r') ∨
      ∃ r', (ys.flatMap (fun y => ' ' :: y.Sexpr.data)) ++ ')' :: rest = ')' :: r' := by
  cases ys with
  | nil => exact Or.inr (Or.inr ⟨rest, by simp⟩)
  | cons z zs =>
    exact Or.inr (Or.inl ⟨z.Sexpr.data ++ ((zs.flatMap (fun y => ' ' :: y.Sexpr.data))
      ++ ')' :: rest), by simp⟩)

theorem tokensBy_elements (xs : List Expression) (rest : List Char)
    (ih : ∀ x ∈ xs, ∀ r, (r = [] ∨ (∃ r', r = ' ' :: r') ∨ ∃ r', r = ')' :: r') →
      tokensBy isSpace (x.Sexpr.data ++ r) [] = toks x ++ tokensBy isSpace r []) :
    tokensBy isSpace ((xs.flatMap (fun y => ' ' :: y.Sexpr.data)) ++ ')' :: rest) []
      = toksList xs ++ ")" :: tokensBy isSpace rest [] := by
  induction xs with
  | nil =>
    rw [List.flatMap_nil, List.nil_append, tokensBy_close_cons]
    rfl
  | cons y ys ihy =>
    have heq : ((y :: ys).flatMap (fun y => ' ' :: y.Sexpr.data)) ++ ')' :: rest
        = ' ' :: (y.Sexpr.data ++ ((ys.flatMap (fun y => ' ' :: y.Sexpr.data))
          ++ ')' :: rest)) := by simp
    rw [heq, tokensBy_space_cons, ih y (List.mem_cons_self _ _) _ (elements_delim ys rest),
      ihy (fun x hx => ih x (List.mem_cons_of_mem _ hx)), toksList, List.append_assoc]

theorem tokensBy_Sexpr (parseFloat : String → Option F64) (e : Expression)
    (hr : Readable parseFloat e) (hnf : noFloat e = true) :
    e.Sexpr.data ≠ [] ∧
      ∀ r, (r = [] ∨ (∃ r', r = ' ' :: r') ∨ ∃ r', r = ')' :: r') →
        tokensBy isSpace (e.Sexpr.data ++ r) [] = toks e ++ tokensBy isSpace r [] := by
  induction hr with
  | symbol t hne hplain hatom =>
    obtain ⟨h1, h2, _, h4⟩ := atom_facts parseFloat _ (.symbol t hne hplain hatom) hnf
      (fun xs h => by cases h)
    refine ⟨h1, fun r hrest => ?_⟩
    rw [tokensBy_atom _ r h1 h2 hrest [], h4]
    simp
  | integer i hi1 hi2 =>
    obtain ⟨h1, h2, _, h4⟩ := atom_facts parseFloat _ (.integer i hi1 hi2) hnf
      (fun xs h => by cases h)
    refine ⟨h1, fun r hrest => ?_⟩
    rw [tokensBy_atom _ r h1 h2 hrest [], h4]
    simp
  | bool b hatom =>
    obtain ⟨h1, h2, _, h4⟩ := atom_facts parseFloat _ (.bool b hatom) hnf
      (fun xs h => by cases h)
    refine ⟨h1, fun r hrest => ?_⟩
    rw [tokensBy_atom _ r h1 h2 hrest [], h4]
    simp
  | float f => simp [noFloat] at hnf
  | list xs h ih =>
    have hmem := noFloatList_mem xs (by simpa [noFloat] using hnf)
    cases xs with
    | nil =>
      refine ⟨by simp [Expression.Sexpr, sexprLoop], fun r _ => ?_⟩
      have hd : (Expression.list []).Sexpr.data = ['(', ')'] := rfl
      rw [hd]
      show tokensBy isSpace ('(' :: ')' :: r) [] = _
      rw [tokensBy_open_cons, tokensBy_close_cons]
      rfl
    | cons x rest =>
      have hx := ih x (List.mem_cons_self _ _) (hmem x (List.mem_cons_self _ _))
      rw [Sexpr_list_cons_data x rest hx.1]
      refine ⟨by simp, fun r _ => ?_⟩
      have hrestih : ∀ y ∈ rest, ∀ r, (r = [] ∨ (∃ r', r = ' ' :: r') ∨ ∃ r', r = ')' :: r') →
          tokensBy isSpace (y.Sexpr.data ++ r) [] = toks y ++ tokensBy isSpace r [] :=
        fun y hy => (ih y (List.mem_cons_of_mem _ hy) (hmem y (List.mem_cons_of_mem _ hy))).2
      have heq : '(' :: (x.Sexpr.data ++ (rest.flatMap (fun y => ' ' :: y.Sexpr.data)) ++ [')'])
            ++ r
          = '(' :: (x.Sexpr.data ++ ((rest.flatMap (fun y => ' ' :: y.Sexpr.data))
            ++ ')' :: r)) := by simp
      rw [heq, tokensBy_open_cons, hx.2 _ (elements_delim rest r),
        tokensBy_elements rest r hrestih]
      simp [toks, toksList]

theorem toks_head (parseFloat : String → Option F64) (e : Expression)
    (hr : Readable parseFloat e) (hnf : noFloat e = true) :
    ∃ t ts, toks e = t :: ts ∧ t ≠ ")" := by
  by_cases hl : ∃ xs, e = .list xs
  · obtain ⟨xs, rfl⟩ := hl
    exact ⟨"(", toksList xs ++ [")"], by simp [toks], by decide⟩
  · obtain ⟨h1, h2, _, h4⟩ := atom_facts parseFloat e hr hnf
      (fun xs h => hl ⟨xs, h⟩)
    exact ⟨e.Sexpr, [], h4, (ne_paren_of_plain _ h1 h2).2⟩

theorem read_toks_aux (parseFloat : String → Option F64) (fuel : Nat) :
    (∀ e rest, Readable parseFloat e → noFloat e = true →
        read_from_tokens parseFloat fuel (toks e ++ rest) ≠ .outOfFuel →
        read_from_tokens parseFloat fuel (toks e ++ rest) = .ret (e, rest)) ∧
      (∀ xs l rest, (∀ x ∈ xs, Readable parseFloat x) → noFloatList xs = true →
        readLoop parseFloat fuel (toksList xs ++ ")" :: rest) l ≠ .outOfFuel →
        readLoop parseFloat fuel (toksList xs ++ ")" :: rest) l = .ret (.list (l ++ xs), rest)) := by
  induction fuel with
  | zero =>
    constructor
    · intro e rest _ _ h
      simp [read_from_tokens] at h
    · intro xs l rest _ _ h
      simp [readLoop] at h
  | succ n ih =>
    obtain ⟨ih1, ih2⟩ := ih
    constructor
    · intro e rest hr hnf h
      by_cases hl : ∃ xs, e = .list xs
      · obtain ⟨xs, rfl⟩ := hl
        have hxs : ∀ x ∈ xs, Readable parseFloat x := by
          cases hr with
          | list _ hxs => exact hxs
        have htoks : toks (.list xs) ++ rest = "(" :: (toksList xs ++ ")" :: rest) := by
          simp [toks]
        rw [htoks] at h ⊢
        simp only [read_from_tokens, if_true] at h ⊢
        have := ih2 xs [] rest hxs (by simpa [noFloat] using hnf) h
        simpa using this
      · obtain ⟨h1, h2, h3, h4⟩ := atom_facts parseFloat e hr hnf (fun xs h => hl ⟨xs, h⟩)
        obtain ⟨hp1, hp2⟩ := ne_paren_of_plain _ h1 h2
        rw [h4]
        simp [read_from_tokens, hp1, hp2, h3]
    · intro xs l rest hxs hnf h
      cases xs with
      | nil => simp [toksList, readLoop]
      | cons x xs' =>
        have hx := hxs x (List.mem_cons_self _ _)
        simp only [noFloatList, Bool.and_eq_true] at hnf
        obtain ⟨t, ts, ht, htne⟩ := toks_head parseFloat x hx hnf.1
        have htoks : toksList (x :: xs') ++ ")" :: rest
            = toks x ++ (toksList xs' ++ ")" :: rest) := by
          simp [toksList]
        rw [htoks] at h ⊢
        have hcons : toks x ++ (toksList xs' ++ ")" :: rest)
            = t :: (ts ++ (toksList xs' ++ ")" :: rest)) := by
          rw [ht]
          rfl
        rw [hcons] at h ⊢
        rw [readLoop] at h ⊢
        rw [if_neg htne] at h ⊢
        rw [← hcons] at h ⊢
        rcases hr : read_from_tokens parseFloat n (toks x ++ (toksList xs' ++ ")" :: rest))
          with ⟨e1, t1⟩ | p | _
        · have hr' := ih1 x _ hx hnf.1 (by rw [hr]; simp)
          rw [hr] at hr'
          simp only [Outcome.ret.injEq, Prod.mk.injEq] at hr'
          obtain ⟨he, ht1⟩ := hr'
          subst he ht1
          rw [hr] at h
          simp only at h ⊢
          have := ih2 xs' (Append l e1) rest
            (fun y hy => hxs y (List.mem_cons_of_mem _ hy)) hnf.2 h
          rw [this]
          simp [Append]
        · have hr' := ih1 x _ hx hnf.1 (by rw [hr]; simp)
          rw [hr] at hr'
          simp at hr'
        · rw [hr] at h
          simp at h

theorem parse_Sexpr (parseFloat : String → Option F64) (e : Expression)
    (hr : Readable parseFloat e) (hnf : noFloat e = true) :
    tokenize e.Sexpr = toks e ∧ parse parseFloat e.Sexpr = .ret e := by
  have htok : tokenize e.Sexpr = toks e := by
    have := (tokensBy_Sexpr parseFloat e hr hnf).2 [] (Or.inl rfl)
    rw [tokenize_eq_tokensBy]
    simpa [tokensBy, flushToken] using this
  refine ⟨htok, ?_⟩
  unfold parse
  rw [htok]
  have hfuel := ((read_fuel_aux parseFloat _).1 (toks e) (le_refl _)).1
  have h := (read_toks_aux parseFloat (2 * (toks e).length + 1)).1 e [] hr hnf
    (by simpa using hfuel)
  simp only [List.append_nil] at h
  rw [h]

/-- C17: when `parse` succeeds on a source with an expression `e` in which no Float atom
occurs, the rendering `Sexpr(e)` parses, and parses to `e` itself; its tokens are those of
`e`, atom by atom and parenthesis by parenthesis.  The rendering of an Integer is a single
token that `atom` classifies as that Integer, and the rendering of a Bool that the reader
produced from some token is a single token that `atom` classifies as that Bool. -/
theorem C17_render_then_parse (parseFloat : String → Option F64) (s : String)
    (e : Expression) (hparse : parse parseFloat s = .ret e) (hnf : noFloat e = true) :
    parse parseFloat e.Sexpr = .ret e ∧ tokenize e.Sexpr = toks e ∧
      (∀ i : Int, -(2 : Int) ^ 63 ≤ i → i < (2 : Int) ^ 63 →
        tokenize (Expression.integer i).Sexpr = [(Expression.integer i).Sexpr] ∧
          atom parseFloat (Expression.integer i).Sexpr = .integer i) ∧
      (∀ (b : Bool) (t : String), atom parseFloat t = .bool b →
        tokenize (Expression.bool b).Sexpr = [(Expression.bool b).Sexpr] ∧
          atom parseFloat (Expression.bool b).Sexpr = .bool b) := by
  have hr := parse_readable parseFloat s e hparse
  have h := parse_Sexpr parseFloat e hr hnf
  refine ⟨h.2, h.1, fun i h1 h2 => ?_, fun b t ht => ?_⟩
  · have hi := parse_Sexpr parseFloat (.integer i) (.integer i h1 h2) rfl
    exact ⟨by simpa [toks] using hi.1, atom_itoa parseFloat i h1 h2⟩
  · have hb : atom parseFloat (Expression.bool b).Sexpr = .bool b := by
      rcases atom_cases parseFloat t with ⟨v, _, h⟩ | ⟨f, h⟩ | ⟨htt, h⟩ | ⟨htt, h⟩ | h
      · rw [h] at ht
        cases ht
      · rw [h] at ht
        cases ht
      · rw [h] at ht
        cases ht
        subst htt
        exact h
      · rw [h] at ht
        cases ht
        subst htt
        exact h
      · rw [h] at ht
        cases ht
    have hbb := parse_Sexpr parseFloat (.bool b) (.bool b hb) rfl
    exact ⟨by simpa [toks] using hbb.1, hb⟩

/-- An instance of C17: the source `"(define  (x -12)  () (true +7))"` with a
`ParseFloat` that accepts no token of it. -/
theorem C17_render_then_parse_witness :
    parse (fun _ => none) "(define  (x -12)  () (true +7))"
        = .ret (.list [.symbol "define", .list [.symbol "x", .integer (-12)], .list [],
            .list [.bool true, .integer 7]]) ∧
      noFloat (.list [.symbol "define", .list [.symbol "x", .integer (-12)], .list [],
        .list [.bool true, .integer 7]]) = true ∧
      (Expression.list [.symbol "define", .list [.symbol "x", .integer (-12)], .list [],
        .list [.bool true, .integer 7]]).Sexpr = "(define (x -12) () (true 7))" ∧
      parse (fun _ => none)
          (Expression.list [.symbol "define", .list [.symbol "x", .integer (-12)], .list [],
            .list [.bool true, .integer 7]]).Sexpr
        = .ret (.list [.symbol "define", .list [.symbol "x", .integer (-12)], .list [],
            .list [.bool true, .integer 7]]) :=
  ⟨rfl, rfl, by decide,
    (C17_render_then_parse (fun _ => none) "(define  (x -12)  () (true +7))"
      (.list [.symbol "define", .list [.symbol "x", .integer (-12)], .list [],
        .list [.bool true, .integer 7]]) rfl rfl).1⟩

/-! ## C18: rendered atoms read back -/

theorem shortest_digits (m : Nat) (e : Int) :
    ∀ c ∈ (F64.shortest m e).1, 48 ≤ c.toNat ∧ c.toNat ≤ 57 := by
  intro c hc
  unfold F64.shortest at hc
  split at hc
  · rename_i c0 k _
    simp only [List.mem_reverse] at hc
    have hsub := (List.dropWhile_sublist (fun ch => decide (ch = '0'))
      (l := (Nat.toDigits 10 c0).reverse)).subset hc
    exact toDigits_isDigit c0 c (List.mem_reverse.1 hsub)
  · simp at hc

theorem fmtE_plain (ds : List Char) (dp : Int)
    (hds : ∀ c ∈ ds, 48 ≤ c.toNat ∧ c.toNat ≤ 57) :
    F64.fmtE ds dp ≠ [] ∧ ∀ c ∈ F64.fmtE ds dp, plainChar c := by
  have hmant : ∀ c ∈ (match ds with
      | [] => ['0']
      | [c] => [c]
      | c :: cs => c :: '.' :: cs), plainChar c := by
    intro c hc
    split at hc
    · simp only [List.mem_singleton] at hc
      subst hc
      exact ⟨by decide, by decide, by decide⟩
    · exact plainChar_of_digit c (hds c hc)
    · rename_i d cs _
      rcases List.mem_cons.1 hc with h | h
      · subst h
        exact plainChar_of_digit _ (hds _ (List.mem_cons_self _ _))
      · rcases List.mem_cons.1 h with h | h
        · subst h
          exact ⟨by decide, by decide, by decide⟩
        · exact plainChar_of_digit c (hds c (List.mem_cons_of_mem _ h))
  have hex : ∀ c ∈ (if (Nat.toDigits 10 (dp - 1).natAbs).length < 2
      then '0' :: Nat.toDigits 10 (dp - 1).natAbs
      else Nat.toDigits 10 (dp - 1).natAbs), plainChar c := by
    intro c hc
    split_ifs at hc
    · rcases List.mem_cons.1 hc with h | h
      · subst h
        exact ⟨by decide, by decide, by decide⟩
      · exact plainChar_of_digit c (toDigits_isDigit _ c h)
    · exact plainChar_of_digit c (toDigits_isDigit _ c hc)
  unfold F64.fmtE
  refine ⟨by simp, fun c hc => ?_⟩
  simp only [List.mem_append, List.mem_cons, List.mem_singleton, List.not_mem_nil,
    or_false] at hc
  rcases hc with (hc | hc | hc) | hc
  · exact hmant c hc
  · subst hc
    exact ⟨by decide, by decide, by decide⟩
  · subst hc
    split_ifs
    · exact ⟨by decide, by decide, by decide⟩
    · exact ⟨by decide, by decide, by decide⟩
  · exact hex c hc

theorem fmtF_plain (ds : List Char) (dp : Int)
    (hds : ∀ c ∈ ds, 48 ≤ c.toNat ∧ c.toNat ≤ 57) :
    F64.fmtF ds dp ≠ [] ∧ ∀ c ∈ F64.fmtF ds dp, plainChar c := by
  have hzero : plainChar '0' := ⟨by decide, by decide, by decide⟩
  have hip : (if 0 < dp then ds.take dp.toNat ++ List.replicate (dp.toNat - ds.length) '0'
      else ['0']) ≠ [] ∧
      ∀ c ∈ (if 0 < dp then ds.take dp.toNat ++ List.replicate (dp.toNat - ds.length) '0'
        else ['0']), plainChar c := by
    split_ifs with hdp
    · constructor
      · cases ds with
        | nil =>
          have : dp.toNat ≠ 0 := by omega
          simp [this]
        | cons d ds' =>
          obtain ⟨k, hk⟩ : ∃ k, dp.toNat = k + 1 := ⟨dp.toNat - 1, by omega⟩
          rw [hk]
          simp
      · intro c hc
        rcases List.mem_append.1 hc with h | h
        · exact plainChar_of_digit c (hds c (List.mem_of_mem_take h))
        · rw [List.eq_of_mem_replicate h]
          exact hzero
    · exact ⟨by simp, fun c hc => by
        simp only [List.mem_singleton] at hc
        subst hc
        exact hzero⟩
  have hfrac : ∀ c ∈ (List.range ((ds.length : Int) - dp).toNat).map
      (fun i => if 0 ≤ dp + i ∧ dp + i < ds.length then ds.getD (dp + i).toNat '0' else '0'),
      plainChar c := by
    intro c hc
    obtain ⟨i, _, hi⟩ := List.mem_map.1 hc
    subst hi
    split_ifs with h
    · rw [List.getD_eq_getElem?_getD]
      cases hg : ds[(dp + (i : Int)).toNat]? with
      | none => exact hzero
      | some d =>
        obtain ⟨hlt, hd⟩ := List.getElem?_eq_some_iff.1 hg
        simp only [Option.getD_some]
        exact plainChar_of_digit d (hds d (hd ▸ List.getElem_mem hlt))
    · exact hzero
  unfold F64.fmtF
  simp only
  by_cases hprec : ((ds.length : Int) - dp).toNat = 0
  · rw [if_pos hprec]
    exact hip
  · rw [if_neg hprec]
    refine ⟨by simp [hip.1], fun c hc => ?_⟩
    rcases List.mem_append.1 hc with h | h
    · exact hip.2 c h
    · rcases List.mem_cons.1 h with h | h
      · subst h
        exact ⟨by decide, by decide, by decide⟩
      · exact hfrac c h

theorem sprint_plain (f : F64) :
    (F64.sprint f).data ≠ [] ∧ ∀ c ∈ (F64.sprint f).data, plainChar c := by
  cases f with
  | nan =>
    refine ⟨by decide, ?_⟩
    show ∀ c ∈ ['N', 'a', 'N'], c ≠ ' ' ∧ c ≠ '(' ∧ c ≠ ')'
    decide
  | inf s =>
    cases s
    · refine ⟨by decide, ?_⟩
      show ∀ c ∈ ['+', 'I', 'n', 'f'], c ≠ ' ' ∧ c ≠ '(' ∧ c ≠ ')'
      decide
    · refine ⟨by decide, ?_⟩
      show ∀ c ∈ ['-', 'I', 'n', 'f'], c ≠ ' ' ∧ c ≠ '(' ∧ c ≠ ')'
      decide
  | fin s m e =>
    have hds : ∀ c ∈ (if m = 0 then (([] : List Char), (0 : Int)) else F64.shortest m e).1,
        48 ≤ c.toNat ∧ c.toNat ≤ 57 := by
      split_ifs
      · simp
      · exact shortest_digits m e
    have hbody : ∀ ds dp, (∀ c ∈ ds, 48 ≤ c.toNat ∧ c.toNat ≤ 57) →
        (if dp - 1 < -4 ∨ 6 ≤ dp - 1 then F64.fmtE ds dp else F64.fmtF ds dp) ≠ [] ∧
        ∀ c ∈ (if dp - 1 < -4 ∨ 6 ≤ dp - 1 then F64.fmtE ds dp else F64.fmtF ds dp),
          plainChar c := by
      intro ds dp h
      split_ifs
      · exact fmtE_plain ds dp h
      · exact fmtF_plain ds dp h
    obtain ⟨h1, h2⟩ := hbody _
      (if m = 0 then (([] : List Char), (0 : Int)) else F64.shortest m e).2 hds
    unfold F64.sprint
    simp only
    cases s
    · exact ⟨by simpa using h1, by simpa using h2⟩
    · refine ⟨by simp, fun c hc => ?_⟩
      simp only [if_true, List.mem_cons] at hc
      rcases hc with h | h
      · subst h
        exact ⟨by decide, by decide, by decide⟩
      · exact h2 c h

theorem parse_plain_token (parseFloat : String → Option F64) (t : String)
    (hne : t.data ≠ []) (hplain : ∀ c ∈ t.data, plainChar c) :
    tokenize t = [t] ∧ parse parseFloat t = .ret (atom parseFloat t) := by
  have htok : tokenize t = [t] := by
    have := tokensBy_atom t.data [] hne hplain (Or.inl rfl) []
    rw [tokenize_eq_tokensBy]
    simpa [tokensBy, flushToken] using this
  obtain ⟨hp1, hp2⟩ := ne_paren_of_plain t hne hplain
  refine ⟨htok, ?_⟩
  unfold parse
  rw [htok]
  simp [read_from_tokens, hp1, hp2]

theorem ParseInt_no_dot (t : String) (v : Int) (h : ParseInt t = some v) :
    t.data.contains '.' = false := by
  unfold ParseInt at h
  split at h
  · simp at h
  · rename_i c cs heq
    simp only at h
    have hdig : ∀ ds : List Char, (∃ un, parseDigits ds 0 = some un) → ('.' : Char) ∉ ds := by
      intro ds hds hm
      obtain ⟨un, hun⟩ := hds
      have := parseDigits_isDigit ds 0 un hun '.' hm
      revert this
      decide
    rw [heq]
    by_cases hc : c = '+' ∨ c = '-'
    · simp only [hc, if_true] at h
      split_ifs at h
      all_goals
        cases hp : parseDigits cs 0 with
        | none =>
          rw [hp] at h
          simp at h
        | some un =>
          have hnd := hdig cs ⟨un, hp⟩
          simp only [List.contains_cons, Bool.or_eq_false_iff]
          refine ⟨?_, by simpa using hnd⟩
          rcases hc with rfl | rfl <;> decide
    · simp only [hc, if_false] at h
      cases hp : parseDigits (c :: cs) 0 with
      | none =>
        rw [hp] at h
        simp at h
      | some un =>
        have hnd := hdig (c :: cs) ⟨un, hp⟩
        simpa using hnd

set_option exponentiation.threshold 400 in
set_option maxRecDepth 100000 in
theorem sprint_three : F64.sprint (F64.ofInt 3) = "3" := by decide

/-- Against C18: `(+ 1 2.0)` evaluates to Float(3); its rendering is `"3"`, which is
parsed, whatever `strconv.ParseFloat` is, to the Integer 3, and the Integer 3 evaluates to
itself: an Integer, not the Float. -/
theorem C18_counterexample :
    parse (fun t => if t = "2.0" then some (F64.ofInt 2) else none) "(+ 1 2.0)"
        = .ret (.list [.symbol "+", .integer 1, .float (F64.ofInt 2)]) ∧
      eval 2 (some (.list [.symbol "+", .integer 1, .float (F64.ofInt 2)])) baseEnv
        = (.ret (some (.float (F64.ofInt 3))), baseEnv) ∧
      (Expression.float (F64.ofInt 3)).Sexpr = "3" ∧
      (∀ parseFloat : String → Option F64,
        parse parseFloat (Expression.float (F64.ofInt 3)).Sexpr = .ret (.integer 3)) ∧
      eval 1 (some (.integer 3)) baseEnv = (.ret (some (.integer 3)), baseEnv) ∧
      Expression.integer 3 ≠ Expression.float (F64.ofInt 3) :=
  ⟨rfl, rfl, sprint_three,
    fun _ => by rw [show (Expression.float (F64.ofInt 3)).Sexpr = "3" from sprint_three]; rfl,
    rfl, fun h => Expression.noConfusion h⟩

/-! ## Rounding to the nearest float64 -/

theorem F64.nearest_eq_pack (neg : Bool) (n d : Nat) (hn : n ≠ 0) :
    F64.nearest neg n d
      = F64.pack neg (F64.roundMant n d (max (F64.binExp n d - 52) (-1074)))
          (max (F64.binExp n d - 52) (-1074)) := by
  simp only [F64.nearest, hn, if_false, F64.pack, F64.roundMant, F64.binExp]

theorem F64.geTwoPow_iff (n d : Nat) (l : Int) :
    F64.geTwoPow n d l = true ↔ (d : ℚ) * (2 : ℚ) ^ l ≤ n := by
  unfold F64.geTwoPow
  by_cases hl : 0 ≤ l
  · obtain ⟨k, rfl⟩ := Int.eq_ofNat_of_zero_le hl
    simp only [hl, if_true, Int.toNat_ofNat, decide_eq_true_eq, zpow_natCast]
    exact_mod_cast Iff.rfl
  · obtain ⟨k, hk⟩ : ∃ k : Nat, l = -(k : Int) := ⟨(-l).toNat, by omega⟩
    subst hk
    simp only [hl, if_false, neg_neg, Int.toNat_ofNat, decide_eq_true_eq, zpow_neg,
      zpow_natCast]
    have hpos : (0 : ℚ) < (2 : ℚ) ^ k := by positivity
    rw [← div_eq_mul_inv, div_le_iff₀ hpos]
    exact_mod_cast Iff.rfl

theorem F64.log2_specQ (n : Nat) (hn : 0 < n) :
    (2 : ℚ) ^ (F64.log2 n : Int) ≤ n ∧ (n : ℚ) < (2 : ℚ) ^ ((F64.log2 n : Int) + 1) := by
  obtain ⟨h1, h2⟩ := F64.log2_spec n hn
  constructor
  · rw [zpow_natCast]
    exact_mod_cast h1
  · have : ((F64.log2 n : Int) + 1) = ((F64.log2 n + 1 : Nat) : Int) := by push_cast; rfl
    rw [this, zpow_natCast]
    exact_mod_cast h2

theorem F64.binExp_spec (n d : Nat) (hn : 0 < n) (hd : 0 < d) :
    (d : ℚ) * (2 : ℚ) ^ F64.binExp n d ≤ n ∧
      (n : ℚ) < (d : ℚ) * (2 : ℚ) ^ (F64.binExp n d + 1) := by
  obtain ⟨ha1, ha2⟩ := F64.log2_specQ n hn
  obtain ⟨hb1, hb2⟩ := F64.log2_specQ d hd
  have hdq : (0 : ℚ) < d := by exact_mod_cast hd
  have h2 : (0 : ℚ) < 2 := by norm_num
  -- n < d * 2 ^ (l + 1)
  have hup : (n : ℚ) < (d : ℚ) * (2 : ℚ) ^ ((F64.log2 n : Int) - (F64.log2 d : Int) + 1) := by
    have e1 : (2 : ℚ) ^ ((F64.log2 n : Int) - (F64.log2 d : Int) + 1)
        = (2 : ℚ) ^ ((F64.log2 n : Int) + 1) / (2 : ℚ) ^ (F64.log2 d : Int) := by
      rw [← zpow_sub₀ (by norm_num : (2 : ℚ) ≠ 0)]
      congr 1
      ring
    rw [e1, mul_div_assoc', lt_div_iff₀ (by positivity)]
    calc (n : ℚ) * 2 ^ (F64.log2 d : Int) ≤ n * d := by
          apply mul_le_mul_of_nonneg_left hb1 (by positivity)
      _ = d * n := by ring
      _ < d * 2 ^ ((F64.log2 n : Int) + 1) := by
          apply mul_lt_mul_of_pos_left ha2 hdq
  -- d * 2 ^ (l - 1) ≤ n
  have hlow : (d : ℚ) * (2 : ℚ) ^ ((F64.log2 n : Int) - (F64.log2 d : Int) - 1) ≤ n := by
    have e1 : (2 : ℚ) ^ ((F64.log2 n : Int) - (F64.log2 d : Int) - 1)
        = (2 : ℚ) ^ (F64.log2 n : Int) / (2 : ℚ) ^ ((F64.log2 d : Int) + 1) := by
      rw [← zpow_sub₀ (by norm_num : (2 : ℚ) ≠ 0)]
      congr 1
      ring
    rw [e1, mul_div_assoc', div_le_iff₀ (by positivity)]
    calc (d : ℚ) * 2 ^ (F64.log2 n : Int) ≤ 2 ^ ((F64.log2 d : Int) + 1) * 2 ^ (F64.log2 n : Int) := by
          apply mul_le_mul_of_nonneg_right hb2.le (by positivity)
      _ = 2 ^ (F64.log2 n : Int) * 2 ^ ((F64.log2 d : Int) + 1) := by ring
      _ ≤ n * 2 ^ ((F64.log2 d : Int) + 1) := by
          apply mul_le_mul_of_nonneg_right ha1 (by positivity)
  unfold F64.binExp
  simp only
  by_cases hg : F64.geTwoPow n d ((F64.log2 n : Int) - (F64.log2 d : Int)) = true
  · rw [if_pos hg]
    exact ⟨(F64.geTwoPow_iff n d _).1 hg, hup⟩
  · rw [if_neg hg]
    refine ⟨hlow, ?_⟩
    have := (not_congr (F64.geTwoPow_iff n d ((F64.log2 n : Int) - (F64.log2 d : Int)))).1 hg
    rw [sub_add_cancel]
    exact not_le.1 this

theorem F64.binExp_unique (n d : Nat) (hn : 0 < n) (hd : 0 < d) (a : Int)
    (h1 : (d : ℚ) * (2 : ℚ) ^ a ≤ n) (h2 : (n : ℚ) < (d : ℚ) * (2 : ℚ) ^ (a + 1)) :
    F64.binExp n d = a := by
  obtain ⟨hb1, hb2⟩ := F64.binExp_spec n d hn hd
  have hdq : (0 : ℚ) < d := by exact_mod_cast hd
  have two : (1 : ℚ) < 2 := by norm_num
  -- 2 ^ a < 2 ^ (b + 1) and 2 ^ b < 2 ^ (a + 1)
  have hA : (2 : ℚ) ^ a < (2 : ℚ) ^ (F64.binExp n d + 1) :=
    lt_of_mul_lt_mul_left (lt_of_le_of_lt h1 hb2) hdq.le
  have hB : (2 : ℚ) ^ F64.binExp n d < (2 : ℚ) ^ (a + 1) :=
    lt_of_mul_lt_mul_left (lt_of_le_of_lt hb1 h2) hdq.le
  have hA' := (zpow_lt_zpow_iff_right₀ two).1 hA
  have hB' := (zpow_lt_zpow_iff_right₀ two).1 hB
  omega

theorem F64.binExp_scale (n d t : Nat) (hn : 0 < n) (hd : 0 < d) (ht : 0 < t) :
    F64.binExp (n * t) (d * t) = F64.binExp n d := by
  obtain ⟨h1, h2⟩ := F64.binExp_spec n d hn hd
  have htq : (0 : ℚ) < t := by exact_mod_cast ht
  apply F64.binExp_unique (n * t) (d * t) (Nat.mul_pos hn ht) (Nat.mul_pos hd ht)
  · push_cast
    calc (d : ℚ) * t * 2 ^ F64.binExp n d = (d * 2 ^ F64.binExp n d) * t := by ring
      _ ≤ n * t := mul_le_mul_of_nonneg_right h1 htq.le
  · push_cast
    calc (n : ℚ) * t < (d * 2 ^ (F64.binExp n d + 1)) * t := mul_lt_mul_of_pos_right h2 htq
      _ = d * t * 2 ^ (F64.binExp n d + 1) := by ring

theorem F64.roundMant_scale (n d t : Nat) (ht : 0 < t) (e : Int) :
    F64.roundMant (n * t) (d * t) e = F64.roundMant n d e := by
  unfold F64.roundMant
  have h2 : ∀ r D : Nat, (D * t < 2 * (r * t) ↔ D < 2 * r) := by
    intro r D
    rw [← mul_assoc]
    exact Nat.mul_lt_mul_right ht
  have h3 : ∀ r D : Nat, (2 * (r * t) = D * t ↔ 2 * r = D) := by
    intro r D
    rw [← mul_assoc]
    exact Nat.mul_left_inj (Nat.pos_iff_ne_zero.1 ht)
  by_cases he : e < 0
  · simp only [he, if_true]
    have h1 : n * t * 2 ^ (-e).toNat = (n * 2 ^ (-e).toNat) * t := by ring
    rw [h1, Nat.mul_div_mul_right _ _ ht, Nat.mul_mod_mul_right]
    simp only [h2, h3]
  · simp only [he, if_false]
    have h1 : d * t * 2 ^ e.toNat = (d * 2 ^ e.toNat) * t := by ring
    rw [h1, Nat.mul_div_mul_right _ _ ht, Nat.mul_mod_mul_right]
    simp only [h2, h3]

theorem F64.nearest_scale (neg : Bool) (n d t : Nat) (hd : 0 < d) (ht : 0 < t) :
    F64.nearest neg (n * t) (d * t) = F64.nearest neg n d := by
  by_cases hn : n = 0
  · subst hn
    simp [F64.nearest]
  · have hnt : n * t ≠ 0 := Nat.mul_ne_zero hn (Nat.pos_iff_ne_zero.1 ht)
    rw [F64.nearest_eq_pack neg _ _ hnt, F64.nearest_eq_pack neg _ _ hn,
      F64.binExp_scale n d t (Nat.pos_of_ne_zero hn) hd ht, F64.roundMant_scale n d t ht]

theorem F64.pack_sign (neg : Bool) (M : Nat) (E : Int) (m : Nat) (e : Int)
    (h : F64.pack false M E = F64.fin false m e) : F64.pack neg M E = F64.fin neg m e := by
  unfold F64.pack at h ⊢
  simp only at h ⊢
  split_ifs at h ⊢ <;> simp_all

theorem F64.nearest_sign (neg : Bool) (n d : Nat) (m : Nat) (e : Int)
    (h : F64.nearest false n d = F64.fin false m e) :
    F64.nearest neg n d = F64.fin neg m e := by
  by_cases hn : n = 0
  · subst hn
    simp only [F64.nearest, if_true, F64.fin.injEq, true_and] at h ⊢
    exact h
  · rw [F64.nearest_eq_pack _ _ _ hn] at h ⊢
    exact F64.pack_sign neg _ _ m e h

theorem F64.exp_eq (n d : Nat) (hn : 0 < n) (hd : 0 < d) (E : Int) (hE : -1074 ≤ E)
    (hup : (n : ℚ) < (d : ℚ) * (2 : ℚ) ^ (E + 53))
    (hlow : (d : ℚ) * (2 : ℚ) ^ (E + 52) ≤ n ∨ E = -1074) :
    max (F64.binExp n d - 52) (-1074) = E := by
  obtain ⟨hb1, hb2⟩ := F64.binExp_spec n d hn hd
  have hdq : (0 : ℚ) < d := by exact_mod_cast hd
  have two : (1 : ℚ) < 2 := by norm_num
  rcases hlow with hlow | hlow
  · have := F64.binExp_unique n d hn hd (E + 52) hlow (by
      have : E + 52 + 1 = E + 53 := by ring
      rw [this]
      exact hup)
    rw [this]
    omega
  · have hA : (2 : ℚ) ^ F64.binExp n d < (2 : ℚ) ^ (E + 53) :=
      lt_of_mul_lt_mul_left (lt_of_le_of_lt hb1 hup) hdq.le
    have hA' := (zpow_lt_zpow_iff_right₀ two).1 hA
    omega

/-- What `roundMant` works on: the numerator and the denominator of `n / d / 2^e`. -/
theorem F64.roundMant_frac (n d : Nat) (e : Int) :
    ∃ c : ℚ, 0 < c ∧
      (((if e < 0 then n * 2 ^ (-e).toNat else n : Nat) : ℚ) = n * c) ∧
      (((if e < 0 then d else d * 2 ^ e.toNat : Nat) : ℚ) = d * (2 : ℚ) ^ e * c) := by
  by_cases he : e < 0
  · obtain ⟨k, hk⟩ : ∃ k : Nat, e = -(k : Int) := ⟨(-e).toNat, by omega⟩
    subst hk
    refine ⟨(2 : ℚ) ^ k, by positivity, ?_, ?_⟩
    · simp only [he, if_true, neg_neg, Int.toNat_ofNat]
      push_cast
      ring
    · simp only [he, if_true, zpow_neg, zpow_natCast]
      have : (2 : ℚ) ^ k ≠ 0 := by positivity
      field_simp
  · obtain ⟨k, rfl⟩ := Int.eq_ofNat_of_zero_le (not_lt.1 he)
    refine ⟨1, by norm_num, ?_, ?_⟩
    · simp only [he, if_false]
      ring
    · simp only [he, if_false, Int.toNat_ofNat, zpow_natCast]
      push_cast
      ring

theorem F64.roundMant_near (n d : Nat) (E : Int) (M : Nat)
    (hlo : (2 * (M : ℚ) - 1) * (d * (2 : ℚ) ^ E) < 2 * n)
    (hhi : 2 * (n : ℚ) < (2 * M + 1) * (d * (2 : ℚ) ^ E)) :
    F64.roundMant n d E = M := by
  obtain ⟨c, hc, hnum, hden⟩ := F64.roundMant_frac n d E
  unfold F64.roundMant
  simp only
  generalize (if E < 0 then n * 2 ^ (-E).toNat else n) = num at hnum
  generalize (if E < 0 then d else d * 2 ^ E.toNat) = den at hden
  -- the bounds, on `num` and `den`
  have h1 : (2 * (M : ℚ) - 1) * den < 2 * num := by
    rw [hnum, hden]
    calc (2 * (M : ℚ) - 1) * (d * 2 ^ E * c) = ((2 * (M : ℚ) - 1) * (d * 2 ^ E)) * c := by ring
      _ < (2 * n) * c := mul_lt_mul_of_pos_right hlo hc
      _ = 2 * (n * c) := by ring
  have h2 : 2 * (num : ℚ) < (2 * M + 1) * den := by
    rw [hnum, hden]
    calc 2 * ((n : ℚ) * c) = (2 * n) * c := by ring
      _ < ((2 * M + 1) * (d * 2 ^ E)) * c := mul_lt_mul_of_pos_right hhi hc
      _ = (2 * M + 1) * (d * 2 ^ E * c) := by ring
  have h1' : 2 * M * den < 2 * num + den := by
    have : (2 * (M : ℚ)) * den < 2 * num + den := by linarith
    exact_mod_cast this
  have h2' : 2 * num < (2 * M + 1) * den := by exact_mod_cast h2
  have hden0 : 0 < den := by
    rcases Nat.eq_zero_or_pos den with h | h
    · subst h
      simp at h2'
    · exact h
  have hdm := Nat.div_add_mod num den
  have hr := Nat.mod_lt num hden0
  generalize num / den = q at hdm ⊢
  generalize num % den = r at hdm hr ⊢
  have hq1 : q ≤ M := by
    by_contra h
    have h' : M + 1 ≤ q := by omega
    have := Nat.mul_le_mul_left den h'
    nlinarith
  have hq2 : M ≤ q + 1 := by
    by_contra h
    have h' : q + 2 ≤ M := by omega
    have := Nat.mul_le_mul_left den h'
    nlinarith
  rcases Nat.lt_or_ge q M with hlt | hge
  · have hq : M = q + 1 := by omega
    subst hq
    have : den < 2 * r := by nlinarith
    simp [this]
  · have hq : q = M := by omega
    subst hq
    have h3 : 2 * r < den := by nlinarith
    have h4 : ¬ den < 2 * r := by omega
    have h5 : ¬ 2 * r = den := by omega
    simp [h4, h5]

theorem F64.nearest_near (neg : Bool) (n d : Nat) (hd : 0 < d) (m : Nat) (e : Int)
    (hm : 0 < m) (hm53 : m < 2 ^ 53) (he1 : -1074 ≤ e) (he2 : e ≤ 971)
    (hnorm : 2 ^ 52 ≤ m ∨ e = -1074)
    (hhi : 2 * (n : ℚ) < (2 * m + 1) * (d * (2 : ℚ) ^ e))
    (hlo : (2 * (m : ℚ) - 1) * (d * (2 : ℚ) ^ e) < 2 * n)
    (hlo' : m = 2 ^ 52 → -1074 < e → (4 * (m : ℚ) - 1) * (d * (2 : ℚ) ^ e) < 4 * n) :
    F64.nearest neg n d = F64.fin neg m e := by
  have hdq : (0 : ℚ) < d := by exact_mod_cast hd
  have hX : (0 : ℚ) < d * (2 : ℚ) ^ e := by positivity
  have hmq : (1 : ℚ) ≤ m := by exact_mod_cast hm
  have hm53q : (m : ℚ) ≤ 2 ^ 53 - 1 := by
    have : m + 1 ≤ 2 ^ 53 := hm53
    have h : ((m + 1 : Nat) : ℚ) ≤ ((2 ^ 53 : Nat) : ℚ) := by exact_mod_cast this
    push_cast at h
    linarith
  have hnq : (0 : ℚ) < n := by
    have : 0 < (2 * (m : ℚ) - 1) * (d * (2 : ℚ) ^ e) := by
      apply mul_pos _ hX
      linarith
    linarith
  have hn : 0 < n := by exact_mod_cast hnq
  have hn0 : n ≠ 0 := Nat.pos_iff_ne_zero.1 hn
  have p53 : ∀ a : Int, (2 : ℚ) ^ (a + 53) = (2 : ℚ) ^ a * 2 ^ 53 := by
    intro a
    rw [zpow_add₀ (by norm_num : (2 : ℚ) ≠ 0)]
    norm_num
  have p52 : ∀ a : Int, (2 : ℚ) ^ (a + 52) = (2 : ℚ) ^ a * 2 ^ 52 := by
    intro a
    rw [zpow_add₀ (by norm_num : (2 : ℚ) ≠ 0)]
    norm_num
  rw [F64.nearest_eq_pack neg n d hn0]
  by_cases hC : (n : ℚ) < m * (d * (2 : ℚ) ^ e) ∧ m = 2 ^ 52 ∧ -1074 < e
  · -- just below a power of two: the value lies in the binade below
    obtain ⟨hlt, hm52, hegt⟩ := hC
    have hlo2 := hlo' hm52 hegt
    have hmq52 : (m : ℚ) = 2 ^ 52 := by
      rw [hm52]
      norm_num
    rw [hmq52] at hlt hlo2
    have he' : (2 : ℚ) ^ e = (2 : ℚ) ^ (e - 1) * 2 := by
      have : e = (e - 1) + 1 := by ring
      conv_lhs => rw [this]
      rw [zpow_add₀ (by norm_num : (2 : ℚ) ≠ 0)]
      norm_num
    have hY : (0 : ℚ) < d * (2 : ℚ) ^ (e - 1) := by positivity
    have hE : max (F64.binExp n d - 52) (-1074) = e - 1 := by
      apply F64.exp_eq n d hn hd (e - 1) (by omega)
      · rw [p53]
        rw [he'] at hlt
        nlinarith
      · left
        rw [p52]
        rw [he'] at hlo2
        nlinarith
    rw [hE]
    have hM : F64.roundMant n d (e - 1) = 2 ^ 53 := by
      apply F64.roundMant_near
      · rw [he'] at hlo2
        push_cast
        nlinarith
      · rw [he'] at hlt
        push_cast
        nlinarith
    rw [hM, hm52]
    unfold F64.pack
    simp only [if_true]
    rw [if_neg (by omega)]
    congr 1
    ring
  · have hE : max (F64.binExp n d - 52) (-1074) = e := by
      apply F64.exp_eq n d hn hd e he1
      · rw [p53]
        have : (2 * (m : ℚ) + 1) * (d * (2 : ℚ) ^ e) ≤ (2 * (2 ^ 53 - 1) + 1) * (d * (2 : ℚ) ^ e) :=
          mul_le_mul_of_nonneg_right (by linarith) hX.le
        nlinarith
      · rcases hnorm with h52 | h
        · by_cases he : e = -1074
          · exact Or.inr he
          · left
            have h52q : (2 : ℚ) ^ 52 ≤ m := by exact_mod_cast h52
            rw [p52]
            by_cases hA : (m : ℚ) * (d * (2 : ℚ) ^ e) ≤ n
            · have := mul_le_mul_of_nonneg_right h52q hX.le
              nlinarith
            · have hne : m ≠ 2 ^ 52 := fun h => hC ⟨not_le.1 hA, h, by omega⟩
              have h52' : 2 ^ 52 + 1 ≤ m := by omega
              have h52q' : (2 : ℚ) ^ 52 + 1 ≤ m := by exact_mod_cast h52'
              have := mul_le_mul_of_nonneg_right h52q' hX.le
              nlinarith
        · exact Or.inr h
    rw [hE, F64.roundMant_near n d e m hlo hhi]
    unfold F64.pack
    have hne : m ≠ 2 ^ 53 := by omega
    simp only [hne, if_false]
    rw [if_neg (by omega)]

/-! ## Decimal digits of a float64 -/

theorem F64.ofDecimal_eq (c : Nat) (k : Int) : F64.ofDecimal c k = F64.readValue false c k :=
  rfl

theorem F64.readValue_shift (neg : Bool) (c z : Nat) (k : Int) :
    F64.readValue neg (c * 10 ^ z) k = F64.readValue neg c (k + z) := by
  unfold F64.readValue
  by_cases hk : 0 ≤ k
  · have hkz : 0 ≤ k + z := by omega
    simp only [hk, hkz, if_true]
    have : (k + z).toNat = z + k.toNat := by omega
    rw [this, pow_add, mul_assoc]
  · by_cases hkz : 0 ≤ k + z
    · simp only [hk, hkz, if_true, if_false]
      have hz : z = (k + z).toNat + (-k).toNat := by omega
      have h1 : c * 10 ^ z = (c * 10 ^ (k + z).toNat) * 10 ^ (-k).toNat := by
        conv_lhs => rw [hz]
        rw [pow_add, mul_assoc]
      have h2 := F64.nearest_scale neg (c * 10 ^ (k + z).toNat) 1 (10 ^ (-k).toNat)
        (by norm_num) (pow_pos (by norm_num) _)
      rw [one_mul] at h2
      rw [h1]
      exact h2
    · simp only [hk, hkz, if_false]
      have hz : (-k).toNat = (-(k + z)).toNat + z := by omega
      rw [hz, pow_add]
      exact F64.nearest_scale neg c (10 ^ (-(k + z)).toNat) (10 ^ z) (pow_pos (by norm_num) _)
        (pow_pos (by norm_num) _)

theorem F64.ltTenPow_iff (n d : Nat) (j : Int) :
    F64.ltTenPow n d j = true ↔ (n : ℚ) < (d : ℚ) * (10 : ℚ) ^ j := by
  unfold F64.ltTenPow
  by_cases hj : 0 ≤ j
  · obtain ⟨k, rfl⟩ := Int.eq_ofNat_of_zero_le hj
    simp only [hj, if_true, Int.toNat_ofNat, decide_eq_true_eq, zpow_natCast]
    exact_mod_cast Iff.rfl
  · obtain ⟨k, hk⟩ : ∃ k : Nat, j = -(k : Int) := ⟨(-j).toNat, by omega⟩
    subst hk
    simp only [hj, if_false, neg_neg, Int.toNat_ofNat, decide_eq_true_eq, zpow_neg,
      zpow_natCast]
    have hpos : (0 : ℚ) < (10 : ℚ) ^ k := by positivity
    rw [← div_eq_mul_inv, lt_div_iff₀ hpos]
    exact_mod_cast Iff.rfl

theorem F64.decExpAux_spec (n d : Nat) (fuel : Nat) (k : Int)
    (h1 : (d : ℚ) * (10 : ℚ) ^ k ≤ n) (h2 : (n : ℚ) < (d : ℚ) * (10 : ℚ) ^ (k + fuel)) :
    (d : ℚ) * (10 : ℚ) ^ F64.decExpAux n d fuel k ≤ n ∧
      (n : ℚ) < (d : ℚ) * (10 : ℚ) ^ (F64.decExpAux n d fuel k + 1) := by
  induction fuel generalizing k with
  | zero =>
    simp only [Nat.cast_zero, add_zero] at h2
    exact absurd h1 (not_le.2 h2)
  | succ f ih =>
    unfold F64.decExpAux
    by_cases hlt : F64.ltTenPow n d (k + 1) = true
    · rw [if_pos hlt]
      exact ⟨h1, (F64.ltTenPow_iff n d (k + 1)).1 hlt⟩
    · rw [if_neg hlt]
      have hge := not_lt.1 ((not_congr (F64.ltTenPow_iff n d (k + 1))).1 hlt)
      apply ih (k + 1) hge
      have : k + ((f + 1 : Nat) : Int) = k + 1 + (f : Int) := by push_cast; ring
      rw [this] at h2
      exact h2

/-- The numerator and the denominator that `decimalAt` takes for `m * 2^e`. -/
theorem F64.value_frac (m : Nat) (e : Int) :
    0 < (if 0 ≤ e then 1 else 2 ^ (-e).toNat : Nat) ∧
      (((if 0 ≤ e then m * 2 ^ e.toNat else m : Nat) : ℚ)
        = m * (2 : ℚ) ^ e * ((if 0 ≤ e then 1 else 2 ^ (-e).toNat : Nat) : ℚ)) := by
  by_cases he : 0 ≤ e
  · obtain ⟨k, rfl⟩ := Int.eq_ofNat_of_zero_le he
    simp only [he, if_true, Int.toNat_ofNat, zpow_natCast]
    refine ⟨by norm_num, ?_⟩
    push_cast
    ring
  · obtain ⟨k, hk⟩ : ∃ k : Nat, e = -(k : Int) := ⟨(-e).toNat, by omega⟩
    subst hk
    simp only [he, if_false, neg_neg, Int.toNat_ofNat, zpow_neg, zpow_natCast]
    refine ⟨by positivity, ?_⟩
    push_cast
    have : (2 : ℚ) ^ k ≠ 0 := by positivity
    field_simp

/-- The numerator and the denominator of `n / d / 10^k`, as `decimalAt` takes them. -/
theorem F64.decimal_frac (n d : Nat) (k : Int) :
    ∃ c : ℚ, 0 < c ∧
      (((if 0 ≤ k then n else n * 10 ^ (-k).toNat : Nat) : ℚ) = n * c) ∧
      (((if 0 ≤ k then d * 10 ^ k.toNat else d : Nat) : ℚ) = d * (10 : ℚ) ^ k * c) := by
  by_cases hk : 0 ≤ k
  · obtain ⟨j, rfl⟩ := Int.eq_ofNat_of_zero_le hk
    refine ⟨1, by norm_num, ?_, ?_⟩
    · simp only [hk, if_true]
      ring
    · simp only [hk, if_true, Int.toNat_ofNat, zpow_natCast]
      push_cast
      ring
  · obtain ⟨j, hj⟩ : ∃ j : Nat, k = -(j : Int) := ⟨(-k).toNat, by omega⟩
    subst hj
    refine ⟨(10 : ℚ) ^ j, by positivity, ?_, ?_⟩
    · simp only [hk, if_false, neg_neg, Int.toNat_ofNat]
      push_cast
      ring
    · simp only [hk, if_false, zpow_neg, zpow_natCast]
      have : (10 : ℚ) ^ j ≠ 0 := by positivity
      field_simp

/-- The numerator and the denominator of `y * 10^k`, as `readValue` takes them. -/
theorem F64.readValue_frac (neg : Bool) (y : Nat) (k : Int) :
    ∃ N D : Nat, 0 < D ∧ F64.readValue neg y k = F64.nearest neg N D ∧
      (N : ℚ) = y * (10 : ℚ) ^ k * D := by
  unfold F64.readValue
  by_cases hk : 0 ≤ k
  · obtain ⟨j, rfl⟩ := Int.eq_ofNat_of_zero_le hk
    refine ⟨y * 10 ^ j, 1, by norm_num, by simp, ?_⟩
    rw [zpow_natCast]
    push_cast
    ring
  · obtain ⟨j, hj⟩ : ∃ j : Nat, k = -(j : Int) := ⟨(-k).toNat, by omega⟩
    subst hj
    refine ⟨y, 10 ^ j, by positivity, by simp [hk], ?_⟩
    rw [zpow_neg, zpow_natCast]
    push_cast
    have : (10 : ℚ) ^ j ≠ 0 := by positivity
    field_simp

theorem F64.decimalAt_unfold (m nd : Nat) (e : Int) (n d : Nat) (k : Int)
    (num den lo r : Nat)
    (hn : n = if 0 ≤ e then m * 2 ^ e.toNat else m)
    (hd : d = if 0 ≤ e then 1 else 2 ^ (-e).toNat)
    (hk : k = F64.decExp n d - ((nd : Int) - 1))
    (hnum : num = if 0 ≤ k then n else n * 10 ^ (-k).toNat)
    (hden : den = if 0 ≤ k then d * 10 ^ k.toNat else d)
    (hlo : lo = num / den) (hr : r = num % den) :
    F64.decimalAt m e nd
      = if decide (F64.ofDecimal lo k = F64.fin false m e)
            && decide (F64.ofDecimal (lo + 1) k = F64.fin false m e) then
          some (if decide (den < 2 * r) || (decide (2 * r = den) && decide (lo % 2 = 1))
            then lo + 1 else lo, k)
        else if decide (F64.ofDecimal lo k = F64.fin false m e) then some (lo, k)
        else if decide (F64.ofDecimal (lo + 1) k = F64.fin false m e) then some (lo + 1, k)
        else none := by
  subst hn hd hk hnum hden hlo hr
  rfl

theorem F64.decimalAt_some (m nd : Nat) (e : Int) (c : Nat) (k : Int)
    (h : F64.decimalAt m e nd = some (c, k)) : F64.ofDecimal c k = F64.fin false m e := by
  obtain ⟨n, hn⟩ : ∃ n : Nat, n = if 0 ≤ e then m * 2 ^ e.toNat else m := ⟨_, rfl⟩
  obtain ⟨d, hd⟩ : ∃ d : Nat, d = if 0 ≤ e then 1 else 2 ^ (-e).toNat := ⟨_, rfl⟩
  obtain ⟨k0, hk0⟩ : ∃ k0 : Int, k0 = F64.decExp n d - ((nd : Int) - 1) := ⟨_, rfl⟩
  obtain ⟨num, hnum⟩ : ∃ num : Nat, num = if 0 ≤ k0 then n else n * 10 ^ (-k0).toNat :=
    ⟨_, rfl⟩
  obtain ⟨den, hden⟩ : ∃ den : Nat, den = if 0 ≤ k0 then d * 10 ^ k0.toNat else d := ⟨_, rfl⟩
  obtain ⟨lo, hlo⟩ : ∃ lo : Nat, lo = num / den := ⟨_, rfl⟩
  obtain ⟨r, hr⟩ : ∃ r : Nat, r = num % den := ⟨_, rfl⟩
  rw [F64.decimalAt_unfold m nd e n d k0 num den lo r hn hd hk0 hnum hden hlo hr] at h
  clear hn hd hk0 hnum hden hlo hr
  split_ifs at h with h1 h2 h3 h4
  · simp only [Bool.and_eq_true, decide_eq_true_eq] at h1
    simp only [Option.some.injEq, Prod.mk.injEq] at h
    obtain ⟨hc, hk⟩ := h
    subst hc hk
    exact h1.2
  · simp only [Bool.and_eq_true, decide_eq_true_eq] at h1
    simp only [Option.some.injEq, Prod.mk.injEq] at h
    obtain ⟨hc, hk⟩ := h
    subst hc hk
    exact h1.1
  · simp only [decide_eq_true_eq] at h3
    simp only [Option.some.injEq, Prod.mk.injEq] at h
    obtain ⟨hc, hk⟩ := h
    subst hc hk
    exact h3
  · simp only [decide_eq_true_eq] at h4
    simp only [Option.some.injEq, Prod.mk.injEq] at h
    obtain ⟨hc, hk⟩ := h
    subst hc hk
    exact h4

set_option exponentiation.threshold 2000 in
theorem F64.pow_bounds :
    (10 : ℚ) ^ (-324 : Int) ≤ (2 : ℚ) ^ (-1074 : Int) ∧
      (2 : ℚ) ^ (53 : Nat) * (2 : ℚ) ^ (971 : Int) ≤ (10 : ℚ) ^ (-324 + (700 : Nat) : Int) := by
  constructor
  · rw [zpow_neg, zpow_neg, inv_le_inv₀ (by positivity) (by positivity)]
    norm_num
  · norm_num

/-- A decimal within half a unit of its last place of `m * 2^e`, that unit being less than
`2^e` (and than `2^e / 2` when `m = 2^52`), reads back as `m * 2^e`. -/
theorem F64.readValue_near (m : Nat) (e : Int) (hm : 0 < m) (hm53 : m < 2 ^ 53)
    (he1 : -1074 ≤ e) (he2 : e ≤ 971) (hnorm : 2 ^ 52 ≤ m ∨ e = -1074)
    (y : Nat) (k : Int)
    (hT : (10 : ℚ) ^ k < (2 : ℚ) ^ e)
    (hT' : m = 2 ^ 52 → 2 * (10 : ℚ) ^ k < (2 : ℚ) ^ e)
    (h1 : 2 * ((y : ℚ) * (10 : ℚ) ^ k - m * (2 : ℚ) ^ e) ≤ (10 : ℚ) ^ k)
    (h2 : 2 * ((m : ℚ) * (2 : ℚ) ^ e - y * (10 : ℚ) ^ k) ≤ (10 : ℚ) ^ k) :
    F64.readValue false y k = F64.fin false m e := by
  obtain ⟨N, D, hD, hread, hN⟩ := F64.readValue_frac false y k
  rw [hread]
  have hDq : (0 : ℚ) < D := by exact_mod_cast hD
  have hW : (0 : ℚ) < (2 : ℚ) ^ e := by positivity
  apply F64.nearest_near false N D hD m e hm hm53 he1 he2 hnorm
  · have base : 2 * ((y : ℚ) * (10 : ℚ) ^ k) < (2 * m + 1) * (2 : ℚ) ^ e := by linarith
    have := mul_lt_mul_of_pos_right base hDq
    rw [hN]
    calc 2 * ((y : ℚ) * 10 ^ k * D) = 2 * ((y : ℚ) * 10 ^ k) * D := by ring
      _ < (2 * m + 1) * 2 ^ e * D := this
      _ = (2 * m + 1) * (D * 2 ^ e) := by ring
  · have base : (2 * (m : ℚ) - 1) * (2 : ℚ) ^ e < 2 * ((y : ℚ) * (10 : ℚ) ^ k) := by linarith
    have := mul_lt_mul_of_pos_right base hDq
    rw [hN]
    calc (2 * (m : ℚ) - 1) * (D * 2 ^ e) = (2 * (m : ℚ) - 1) * 2 ^ e * D := by ring
      _ < 2 * ((y : ℚ) * 10 ^ k) * D := this
      _ = 2 * ((y : ℚ) * 10 ^ k * D) := by ring
  · intro hm52 _
    have hT2 := hT' hm52
    have base : (4 * (m : ℚ) - 1) * (2 : ℚ) ^ e < 4 * ((y : ℚ) * (10 : ℚ) ^ k) := by linarith
    have := mul_lt_mul_of_pos_right base hDq
    rw [hN]
    calc (4 * (m : ℚ) - 1) * (D * 2 ^ e) = (4 * (m : ℚ) - 1) * 2 ^ e * D := by ring
      _ < 4 * ((y : ℚ) * 10 ^ k) * D := this
      _ = 4 * ((y : ℚ) * 10 ^ k * D) := by ring

theorem F64.decimalAt_seventeen (m : Nat) (e : Int) (hm : 0 < m) (hm53 : m < 2 ^ 53)
    (he1 : -1074 ≤ e) (he2 : e ≤ 971) (hnorm : 2 ^ 52 ≤ m ∨ e = -1074) :
    F64.decimalAt m e 17 ≠ none := by
  intro hnone
  obtain ⟨n, hn⟩ : ∃ n : Nat, n = if 0 ≤ e then m * 2 ^ e.toNat else m := ⟨_, rfl⟩
  obtain ⟨d, hd⟩ : ∃ d : Nat, d = if 0 ≤ e then 1 else 2 ^ (-e).toNat := ⟨_, rfl⟩
  obtain ⟨k, hk⟩ : ∃ k : Int, k = F64.decExp n d - (((17 : Nat) : Int) - 1) := ⟨_, rfl⟩
  obtain ⟨num, hnum⟩ : ∃ num : Nat, num = if 0 ≤ k then n else n * 10 ^ (-k).toNat :=
    ⟨_, rfl⟩
  obtain ⟨den, hden⟩ : ∃ den : Nat, den = if 0 ≤ k then d * 10 ^ k.toNat else d := ⟨_, rfl⟩
  obtain ⟨lo, hlo⟩ : ∃ lo : Nat, lo = num / den := ⟨_, rfl⟩
  obtain ⟨r, hr⟩ : ∃ r : Nat, r = num % den := ⟨_, rfl⟩
  rw [F64.decimalAt_unfold m 17 e n d k num den lo r hn hd hk hnum hden hlo hr] at hnone
  have hLo : F64.ofDecimal lo k ≠ F64.fin false m e := by
    intro h
    simp only [h, decide_True, Bool.true_and] at hnone
    split_ifs at hnone
  have hHi : F64.ofDecimal (lo + 1) k ≠ F64.fin false m e := by
    intro h
    simp only [h, decide_True, Bool.and_true] at hnone
    split_ifs at hnone
  -- the value, and its bounds
  obtain ⟨hdpos, hval⟩ := F64.value_frac m e
  rw [← hn, ← hd] at hval
  rw [← hd] at hdpos
  have hdq : (0 : ℚ) < d := by exact_mod_cast hdpos
  have hW : (0 : ℚ) < (2 : ℚ) ^ e := by positivity
  have hmq : (1 : ℚ) ≤ m := by exact_mod_cast hm
  have hm53q : (m : ℚ) ≤ 2 ^ 53 - 1 := by
    have : m + 1 ≤ 2 ^ 53 := hm53
    have h : ((m + 1 : Nat) : ℚ) ≤ ((2 ^ 53 : Nat) : ℚ) := by exact_mod_cast this
    push_cast at h
    linarith
  have hWlo : (2 : ℚ) ^ (-1074 : Int) ≤ (2 : ℚ) ^ e :=
    zpow_le_zpow_right₀ (by norm_num) he1
  have hWhi : (2 : ℚ) ^ e ≤ (2 : ℚ) ^ (971 : Int) :=
    zpow_le_zpow_right₀ (by norm_num) he2
  obtain ⟨hp1, hp2⟩ := F64.pow_bounds
  have hX1 : (10 : ℚ) ^ (-324 : Int) ≤ m * (2 : ℚ) ^ e := by
    calc (10 : ℚ) ^ (-324 : Int) ≤ (2 : ℚ) ^ (-1074 : Int) := hp1
      _ ≤ (2 : ℚ) ^ e := hWlo
      _ = 1 * (2 : ℚ) ^ e := by ring
      _ ≤ m * (2 : ℚ) ^ e := mul_le_mul_of_nonneg_right hmq hW.le
  have hX2 : (m : ℚ) * (2 : ℚ) ^ e < (10 : ℚ) ^ (-324 + (700 : Nat) : Int) := by
    calc (m : ℚ) * (2 : ℚ) ^ e ≤ (2 ^ 53 - 1) * (2 : ℚ) ^ e :=
          mul_le_mul_of_nonneg_right hm53q hW.le
      _ < (2 : ℚ) ^ (53 : Nat) * (2 : ℚ) ^ e := by
          apply mul_lt_mul_of_pos_right _ hW
          norm_num
      _ ≤ (2 : ℚ) ^ (53 : Nat) * (2 : ℚ) ^ (971 : Int) :=
          mul_le_mul_of_nonneg_left hWhi (by positivity)
      _ ≤ _ := hp2
  have hK := F64.decExpAux_spec n d 700 (-324)
    (by rw [hval]; nlinarith [mul_le_mul_of_nonneg_right hX1 hdq.le])
    (by rw [hval]; nlinarith [mul_lt_mul_of_pos_right hX2 hdq])
  have hKdef : F64.decExpAux n d 700 (-324) = F64.decExp n d := rfl
  rw [hKdef, hval] at hK
  obtain ⟨hK1, hK2⟩ := hK
  have hK1' : (10 : ℚ) ^ F64.decExp n d ≤ m * (2 : ℚ) ^ e := by
    have : (10 : ℚ) ^ F64.decExp n d * d ≤ (m * (2 : ℚ) ^ e) * d := by linarith
    exact le_of_mul_le_mul_right this hdq
  -- the unit of the last place
  have hTK : (10 : ℚ) ^ F64.decExp n d = (10 : ℚ) ^ k * 10 ^ 16 := by
    have : F64.decExp n d = k + 16 := by
      rw [hk]
      push_cast
      ring
    rw [this, zpow_add₀ (by norm_num : (10 : ℚ) ≠ 0)]
    norm_num
  have hTpos : (0 : ℚ) < (10 : ℚ) ^ k := by positivity
  have hT : (10 : ℚ) ^ k < (2 : ℚ) ^ e := by
    have h1 : (10 : ℚ) ^ k * 10 ^ 16 ≤ (2 ^ 53 - 1) * (2 : ℚ) ^ e := by
      rw [← hTK]
      exact le_trans hK1' (mul_le_mul_of_nonneg_right hm53q hW.le)
    nlinarith
  have hT' : m = 2 ^ 52 → 2 * (10 : ℚ) ^ k < (2 : ℚ) ^ e := by
    intro hm52
    have h1 : (10 : ℚ) ^ k * 10 ^ 16 ≤ 2 ^ 52 * (2 : ℚ) ^ e := by
      rw [← hTK]
      have : (m : ℚ) = 2 ^ 52 := by
        rw [hm52]
        norm_num
      rw [this] at hK1'
      exact hK1'
    nlinarith
  -- the quotient and the remainder
  obtain ⟨c, hc, hnumq, hdenq⟩ := F64.decimal_frac n d k
  rw [← hnum] at hnumq
  rw [← hden] at hdenq
  rw [hval] at hnumq
  have hS : (0 : ℚ) < d * c := by positivity
  have hdenpos : 0 < den := by
    have : (0 : ℚ) < (den : ℚ) := by
      rw [hdenq]
      positivity
    exact_mod_cast this
  have hdm : den * lo + r = num := by
    rw [hlo, hr]
    exact Nat.div_add_mod num den
  have hrlt : r < den := by
    rw [hr]
    exact Nat.mod_lt num hdenpos
  have hdmq : (den : ℚ) * lo + r = num := by exact_mod_cast hdm
  have hrq : (r : ℚ) = (m * (2 : ℚ) ^ e - (10 : ℚ) ^ k * lo) * (d * c) := by
    have : (r : ℚ) = num - den * lo := by linarith
    rw [this, hnumq, hdenq]
    ring
  have hr0 : (0 : ℚ) ≤ r := by positivity
  have hδ0 : 0 ≤ (m : ℚ) * (2 : ℚ) ^ e - (10 : ℚ) ^ k * lo := by
    by_contra hneg
    have := mul_neg_of_neg_of_pos (not_le.1 hneg) hS
    linarith
  have hδ1 : (m : ℚ) * (2 : ℚ) ^ e - (10 : ℚ) ^ k * lo < (10 : ℚ) ^ k := by
    have h1 : (r : ℚ) < den := by exact_mod_cast hrlt
    rw [hrq, hdenq] at h1
    have h2 : (m * (2 : ℚ) ^ e - (10 : ℚ) ^ k * lo) * (d * c) < (10 : ℚ) ^ k * (d * c) := by
      calc _ < (d : ℚ) * (10 : ℚ) ^ k * c := h1
        _ = (10 : ℚ) ^ k * (d * c) := by ring
    exact lt_of_mul_lt_mul_right h2 hS.le
  rcases le_or_lt (2 * r) den with hhalf | hhalf
  · -- the lower decimal is the nearer one
    apply hLo
    rw [F64.ofDecimal_eq]
    have h1 : 2 * (r : ℚ) ≤ den := by exact_mod_cast hhalf
    rw [hrq, hdenq] at h1
    have h2 : (2 * (m * (2 : ℚ) ^ e - (10 : ℚ) ^ k * lo)) * (d * c)
        ≤ (10 : ℚ) ^ k * (d * c) := by
      calc _ = 2 * ((m * (2 : ℚ) ^ e - (10 : ℚ) ^ k * lo) * (d * c)) := by ring
        _ ≤ (d : ℚ) * (10 : ℚ) ^ k * c := h1
        _ = (10 : ℚ) ^ k * (d * c) := by ring
    have h3 := le_of_mul_le_mul_right h2 hS
    apply F64.readValue_near m e hm hm53 he1 he2 hnorm lo k hT hT'
    · linarith
    · linarith
  · -- the upper decimal is the nearer one
    apply hHi
    rw [F64.ofDecimal_eq]
    have h1 : (den : ℚ) < 2 * r := by exact_mod_cast hhalf
    rw [hrq, hdenq] at h1
    have h2 : (10 : ℚ) ^ k * (d * c)
        < (2 * (m * (2 : ℚ) ^ e - (10 : ℚ) ^ k * lo)) * (d * c) := by
      calc (10 : ℚ) ^ k * (d * c) = (d : ℚ) * (10 : ℚ) ^ k * c := by ring
        _ < 2 * ((m * (2 : ℚ) ^ e - (10 : ℚ) ^ k * lo) * (d * c)) := h1
        _ = _ := by ring
    have h3 := lt_of_mul_lt_mul_right h2 hS.le
    apply F64.readValue_near m e hm hm53 he1 he2 hnorm (lo + 1) k hT hT'
    · push_cast
      linarith
    · push_cast
      linarith

/-! ## The digits that `shortest` finds -/

theorem digits_foldl (ds : List Char) (acc : Nat) :
    ds.foldl (fun a c => a * 10 + (c.toNat - 48)) acc
      = acc * 10 ^ ds.length + digitsValue ds := by
  unfold digitsValue
  induction ds generalizing acc with
  | nil => simp
  | cons c cs ih =>
    simp only [List.foldl_cons, List.length_cons]
    rw [ih (acc * 10 + (c.toNat - 48)), ih (0 * 10 + (c.toNat - 48))]
    ring

theorem digitsValue_append (a b : List Char) :
    digitsValue (a ++ b) = digitsValue a * 10 ^ b.length + digitsValue b := by
  conv_lhs => unfold digitsValue
  rw [List.foldl_append, digits_foldl b]
  rfl

theorem digitsValue_zeros (z : Nat) : digitsValue (List.replicate z '0') = 0 := by
  induction z with
  | zero => rfl
  | succ z ih =>
    have : List.replicate (z + 1) '0' = ['0'] ++ List.replicate z '0' := rfl
    have h0 : digitsValue ['0'] = 0 := by decide
    rw [this, digitsValue_append, ih, h0, zero_mul]

theorem parseDigits_eq_foldl (ds : List Char) (acc : Nat)
    (h : ∀ c ∈ ds, 48 ≤ c.toNat ∧ c.toNat ≤ 57) :
    parseDigits ds acc = some (ds.foldl (fun a c => a * 10 + (c.toNat - 48)) acc) := by
  induction ds generalizing acc with
  | nil => rfl
  | cons c cs ih =>
    simp only [parseDigits, List.foldl_cons]
    rw [if_pos (h c (List.mem_cons_self _ _))]
    exact ih _ (fun x hx => h x (List.mem_cons_of_mem _ hx))

theorem digitsValue_toDigits (c : Nat) : digitsValue (Nat.toDigits 10 c) = c := by
  have h1 := parseDigits_toDigits c
  rw [parseDigits_eq_foldl _ 0 (toDigits_isDigit c)] at h1
  exact Option.some.inj h1

theorem strip_zeros (l : List Char) :
    ∃ z, l = (l.reverse.dropWhile (fun ch => decide (ch = '0'))).reverse
      ++ List.replicate z '0' := by
  have h := List.takeWhile_append_dropWhile (fun ch => decide (ch = '0')) l.reverse
  have ht : List.takeWhile (fun ch => decide (ch = '0')) l.reverse
      = List.replicate (List.takeWhile (fun ch => decide (ch = '0')) l.reverse).length '0' := by
    apply List.eq_replicate_of_mem
    intro b hb
    have := List.mem_takeWhile_imp hb
    simpa using this
  refine ⟨(List.takeWhile (fun ch => decide (ch = '0')) l.reverse).length, ?_⟩
  have h2 : l = (List.takeWhile (fun ch => decide (ch = '0')) l.reverse
      ++ List.dropWhile (fun ch => decide (ch = '0')) l.reverse).reverse := by
    rw [h, List.reverse_reverse]
  conv_lhs => rw [h2]
  rw [List.reverse_append]
  congr 1
  conv_lhs => rw [ht]
  rw [List.reverse_replicate]

theorem F64.readValue_zero (neg : Bool) (k : Int) :
    F64.readValue neg 0 k = F64.fin neg 0 (-1074) := by
  unfold F64.readValue
  split_ifs <;> simp [F64.nearest]

/-- What `shortest` returns for a positive float64: digits, not all of them zero, that read
back as the value. -/
theorem F64.shortest_spec (m : Nat) (e : Int) (hm : 0 < m) (hm53 : m < 2 ^ 53)
    (he1 : -1074 ≤ e) (he2 : e ≤ 971) (hnorm : 2 ^ 52 ≤ m ∨ e = -1074) :
    (∀ c ∈ (F64.shortest m e).1, 48 ≤ c.toNat ∧ c.toNat ≤ 57) ∧
      0 < digitsValue (F64.shortest m e).1 ∧
      F64.readValue false (digitsValue (F64.shortest m e).1)
          ((F64.shortest m e).2 - (F64.shortest m e).1.length)
        = F64.fin false m e := by
  have h17 := F64.decimalAt_seventeen m e hm hm53 he1 he2 hnorm
  cases hf : (List.range 17).findSome? (fun i => F64.decimalAt m e (i + 1)) with
  | none =>
    rw [List.findSome?_eq_none_iff] at hf
    exact absurd (hf 16 (by simp)) h17
  | some p =>
    obtain ⟨c, k⟩ := p
    obtain ⟨i, _, hi⟩ := List.exists_of_findSome?_eq_some hf
    have hread := F64.decimalAt_some m (i + 1) e c k hi
    rw [F64.ofDecimal_eq] at hread
    have hc : 0 < c := by
      rcases Nat.eq_zero_or_pos c with h0 | h0
      · subst h0
        rw [F64.readValue_zero] at hread
        simp only [F64.fin.injEq, true_and] at hread
        omega
      · exact h0
    have hs : F64.shortest m e
        = (((Nat.toDigits 10 c).reverse.dropWhile (fun ch => decide (ch = '0'))).reverse,
            ((Nat.toDigits 10 c).length : Int) + k) := by
      unfold F64.shortest
      rw [hf]
    obtain ⟨z, hz⟩ := strip_zeros (Nat.toDigits 10 c)
    rw [hs]
    simp only
    generalize ((Nat.toDigits 10 c).reverse.dropWhile (fun ch => decide (ch = '0'))).reverse
      = ds at hz
    have hval : c = digitsValue ds * 10 ^ z := by
      have := digitsValue_toDigits c
      rw [hz, digitsValue_append, digitsValue_zeros, List.length_replicate, add_zero] at this
      exact this.symm
    have hdig : ∀ ch ∈ ds, 48 ≤ ch.toNat ∧ ch.toNat ≤ 57 := by
      intro ch hch
      apply toDigits_isDigit c ch
      rw [hz]
      exact List.mem_append_left _ hch
    refine ⟨hdig, ?_, ?_⟩
    · rcases Nat.eq_zero_or_pos (digitsValue ds) with h0 | h0
      · rw [h0, zero_mul] at hval
        omega
      · exact h0
    · have hlen : ((Nat.toDigits 10 c).length : Int) + k - (ds.length : Int) = k + z := by
        rw [hz, List.length_append, List.length_replicate]
        push_cast
        ring
      rw [hlen, ← F64.readValue_shift, ← hval]
      exact hread

/-! ## Reading the renderings back -/

theorem spanDigits_append (l rest : List Char) (hl : ∀ c ∈ l, 48 ≤ c.toNat ∧ c.toNat ≤ 57)
    (hrest : ∀ c r, rest = c :: r → ¬ (48 ≤ c.toNat ∧ c.toNat ≤ 57)) :
    spanDigits (l ++ rest) = (l, rest) := by
  induction l with
  | nil =>
    cases rest with
    | nil => rfl
    | cons c r =>
      simp only [List.nil_append, spanDigits]
      rw [if_neg (hrest c r rfl)]
  | cons c cs ih =>
    simp only [List.cons_append, spanDigits, List.append_eq]
    rw [if_pos (hl c (List.mem_cons_self _ _)),
      ih (fun x hx => hl x (List.mem_cons_of_mem _ hx))]

theorem spanDigits_all (l : List Char) (hl : ∀ c ∈ l, 48 ≤ c.toNat ∧ c.toNat ≤ 57) :
    spanDigits l = (l, []) := by
  have := spanDigits_append l [] hl (fun c r h => by cases h)
  simpa using this

theorem readExponent_digits (neg : Bool) (ds : List Char) (hne : ds ≠ [])
    (hds : ∀ c ∈ ds, 48 ≤ c.toNat ∧ c.toNat ≤ 57) :
    readExponent ('e' :: (if neg then '-' else '+') :: ds)
      = some (if neg then -(digitsValue ds : Int) else (digitsValue ds : Int)) := by
  have h1 : ds.isEmpty = false := by
    cases ds with
    | nil => exact absurd rfl hne
    | cons c cs => rfl
  cases neg
  · simp [readExponent, spanDigits_all ds hds, h1]
  · simp [readExponent, spanDigits_all ds hds, h1]

/-- The exponent that `fmtE` writes reads back. -/
theorem readExponent_fmtE (x : Int) :
    readExponent (['e', if x < 0 then '-' else '+']
        ++ (if (Nat.toDigits 10 x.natAbs).length < 2 then '0' :: Nat.toDigits 10 x.natAbs
          else Nat.toDigits 10 x.natAbs))
      = some x := by
  have hd := toDigits_isDigit x.natAbs
  have hne := toDigits_ne_nil x.natAbs
  have hv := digitsValue_toDigits x.natAbs
  have key : ∀ ex : List Char, ex ≠ [] → (∀ c ∈ ex, 48 ≤ c.toNat ∧ c.toNat ≤ 57) →
      digitsValue ex = x.natAbs →
      readExponent (['e', if x < 0 then '-' else '+'] ++ ex) = some x := by
    intro ex h1 h2 h3
    have := readExponent_digits (decide (x < 0)) ex h1 h2
    by_cases hx : x < 0
    · simp only [hx, decide_True, if_true] at this ⊢
      rw [List.cons_append, List.cons_append, List.nil_append, this, h3]
      congr 1
      omega
    · simp only [hx, decide_False, if_false, Bool.false_eq_true] at this ⊢
      rw [List.cons_append, List.cons_append, List.nil_append, this, h3]
      congr 1
      omega
  by_cases hlen : (Nat.toDigits 10 x.natAbs).length < 2
  · rw [if_pos hlen]
    apply key
    · simp
    · intro c hc
      rcases List.mem_cons.1 hc with h | h
      · subst h
        decide
      · exact hd c h
    · have : '0' :: Nat.toDigits 10 x.natAbs = ['0'] ++ Nat.toDigits 10 x.natAbs := rfl
      rw [this, digitsValue_append, hv]
      have h0 : digitsValue ['0'] = 0 := by decide
      rw [h0, zero_mul, zero_add]
  · rw [if_neg hlen]
    exact key _ hne hd hv

theorem not_digit_e : ¬ (48 ≤ 'e'.toNat ∧ 'e'.toNat ≤ 57) := by decide

theorem not_digit_dot : ¬ (48 ≤ '.'.toNat ∧ '.'.toNat ≤ 57) := by decide

theorem readDecimal_plain (ip tail : List Char) (x : Int) (hne : ip ≠ [])
    (hip : ∀ c ∈ ip, 48 ≤ c.toNat ∧ c.toNat ≤ 57)
    (htail : tail = [] ∨ ∃ t, tail = 'e' :: t) (hx : readExponent tail = some x) :
    readDecimal (ip ++ tail) = some (digitsValue ip, x) := by
  have hspan : spanDigits (ip ++ tail) = (ip, tail) := by
    apply spanDigits_append ip tail hip
    intro c r hc
    rcases htail with h | ⟨t, h⟩
    · rw [h] at hc
      cases hc
    · rw [h] at hc
      cases hc
      exact not_digit_e
  have h1 : ip.isEmpty = false := by
    cases ip with
    | nil => exact absurd rfl hne
    | cons c cs => rfl
  unfold readDecimal
  rw [hspan]
  simp only [h1, Bool.false_eq_true, if_false]
  rcases htail with h | ⟨t, h⟩
  · subst h
    simp [hx]
  · subst h
    simp [hx]

theorem readDecimal_point (ip fp tail : List Char) (x : Int) (hne : ip ≠ []) (hfne : fp ≠ [])
    (hip : ∀ c ∈ ip, 48 ≤ c.toNat ∧ c.toNat ≤ 57)
    (hfp : ∀ c ∈ fp, 48 ≤ c.toNat ∧ c.toNat ≤ 57)
    (htail : tail = [] ∨ ∃ t, tail = 'e' :: t) (hx : readExponent tail = some x) :
    readDecimal (ip ++ '.' :: (fp ++ tail))
      = some (digitsValue (ip ++ fp), x - (fp.length : Int)) := by
  have hspan : spanDigits (ip ++ '.' :: (fp ++ tail)) = (ip, '.' :: (fp ++ tail)) := by
    apply spanDigits_append ip _ hip
    intro c r hc
    cases hc
    exact not_digit_dot
  have hspan2 : spanDigits (fp ++ tail) = (fp, tail) := by
    apply spanDigits_append fp tail hfp
    intro c r hc
    rcases htail with h | ⟨t, h⟩
    · rw [h] at hc
      cases hc
    · rw [h] at hc
      cases hc
      exact not_digit_e
  have h1 : ip.isEmpty = false := by
    cases ip with
    | nil => exact absurd rfl hne
    | cons c cs => rfl
  have h2 : fp.isEmpty = false := by
    cases fp with
    | nil => exact absurd rfl hfne
    | cons c cs => rfl
  unfold readDecimal
  rw [hspan]
  simp only [h1, Bool.false_eq_true, if_false, hspan2, h2, hx]

/-- The `%e` layout reads back as its digits at the decimal point it was given. -/
theorem readDecimal_fmtE (ds : List Char) (dp : Int) (hne : ds ≠ [])
    (hds : ∀ c ∈ ds, 48 ≤ c.toNat ∧ c.toNat ≤ 57) :
    readDecimal (F64.fmtE ds dp) = some (digitsValue ds, dp - (ds.length : Int)) := by
  have hexp := readExponent_fmtE (dp - 1)
  have htail : (['e', if dp - 1 < 0 then '-' else '+']
        ++ (if (Nat.toDigits 10 (dp - 1).natAbs).length < 2
          then '0' :: Nat.toDigits 10 (dp - 1).natAbs
          else Nat.toDigits 10 (dp - 1).natAbs)) = []
      ∨ ∃ t, (['e', if dp - 1 < 0 then '-' else '+']
        ++ (if (Nat.toDigits 10 (dp - 1).natAbs).length < 2
          then '0' :: Nat.toDigits 10 (dp - 1).natAbs
          else Nat.toDigits 10 (dp - 1).natAbs)) = 'e' :: t := Or.inr ⟨_, rfl⟩
  unfold F64.fmtE
  simp only [List.append_assoc]
  generalize (['e', if dp - 1 < 0 then '-' else '+']
        ++ (if (Nat.toDigits 10 (dp - 1).natAbs).length < 2
          then '0' :: Nat.toDigits 10 (dp - 1).natAbs
          else Nat.toDigits 10 (dp - 1).natAbs)) = tail at hexp htail
  cases ds with
  | nil => exact absurd rfl hne
  | cons c cs =>
    cases cs with
    | nil =>
      simp only
      rw [readDecimal_plain [c] tail (dp - 1) (by simp) hds htail hexp]
      simp
    | cons c2 cs =>
      simp only
      have := readDecimal_point [c] (c2 :: cs) tail (dp - 1) (by simp) (by simp)
        (fun x hx => hds x (by
          simp only [List.mem_singleton] at hx
          subst hx
          exact List.mem_cons_self _ _))
        (fun x hx => hds x (List.mem_cons_of_mem _ hx)) htail hexp
      simp only [List.singleton_append, List.cons_append, List.nil_append] at this ⊢
      rw [this]
      simp only [List.length_cons]
      congr 2
      push_cast
      ring

/-- The digits that `fmtF` writes after the point: the zeros between the point and the
first digit, then the digits from the point on. -/
theorem fmtF_frac (ds : List Char) (dp : Int) :
    ((List.range ((ds.length : Int) - dp).toNat).map
      (fun i => if 0 ≤ dp + i ∧ dp + i < ds.length then ds.getD (dp + i).toNat '0' else '0'))
    = List.replicate (-dp).toNat '0' ++ ds.drop dp.toNat := by
  simp only [bind_pure_comp, List.map_eq_map, List.map_map]
  apply List.ext_getElem?
  intro i
  by_cases hi : i < ((ds.length : Int) - dp).toNat
  · rw [List.getElem?_map, List.getElem?_range hi]
    simp only [Option.map_some', Function.comp]
    by_cases hz : i < (-dp).toNat
    · rw [List.getElem?_append_left (by simpa using hz)]
      rw [List.getElem?_replicate]
      have : ¬ (0 ≤ dp + (i : Int) ∧ dp + (i : Int) < ds.length) := by omega
      simp [this, hz]
    · rw [List.getElem?_append_right (by simpa using hz)]
      have hc : 0 ≤ dp + (i : Int) ∧ dp + (i : Int) < ds.length := by omega
      simp only [List.length_replicate, List.getElem?_drop]
      have hidx : dp.toNat + (i - (-dp).toNat) = (dp + (i : Int)).toNat := by omega
      rw [hidx, List.getD_eq_getElem?_getD]
      have hlt : (dp + (i : Int)).toNat < ds.length := by omega
      rw [List.getElem?_eq_getElem hlt]
      simp [hc]
  · rw [List.getElem?_eq_none (by simpa using hi)]
    symm
    apply List.getElem?_eq_none
    rw [List.length_append, List.length_replicate, List.length_drop]
    omega

theorem digit_zero : 48 ≤ '0'.toNat ∧ '0'.toNat ≤ 57 := by decide

theorem digits_zeros (z : Nat) : ∀ c ∈ List.replicate z '0', 48 ≤ c.toNat ∧ c.toNat ≤ 57 := by
  intro c hc
  rw [List.eq_of_mem_replicate hc]
  exact digit_zero

theorem digitsValue_lead_zeros (z : Nat) (ds : List Char) :
    digitsValue (List.replicate z '0' ++ ds) = digitsValue ds := by
  rw [digitsValue_append, digitsValue_zeros, zero_mul, zero_add]

/-- The `%f` layout reads back as its digits at the decimal point it was given, up to the
zeros written before the point. -/
theorem readDecimal_fmtF (ds : List Char) (dp : Int)
    (hds : ∀ c ∈ ds, 48 ≤ c.toNat ∧ c.toNat ≤ 57) :
    ∃ (c : Nat) (k : Int) (z : Nat), readDecimal (F64.fmtF ds dp) = some (c, k) ∧
      c = digitsValue ds * 10 ^ z ∧ k + (z : Int) = dp - (ds.length : Int) := by
  have hexp0 : readExponent [] = some 0 := rfl
  have hfrac := fmtF_frac ds dp
  unfold F64.fmtF
  simp only
  rw [hfrac]
  by_cases hdp : 0 < dp
  · simp only [hdp, if_true]
    by_cases hprec : ((ds.length : Int) - dp).toNat = 0
    · -- no digit after the point
      rw [if_pos hprec]
      have htake : List.take dp.toNat ds = ds := List.take_of_length_le (by omega)
      rw [htake]
      have hne : ds ++ List.replicate (dp.toNat - ds.length) '0' ≠ [] := by
        intro h
        have := congrArg List.length h
        rw [List.length_append, List.length_replicate] at this
        simp only [List.length_nil] at this
        omega
      have hdig : ∀ c ∈ ds ++ List.replicate (dp.toNat - ds.length) '0',
          48 ≤ c.toNat ∧ c.toNat ≤ 57 := by
        intro c hc
        rcases List.mem_append.1 hc with h | h
        · exact hds c h
        · exact digits_zeros _ c h
      have := readDecimal_plain _ [] 0 hne hdig (Or.inl rfl) hexp0
      rw [List.append_nil] at this
      refine ⟨_, _, dp.toNat - ds.length, this, ?_, ?_⟩
      · rw [digitsValue_append, digitsValue_zeros, List.length_replicate, add_zero]
      · omega
    · rw [if_neg hprec]
      have hz : (-dp).toNat = 0 := by omega
      have hr : dp.toNat - ds.length = 0 := by omega
      rw [hz, hr]
      simp only [List.replicate_zero, List.append_nil, List.nil_append]
      have hne : List.take dp.toNat ds ≠ [] := by
        intro h
        have := congrArg List.length h
        rw [List.length_take] at this
        simp only [List.length_nil] at this
        omega
      have hne2 : List.drop dp.toNat ds ≠ [] := by
        intro h
        have := congrArg List.length h
        rw [List.length_drop] at this
        simp only [List.length_nil] at this
        omega
      have := readDecimal_point (List.take dp.toNat ds) (List.drop dp.toNat ds) [] 0 hne hne2
        (fun c hc => hds c (List.mem_of_mem_take hc))
        (fun c hc => hds c (List.mem_of_mem_drop hc)) (Or.inl rfl) hexp0
      rw [List.append_nil, List.take_append_drop] at this
      refine ⟨_, _, 0, this, by simp, ?_⟩
      rw [List.length_drop]
      omega
  · simp only [hdp, if_false]
    by_cases hprec : ((ds.length : Int) - dp).toNat = 0
    · -- the value zero
      rw [if_pos hprec]
      have hlen : ds.length = 0 := by omega
      have hnil : ds = [] := List.length_eq_zero.1 hlen
      subst hnil
      have := readDecimal_plain ['0'] [] 0 (by simp)
        (fun c hc => by
          simp only [List.mem_singleton] at hc
          subst hc
          exact digit_zero) (Or.inl rfl) hexp0
      rw [List.append_nil] at this
      refine ⟨_, _, 0, this, by decide, ?_⟩
      simp only [List.length_nil] at hprec ⊢
      omega
    · rw [if_neg hprec]
      have hd0 : dp.toNat = 0 := by omega
      rw [hd0, List.drop_zero]
      have hne2 : List.replicate (-dp).toNat '0' ++ ds ≠ [] := by
        intro h
        have := congrArg List.length h
        rw [List.length_append, List.length_replicate] at this
        simp only [List.length_nil] at this
        omega
      have hdig : ∀ c ∈ List.replicate (-dp).toNat '0' ++ ds,
          48 ≤ c.toNat ∧ c.toNat ≤ 57 := by
        intro c hc
        rcases List.mem_append.1 hc with h | h
        · exact digits_zeros _ c h
        · exact hds c h
      have := readDecimal_point ['0'] (List.replicate (-dp).toNat '0' ++ ds) [] 0 (by simp)
        hne2
        (fun c hc => by
          simp only [List.mem_singleton] at hc
          subst hc
          exact digit_zero) hdig (Or.inl rfl) hexp0
      rw [List.append_nil] at this
      refine ⟨_, _, 0, this, ?_, ?_⟩
      · have h1 : ['0'] ++ (List.replicate (-dp).toNat '0' ++ ds)
            = List.replicate ((-dp).toNat + 1) '0' ++ ds := by
          rw [List.replicate_succ]
          rfl
        rw [h1, digitsValue_lead_zeros]
        simp
      · rw [List.length_append, List.length_replicate]
        push_cast
        omega

theorem F64.readValue_sign (neg : Bool) (c : Nat) (k : Int) (m : Nat) (e : Int)
    (h : F64.readValue false c k = F64.fin false m e) :
    F64.readValue neg c k = F64.fin neg m e := by
  unfold F64.readValue at h ⊢
  split_ifs at h ⊢
  · exact F64.nearest_sign neg _ _ m e h
  · exact F64.nearest_sign neg _ _ m e h

theorem readDecimal_head (cs : List Char) (p : Nat × Int) (h : readDecimal cs = some p) :
    ∃ d r, cs = d :: r ∧ 48 ≤ d.toNat ∧ d.toNat ≤ 57 := by
  cases cs with
  | nil => simp [readDecimal, spanDigits] at h
  | cons d r =>
    refine ⟨d, r, rfl, ?_⟩
    by_contra hd
    simp [readDecimal, spanDigits, hd] at h

theorem F64.sprint_fin (s : Bool) (m : Nat) (e : Int) :
    F64.sprint (F64.fin s m e)
      = String.mk (if s then
          '-' :: (if (if m = 0 then (([] : List Char), (0 : Int)) else F64.shortest m e).2 - 1 < -4
              ∨ 6 ≤ (if m = 0 then (([] : List Char), (0 : Int)) else F64.shortest m e).2 - 1
            then F64.fmtE (if m = 0 then (([] : List Char), (0 : Int)) else F64.shortest m e).1
              (if m = 0 then (([] : List Char), (0 : Int)) else F64.shortest m e).2
            else F64.fmtF (if m = 0 then (([] : List Char), (0 : Int)) else F64.shortest m e).1
              (if m = 0 then (([] : List Char), (0 : Int)) else F64.shortest m e).2)
        else (if (if m = 0 then (([] : List Char), (0 : Int)) else F64.shortest m e).2 - 1 < -4
              ∨ 6 ≤ (if m = 0 then (([] : List Char), (0 : Int)) else F64.shortest m e).2 - 1
            then F64.fmtE (if m = 0 then (([] : List Char), (0 : Int)) else F64.shortest m e).1
              (if m = 0 then (([] : List Char), (0 : Int)) else F64.shortest m e).2
            else F64.fmtF (if m = 0 then (([] : List Char), (0 : Int)) else F64.shortest m e).1
              (if m = 0 then (([] : List Char), (0 : Int)) else F64.shortest m e).2)) := by
  unfold F64.sprint
  simp only

/-- The digits and the decimal point that `sprint` lays out for a finite float64: digits
that read back as the value. -/
theorem F64.digits_spec (m : Nat) (e : Int) (hm53 : m < 2 ^ 53)
    (he1 : -1074 ≤ e) (he2 : e ≤ 971) (hnorm : 2 ^ 52 ≤ m ∨ e = -1074) (ds : List Char)
    (dp : Int) (hp : (if m = 0 then (([] : List Char), (0 : Int)) else F64.shortest m e)
      = (ds, dp)) :
    (∀ c ∈ ds, 48 ≤ c.toNat ∧ c.toNat ≤ 57) ∧ (m ≠ 0 → ds ≠ []) ∧ (m = 0 → dp = 0) ∧
      F64.readValue false (digitsValue ds) (dp - (ds.length : Int)) = F64.fin false m e := by
  by_cases hm : m = 0
  · subst hm
    simp only [if_true, Prod.mk.injEq] at hp
    obtain ⟨h1, h2⟩ := hp
    subst h1 h2
    have he : e = -1074 := by
      rcases hnorm with h | h
      · omega
      · exact h
    subst he
    refine ⟨by simp, by simp, by simp, ?_⟩
    exact F64.readValue_zero false _
  · simp only [hm, if_false] at hp
    obtain ⟨h1, h2, h3⟩ := F64.shortest_spec m e (Nat.pos_of_ne_zero hm) hm53 he1 he2 hnorm
    rw [hp] at h1 h2 h3
    simp only at h1 h2 h3
    refine ⟨h1, fun _ hnil => ?_, fun h => absurd h hm, h3⟩
    subst hnil
    exact absurd h2 (by decide)

/-- The rendering of a finite float64, without its sign, is a decimal literal that reads
back as the value. -/
theorem F64.body_reads_back (s : Bool) (m : Nat) (e : Int) (hm53 : m < 2 ^ 53)
    (he1 : -1074 ≤ e) (he2 : e ≤ 971) (hnorm : 2 ^ 52 ≤ m ∨ e = -1074) (ds : List Char)
    (dp : Int) (hp : (if m = 0 then (([] : List Char), (0 : Int)) else F64.shortest m e)
      = (ds, dp)) :
    ∃ (c : Nat) (k : Int),
      readDecimal (if dp - 1 < -4 ∨ 6 ≤ dp - 1 then F64.fmtE ds dp else F64.fmtF ds dp)
        = some (c, k) ∧ F64.readValue s c k = F64.fin s m e := by
  obtain ⟨hdig, hne, hzero, hread⟩ := F64.digits_spec m e hm53 he1 he2 hnorm ds dp hp
  by_cases hE : dp - 1 < -4 ∨ 6 ≤ dp - 1
  · rw [if_pos hE]
    have hm : m ≠ 0 := by
      intro h
      have := hzero h
      omega
    exact ⟨_, _, readDecimal_fmtE ds dp (hne hm) hdig, F64.readValue_sign s _ _ m e hread⟩
  · rw [if_neg hE]
    obtain ⟨c, k, z, h1, h2, h3⟩ := readDecimal_fmtF ds dp hdig
    refine ⟨c, k, h1, ?_⟩
    rw [h2, F64.readValue_shift, h3]
    exact F64.readValue_sign s _ _ m e hread

theorem decimalFloat_digits (s : Bool) (body : List Char) (c : Nat) (k : Int) (m : Nat)
    (e : Int) (h1 : readDecimal body = some (c, k))
    (h2 : F64.readValue s c k = F64.fin s m e) :
    decimalFloat (String.mk (if s then '-' :: body else body)) = some (F64.fin s m e) := by
  obtain ⟨d, r, hbody, hd⟩ := readDecimal_head body _ h1
  subst hbody
  have hdN : d ≠ 'N' := by
    intro h
    subst h
    revert hd
    decide
  have hdI : d ≠ 'I' := by
    intro h
    subst h
    revert hd
    decide
  have hdp : d ≠ '+' := by
    intro h
    subst h
    revert hd
    decide
  have hdm : d ≠ '-' := by
    intro h
    subst h
    revert hd
    decide
  unfold decimalFloat
  cases s
  · have e1 : String.mk (d :: r) ≠ "NaN" := by
      intro h
      have := congrArg String.data h
      simp only [String.data] at this
      injection this with h1 _
      exact hdN h1
    have e2 : String.mk (d :: r) ≠ "+Inf" := by
      intro h
      have := congrArg String.data h
      simp only [String.data] at this
      injection this with h1 _
      exact hdp h1
    have e3 : String.mk (d :: r) ≠ "-Inf" := by
      intro h
      have := congrArg String.data h
      simp only [String.data] at this
      injection this with h1 _
      exact hdm h1
    simp only [Bool.false_eq_true, if_false, e1, e2, e3, List.head?_cons, Option.some.injEq,
      hdm, hdp, or_self, h1, decide_False, h2]
  · have e1 : String.mk ('-' :: d :: r) ≠ "NaN" := by
      intro h
      have := congrArg String.data h
      simp only [String.data] at this
      injection this with h1 _
      revert h1
      decide
    have e2 : String.mk ('-' :: d :: r) ≠ "+Inf" := by
      intro h
      have := congrArg String.data h
      simp only [String.data] at this
      injection this with h1 _
      revert h1
      decide
    have e3 : String.mk ('-' :: d :: r) ≠ "-Inf" := by
      intro h
      have := congrArg String.data h
      simp only [String.data] at this
      injection this with _ h2
      injection h2 with h3 _
      exact hdI h3
    simp only [if_true, e1, e2, e3, if_false, List.head?_cons, true_or, List.tail_cons, h1,
      decide_True, h2]

/-- The rendering of a float64 reads back as that float64. -/
theorem decimalFloat_sprint (f : F64) (hc : f.Canonical) :
    decimalFloat (F64.sprint f) = some f := by
  cases f with
  | nan => decide
  | inf s =>
    cases s
    · decide
    · decide
  | fin s m e =>
    obtain ⟨hm53, he1, he2, hnorm⟩ := hc
    rw [F64.sprint_fin]
    obtain ⟨ds, dp, hp⟩ : ∃ ds dp,
        (if m = 0 then (([] : List Char), (0 : Int)) else F64.shortest m e) = (ds, dp) :=
      ⟨_, _, rfl⟩
    rw [hp]
    simp only
    obtain ⟨c, k, h1, h2⟩ := F64.body_reads_back s m e hm53 he1 he2 hnorm ds dp hp
    have := decimalFloat_digits s _ c k m e h1 h2
    cases s
    · simpa using this
    · simpa using this

set_option exponentiation.threshold 400 in
set_option maxRecDepth 100000 in
theorem sprint_tenth : F64.sprint (F64.fin false 7205759403792794 (-56)) = "0.1" := by decide

theorem F64.eq_self (f : F64) (h : f ≠ .nan) : F64.eq f f = true := by
  cases f with
  | nan => exact absurd rfl h
  | inf s => simp [F64.eq]
  | fin s m e => simp [F64.eq]

/-- C18, amended: take `strconv.ParseFloat` to read `NaN`, `+Inf`, `-Inf` and every decimal
literal `[+-]digits[.digits][e±digits]` that does not overflow as the float64 nearest to the
number written, ties to even (`decimalFloat`), and to reject `true` and `false`.  Then, in
every environment: the rendering of an int64 Integer and the rendering of a Bool parse to
that very atom, which evaluates to itself; so does the rendering of every Float (a float64,
`Canonical`) other than NaN whose rendering is not an integer literal (`ParseInt` rejects
it), and `==` holds the Float equal to itself; a NaN Float comes back as a NaN Float, which
`==` does not hold equal to itself; and a Float whose rendering is an integer literal comes
back as the Integer of that literal, which evaluates to itself and is not the Float. -/
theorem C18_rendered_atom_reads_back (parseFloat : String → Option F64) (env : Env)
    (fuel : Nat) (hdec : ∀ t v, decimalFloat t = some v → parseFloat t = some v)
    (htrue : parseFloat "true" = none) (hfalse : parseFloat "false" = none) :
    (∀ i : Int, -(2 : Int) ^ 63 ≤ i → i < (2 : Int) ^ 63 →
        parse parseFloat (Expression.integer i).Sexpr = .ret (.integer i) ∧
          eval (fuel + 1) (some (.integer i)) env = (.ret (some (.integer i)), env)) ∧
      (∀ b : Bool,
        parse parseFloat (Expression.bool b).Sexpr = .ret (.bool b) ∧
          eval (fuel + 1) (some (.bool b)) env = (.ret (some (.bool b)), env)) ∧
      (∀ f : F64, f.Canonical → f ≠ F64.nan → ParseInt (F64.sprint f) = none →
        parse parseFloat (Expression.float f).Sexpr = .ret (.float f) ∧
          eval (fuel + 1) (some (.float f)) env = (.ret (some (.float f)), env) ∧
          F64.eq f f = true) ∧
      (parse parseFloat (Expression.float F64.nan).Sexpr = .ret (.float F64.nan) ∧
        eval (fuel + 1) (some (.float F64.nan)) env = (.ret (some (.float F64.nan)), env) ∧
        F64.eq F64.nan F64.nan = false) ∧
      (∀ (f : F64) (v : Int), ParseInt (F64.sprint f) = some v →
        parse parseFloat (Expression.float f).Sexpr = .ret (.integer v) ∧
          eval (fuel + 1) (some (.integer v)) env = (.ret (some (.integer v)), env) ∧
          Expression.integer v ≠ Expression.float f) := by
  have hfloat : ∀ f : F64, f.Canonical → ParseInt (F64.sprint f) = none →
      parse parseFloat (Expression.float f).Sexpr = .ret (.float f) := by
    intro f hc hpi
    have h := (parse_plain_token parseFloat (F64.sprint f) (sprint_plain f).1
      (sprint_plain f).2).2
    have ha : atom parseFloat (F64.sprint f) = .float f := by
      unfold atom
      rw [hpi, hdec _ _ (decimalFloat_sprint f hc)]
    rw [ha] at h
    exact h
  refine ⟨fun i h1 h2 => ⟨?_, rfl⟩, fun b => ⟨?_, rfl⟩,
    fun f hc hn hpi => ⟨hfloat f hc hpi, rfl, F64.eq_self f hn⟩,
    ⟨hfloat F64.nan trivial (by decide), rfl, rfl⟩,
    fun f v hpi => ⟨?_, rfl, fun h => Expression.noConfusion h⟩⟩
  · exact (parse_Sexpr parseFloat (.integer i) (.integer i h1 h2) rfl).2
  · have hb : atom parseFloat (Expression.bool b).Sexpr = .bool b := by
      cases b
      · have hp : ParseInt "false" = none := by decide
        simp [Expression.Sexpr, atom, hp, hfalse]
      · have hp : ParseInt "true" = none := by decide
        simp [Expression.Sexpr, atom, hp, htrue]
    exact (parse_Sexpr parseFloat (.bool b) (.bool b hb) rfl).2
  · have h := (parse_plain_token parseFloat (F64.sprint f) (sprint_plain f).1
      (sprint_plain f).2).2
    have ha : atom parseFloat (F64.sprint f) = .integer v := by
      unfold atom
      rw [hpi]
      simp only [ParseInt_no_dot _ v hpi, Bool.not_false, if_true]
    rw [ha] at h
    exact h

/-- An instance of C18 as amended, with `decimalFloat` itself for `strconv.ParseFloat`: the
Integer `-12`, the Bool `true`, the Float 0.1 (rendered `0.1`), the Float NaN, and the
Float 3, which comes back as the Integer 3. -/
theorem C18_rendered_atom_reads_back_witness :
    ((Expression.integer (-12)).Sexpr = "-12" ∧
        parse decimalFloat (Expression.integer (-12)).Sexpr = .ret (.integer (-12)) ∧
        eval 1 (some (.integer (-12))) baseEnv = (.ret (some (.integer (-12))), baseEnv)) ∧
      ((Expression.bool true).Sexpr = "true" ∧
        parse decimalFloat (Expression.bool true).Sexpr = .ret (.bool true) ∧
        eval 1 (some (.bool true)) baseEnv = (.ret (some (.bool true)), baseEnv)) ∧
      ((Expression.float (F64.fin false 7205759403792794 (-56))).Sexpr = "0.1" ∧
        parse decimalFloat (Expression.float (F64.fin false 7205759403792794 (-56))).Sexpr
          = .ret (.float (F64.fin false 7205759403792794 (-56))) ∧
        eval 1 (some (.float (F64.fin false 7205759403792794 (-56)))) baseEnv
          = (.ret (some (.float (F64.fin false 7205759403792794 (-56)))), baseEnv) ∧
        F64.eq (F64.fin false 7205759403792794 (-56)) (F64.fin false 7205759403792794 (-56))
          = true) ∧
      ((Expression.float F64.nan).Sexpr = "NaN" ∧
        parse decimalFloat (Expression.float F64.nan).Sexpr = .ret (.float F64.nan) ∧
        eval 1 (some (.float F64.nan)) baseEnv = (.ret (some (.float F64.nan)), baseEnv) ∧
        F64.eq F64.nan F64.nan = false) ∧
      ((Expression.float (F64.ofInt 3)).Sexpr = "3" ∧
        parse decimalFloat (Expression.float (F64.ofInt 3)).Sexpr = .ret (.integer 3) ∧
        eval 1 (some (.integer 3)) baseEnv = (.ret (some (.integer 3)), baseEnv) ∧
        Expression.integer 3 ≠ Expression.float (F64.ofInt 3)) :=
  have h := C18_rendered_atom_reads_back decimalFloat baseEnv 0 (fun _ _ h => h)
    (by decide) (by decide)
  ⟨⟨by decide, h.1 (-12) (by decide) (by decide)⟩, ⟨rfl, h.2.1 true⟩,
    ⟨sprint_tenth,
      h.2.2.1 (F64.fin false 7205759403792794 (-56))
        ⟨by norm_num, by norm_num, by norm_num, Or.inl (by norm_num)⟩
        (fun h => F64.noConfusion h) (by rw [sprint_tenth]; rfl)⟩,
    ⟨rfl, h.2.2.2.1⟩,
    ⟨sprint_three, h.2.2.2.2 (F64.ofInt 3) 3 (by rw [sprint_three]; rfl)⟩⟩

end Lis
